import Mathlib

/-!
Verification of the Range-Minimum-Query engine family.

This file gives a shallow embedding of the C++ sources under `src/`:
the shared engine contract (`src/core/rmq_base.cpp`), the Naive and
Dynamic-Programming engines (`src/algorithms/rmq_dp.cpp`), the
Sparse-Table engine (`src/algorithms/rmq_sparse_table.cpp`), the
Block-Decomposition engine (`src/algorithms/rmq_block.cpp`) and the
Cartesian-tree/LCA engine (`src/algorithms/rmq_lca.cpp`), together with
proofs about them.

Conventions of the embedding:
* `Value` (C++ `int`) is modelled as `Int`; `Index`/`Size` (C++ `size_t`)
  as `Nat`.
* arrays (`std::vector<Value>`) are `List Int`; `getE A i` is `A[i]`
  (in-bounds access everywhere the code reads it; theorems carry the
  bounds hypotheses of the call sites).
* the `-1` sentinel the tree code stores in parent/child/ancestor slots
  is kept as the integer `-1`, so node ids in the LCA engine are `Int`.
-/

/-- `data_[i]`: element access of the engine's stored array. -/
def getE (A : List Int) (i : Nat) : Int := A.getD i 0

/-- C++ `INT_MAX` (`std::numeric_limits<int>::max()`), the sentinel used
by the block engine's query loops. -/
def intMax : Int := 2 ^ 31 - 1

/-! ### Specification: range minimum and first argmin

`rminLen A l k` is the minimum of `A[l..l+k]`; `rmin A l r` the minimum
of `A[l..r]`.  These are the mathematical yardstick every engine is
compared against. -/

/-- Minimum of `A[l..l+k]` (k+1 elements). -/
def rminLen (A : List Int) (l : Nat) : Nat → Int
  | 0 => getE A l
  | k + 1 => min (rminLen A l k) (getE A (l + k + 1))

/-- Minimum of `A[l..r]` (for `l ≤ r`). -/
def rmin (A : List Int) (l r : Nat) : Int := rminLen A l (r - l)

/-- First index at or after `l` (searching `k+1` positions) whose value
equals `m`; returns the last searched position if none matches. -/
def firstIdx (A : List Int) (m : Int) (l : Nat) : Nat → Nat
  | 0 => l
  | k + 1 => if getE A l = m then l else firstIdx A m (l + 1) k

/-- The first (lowest) index in `[l, r]` attaining `rmin A l r`. -/
def argminFirst (A : List Int) (l r : Nat) : Nat :=
  firstIdx A (rmin A l r) l (r - l)

theorem rmin_self (A : List Int) (l : Nat) : rmin A l l = getE A l := by
  simp [rmin, rminLen]

theorem rmin_succ (A : List Int) (l r : Nat) (h : l ≤ r) :
    rmin A l (r + 1) = min (rmin A l r) (getE A (r + 1)) := by
  have h1 : r + 1 - l = (r - l) + 1 := by omega
  have h2 : l + (r - l) + 1 = r + 1 := by omega
  simp only [rmin, h1, rminLen, h2]

theorem rmin_le (A : List Int) {l r i : Nat} (h1 : l ≤ i) (h2 : i ≤ r) :
    rmin A l r ≤ getE A i := by
  induction r with
  | zero =>
      have : l = 0 ∧ i = 0 := by omega
      simp [this.1, this.2, rmin_self]
  | succ r ih =>
      rcases Nat.lt_or_ge l (r + 1) with hlt | hge
      · have hlr : l ≤ r := by omega
        rw [rmin_succ A l r hlr]
        rcases Nat.lt_or_ge i (r + 1) with hi | hi
        · exact le_trans (min_le_left _ _) (ih (by omega))
        · have : i = r + 1 := by omega
          subst this
          exact min_le_right _ _
      · have : l = r + 1 ∧ i = r + 1 := by omega
        simp [this.1, this.2, rmin_self]

theorem rmin_attained (A : List Int) {l r : Nat} (h : l ≤ r) :
    ∃ i, l ≤ i ∧ i ≤ r ∧ getE A i = rmin A l r := by
  induction r with
  | zero =>
      exact ⟨0, by omega, by omega, by
        have : l = 0 := by omega
        simp [this, rmin_self]⟩
  | succ r ih =>
      rcases Nat.lt_or_ge l (r + 1) with hlt | hge
      · have hlr : l ≤ r := by omega
        rw [rmin_succ A l r hlr]
        rcases le_or_lt (rmin A l r) (getE A (r + 1)) with hc | hc
        · obtain ⟨i, hi1, hi2, hi3⟩ := ih hlr
          exact ⟨i, hi1, by omega, by rw [hi3, min_eq_left hc]⟩
        · exact ⟨r + 1, by omega, le_refl _, by rw [min_eq_right (le_of_lt hc)]⟩
      · have : l = r + 1 := by omega
        exact ⟨r + 1, by omega, le_refl _, by simp [this, rmin_self]⟩

theorem le_rmin (A : List Int) {l r : Nat} {c : Int} (h : l ≤ r)
    (hall : ∀ i, l ≤ i → i ≤ r → c ≤ getE A i) : c ≤ rmin A l r := by
  obtain ⟨i, hi1, hi2, hi3⟩ := rmin_attained A h
  rw [← hi3]; exact hall i hi1 hi2

/-- Splitting the range at `m`. -/
theorem rmin_split (A : List Int) {l m r : Nat} (h1 : l ≤ m) (h2 : m < r) :
    rmin A l r = min (rmin A l m) (rmin A (m + 1) r) := by
  apply le_antisymm
  · apply le_min
    · exact le_rmin A h1 (fun i hi1 hi2 => rmin_le A hi1 (by omega))
    · exact le_rmin A (by omega) (fun i hi1 hi2 => rmin_le A (by omega) hi2)
  · apply le_rmin A (by omega)
    intro i hi1 hi2
    rcases le_or_lt i m with hc | hc
    · exact le_trans (min_le_left _ _) (rmin_le A hi1 hc)
    · exact le_trans (min_le_right _ _) (rmin_le A (by omega) hi2)

/-- Minima of overlapping windows covering `[l, r]` combine to `rmin`. -/
theorem rmin_cover (A : List Int) {l m r b : Nat} (h1 : l ≤ b) (h2 : b ≤ r)
    (h3 : l ≤ m) (h4 : m ≤ b + 1) (h5 : m ≤ r) :
    min (rmin A l b) (rmin A m r) = rmin A l r := by
  apply le_antisymm
  · apply le_rmin A (le_trans h1 h2)
    intro i hi1 hi2
    rcases le_or_lt i b with hc | hc
    · exact le_trans (min_le_left _ _) (rmin_le A hi1 hc)
    · exact le_trans (min_le_right _ _) (rmin_le A (by omega) hi2)
  · apply le_min
    · exact le_rmin A h1 (fun i hi1 hi2 => rmin_le A hi1 (by omega))
    · exact le_rmin A h5 (fun i hi1 hi2 => rmin_le A (by omega) hi2)

theorem firstIdx_spec (A : List Int) (m : Int) :
    ∀ k l, (∃ j, l ≤ j ∧ j ≤ l + k ∧ getE A j = m) →
      l ≤ firstIdx A m l k ∧ firstIdx A m l k ≤ l + k ∧
      getE A (firstIdx A m l k) = m ∧
      ∀ j, l ≤ j → j < firstIdx A m l k → getE A j ≠ m := by
  intro k
  induction k with
  | zero =>
      intro l ⟨j, hj1, hj2, hj3⟩
      have hjl : j = l := by omega
      subst hjl
      refine ⟨le_refl _, by simp [firstIdx], by simpa [firstIdx] using hj3, ?_⟩
      intro j2 h1 h2
      simp only [firstIdx] at h2
      omega
  | succ k ih =>
      intro l ⟨j, hj1, hj2, hj3⟩
      by_cases hl : getE A l = m
      · refine ⟨?_, ?_, ?_, ?_⟩ <;> simp only [firstIdx, if_pos hl]
        · exact le_refl _
        · omega
        · exact hl
        · intro j2 h1 h2
          omega
      · have hj1' : l + 1 ≤ j := by
          rcases Nat.eq_or_lt_of_le hj1 with h | h
          · exact absurd (h ▸ hj3) hl
          · omega
        obtain ⟨g1, g2, g3, g4⟩ := ih (l + 1) ⟨j, hj1', by omega, hj3⟩
        refine ⟨?_, ?_, ?_, ?_⟩ <;> simp only [firstIdx, hl, if_false]
        · omega
        · omega
        · exact g3
        · intro j2 h1 hlt2
          rcases Nat.eq_or_lt_of_le h1 with h | h
          · exact h ▸ hl
          · exact g4 j2 (by omega) hlt2

theorem argminFirst_spec (A : List Int) {l r : Nat} (h : l ≤ r) :
    l ≤ argminFirst A l r ∧ argminFirst A l r ≤ r ∧
    getE A (argminFirst A l r) = rmin A l r ∧
    ∀ j, l ≤ j → j < argminFirst A l r → getE A j ≠ rmin A l r := by
  obtain ⟨i, hi1, hi2, hi3⟩ := rmin_attained A h
  obtain ⟨g1, g2, g3, g4⟩ :=
    firstIdx_spec A (rmin A l r) (r - l) l ⟨i, hi1, by omega, hi3⟩
  simp only [argminFirst]
  exact ⟨g1, by omega, g3, g4⟩

/-- Unique characterisation: any index in range attaining the minimum
with no earlier attaining index is `argminFirst`. -/
theorem argminFirst_eq (A : List Int) {l r i : Nat} (h : l ≤ r)
    (h1 : l ≤ i) (h2 : i ≤ r) (h3 : getE A i = rmin A l r)
    (h4 : ∀ j, l ≤ j → j < i → getE A j ≠ rmin A l r) :
    argminFirst A l r = i := by
  obtain ⟨g1, g2, g3, g4⟩ := argminFirst_spec A h
  rcases Nat.lt_trichotomy (argminFirst A l r) i with hc | hc | hc
  · exact absurd g3 (h4 _ g1 hc)
  · exact hc
  · exact absurd h3 (g4 _ h1 hc)

/-! ### Naive engine (`RMQNaive`, `src/algorithms/rmq_dp.cpp` part 2)

`performQuery` scans `[left, right]` once keeping the running minimum;
`findMinimumIndex` additionally keeps the index, updating only on a
strictly smaller value. -/

/-- `RMQNaive::performQuery`: linear scan of `data_[left..right]`. -/
def scanMin (A : List Int) (l r : Nat) : Int :=
  (List.range' (l + 1) (r - l)).foldl
    (fun m i => if getE A i < m then getE A i else m) (getE A l)

/-- `RMQNaive::findMinimumIndex`: linear scan keeping `(min_value,
min_index)`, updated only on strictly smaller values. -/
def scanArg (A : List Int) (l r : Nat) : Int × Nat :=
  (List.range' (l + 1) (r - l)).foldl
    (fun p i => if getE A i < p.1 then (getE A i, i) else p) (getE A l, l)

theorem scanMin_zero (A : List Int) (l : Nat) : scanMin A l l = getE A l := by
  simp [scanMin]

theorem scanMin_succ (A : List Int) {l r : Nat} (h : l ≤ r) :
    scanMin A l (r + 1) =
      if getE A (r + 1) < scanMin A l r then getE A (r + 1) else scanMin A l r := by
  have h1 : r + 1 - l = (r - l) + 1 := by omega
  have h2 : l + 1 + 1 * (r - l) = r + 1 := by omega
  simp only [scanMin, h1, List.range'_concat, List.foldl_append, List.foldl_cons,
    List.foldl_nil, h2]

theorem scanMin_spec (A : List Int) {l r : Nat} (h : l ≤ r) :
    scanMin A l r = rmin A l r := by
  induction r with
  | zero =>
      have : l = 0 := by omega
      subst this
      simp [scanMin_zero, rmin_self]
  | succ r ih =>
      rcases Nat.lt_or_ge l (r + 1) with hlt | hge
      · have hlr : l ≤ r := by omega
        rw [scanMin_succ A hlr, rmin_succ A l r hlr, ih hlr]
        rcases lt_or_le (getE A (r + 1)) (rmin A l r) with hc | hc
        · rw [if_pos hc, min_eq_right (le_of_lt hc)]
        · rw [if_neg (not_lt.mpr hc), min_eq_left hc]
      · have : l = r + 1 := by omega
        subst this
        simp [scanMin_zero, rmin_self]

theorem argminFirst_self (A : List Int) (l : Nat) : argminFirst A l l = l := by
  obtain ⟨g1, g2, _, _⟩ := argminFirst_spec A (le_refl l)
  omega

/-- How the first argmin evolves when the range is extended on the
right: the new element takes over only when strictly smaller. -/
theorem argminFirst_succ (A : List Int) {l r : Nat} (h : l ≤ r) :
    argminFirst A l (r + 1) =
      if getE A (r + 1) < rmin A l r then r + 1 else argminFirst A l r := by
  obtain ⟨g1, g2, g3, g4⟩ := argminFirst_spec A h
  rcases lt_or_le (getE A (r + 1)) (rmin A l r) with hc | hc
  · rw [if_pos hc]
    apply argminFirst_eq A (by omega) (by omega) (le_refl _)
    · rw [rmin_succ A l r h, min_eq_right (le_of_lt hc)]
    · intro j h1 h2
      rw [rmin_succ A l r h, min_eq_right (le_of_lt hc)]
      have : rmin A l r ≤ getE A j := rmin_le A h1 (by omega)
      omega
  · rw [if_neg (not_lt.mpr hc)]
    have hmin : rmin A l (r + 1) = rmin A l r := by
      rw [rmin_succ A l r h, min_eq_left hc]
    apply argminFirst_eq A (by omega) g1 (by omega)
    · rw [hmin]; exact g3
    · intro j h1 h2
      rw [hmin]; exact g4 j h1 h2

theorem scanArg_zero (A : List Int) (l : Nat) : scanArg A l l = (getE A l, l) := by
  simp [scanArg]

theorem scanArg_succ (A : List Int) {l r : Nat} (h : l ≤ r) :
    scanArg A l (r + 1) =
      if getE A (r + 1) < (scanArg A l r).1 then (getE A (r + 1), r + 1)
      else scanArg A l r := by
  have h1 : r + 1 - l = (r - l) + 1 := by omega
  have h2 : l + 1 + 1 * (r - l) = r + 1 := by omega
  simp only [scanArg, h1, List.range'_concat, List.foldl_append, List.foldl_cons,
    List.foldl_nil, h2]

theorem scanArg_spec (A : List Int) {l r : Nat} (h : l ≤ r) :
    scanArg A l r = (rmin A l r, argminFirst A l r) := by
  induction r with
  | zero =>
      have : l = 0 := by omega
      subst this
      simp [scanArg_zero, rmin_self, argminFirst_self]
  | succ r ih =>
      rcases Nat.lt_or_ge l (r + 1) with hlt | hge
      · have hlr : l ≤ r := by omega
        rw [scanArg_succ A hlr, ih hlr, rmin_succ A l r hlr, argminFirst_succ A hlr]
        rcases lt_or_le (getE A (r + 1)) (rmin A l r) with hc | hc
        · simp only [if_pos hc, min_eq_right (le_of_lt hc)]
        · simp only [if_neg (not_lt.mpr hc), min_eq_left hc]
      · have : l = r + 1 := by omega
        subst this
        simp [scanArg_zero, rmin_self, argminFirst_self]

/-! ### Dynamic-Programming engine (`RMQDynamicProgramming`)

`performPreprocess` fills `dp_table_[i][j] = min(A[i..j])` and
`min_index_table_[i][j]` bottom-up by range length; entry `(i, j)` for
`i < j` is derived from `(i, j-1)` and `data_[j]`, keeping the earlier
index on ties.  Entries with `j < i` are never read; the embedding
returns the diagonal value there. -/

/-- `dp_table_[i][j]` after `RMQDynamicProgramming::performPreprocess`. -/
def dpVal (A : List Int) (i : Nat) : Nat → Int
  | 0 => getE A i
  | j + 1 =>
      if j + 1 ≤ i then getE A i
      else if dpVal A i j ≤ getE A (j + 1) then dpVal A i j else getE A (j + 1)

/-- `min_index_table_[i][j]` after preprocessing. -/
def dpIdx (A : List Int) (i : Nat) : Nat → Nat
  | 0 => i
  | j + 1 =>
      if j + 1 ≤ i then i
      else if dpVal A i j ≤ getE A (j + 1) then dpIdx A i j else j + 1

theorem dp_spec (A : List Int) {i j : Nat} (h : i ≤ j) :
    dpVal A i j = rmin A i j ∧ dpIdx A i j = argminFirst A i j := by
  induction j with
  | zero =>
      have : i = 0 := by omega
      subst this
      simp [dpVal, dpIdx, rmin_self, argminFirst_self]
  | succ j ih =>
      rcases Nat.lt_or_ge i (j + 1) with hlt | hge
      · have hij : i ≤ j := by omega
        obtain ⟨ihv, ihi⟩ := ih hij
        have hnot : ¬ (j + 1 ≤ i) := by omega
        rw [rmin_succ A i j hij] at *
        constructor
        · simp only [dpVal, if_neg hnot, ihv]
          rcases le_or_lt (rmin A i j) (getE A (j + 1)) with hc | hc
          · rw [if_pos hc, min_eq_left hc]
          · rw [if_neg (not_le.mpr hc), min_eq_right (le_of_lt hc)]
        · simp only [dpIdx, if_neg hnot, ihv, ihi, argminFirst_succ A hij]
          rcases le_or_lt (rmin A i j) (getE A (j + 1)) with hc | hc
          · rw [if_pos hc, if_neg (not_lt.mpr hc)]
          · rw [if_neg (not_le.mpr hc), if_pos hc]
      · have : i = j + 1 := by omega
        subst this
        simp [dpVal, dpIdx, rmin_self, argminFirst_self]

/-! ### Shared engine contract (`RMQBase`, `src/core/rmq_base.cpp`)

The base class holds `data_` and `preprocessed_`; `preprocess`, `query`
and `queryDetailed` are template methods: shared validation wrapping the
engine-specific virtual `performPreprocess` / `performQuery` /
`findMinimumIndex`.  Exceptions are modelled as error codes; C++
exception classes thrown by engine code are classified by the catch
clauses of `RMQBase::preprocess` (every `RMQException` subclass derives
from `std::runtime_error`, hence from `std::exception`). -/

/-- The error taxonomy (`include/core/rmq_exception.h`). -/
inductive Err where
  | Bounds | NotPreprocessed | InvalidQuery | InvalidData
  | Configuration | Allocation | NotSupported | AlgorithmFailure
  deriving DecidableEq, Repr

/-- A C++ exception escaping `performPreprocess`: either
`std::bad_alloc` from a failed allocation, or an `RMQException` subclass
(which derives from `std::exception`). -/
inductive CppExc where
  | badAlloc
  | rmqExc (e : Err)
  deriving DecidableEq, Repr

/-- `constants::MAX_ARRAY_SIZE`. -/
def maxArraySize : Nat := 1000000

/-- Observable state of `RMQBase`: the stored copy of the array and the
`preprocessed_` flag. -/
structure EngineSt where
  data : List Int
  preprocessed : Bool
  deriving DecidableEq, Repr

/-- The freshly-constructed / cleared state. -/
def emptySt : EngineSt := ⟨[], false⟩

/-- `RMQBase::clear`. -/
def clearE (_st : EngineSt) : EngineSt := emptySt

/-- `RMQBase::validateData`. -/
def validateData (d : List Int) : Option Err :=
  if d.length = 0 then some .InvalidData
  else if d.length > maxArraySize then some .InvalidData
  else none

/-- `RMQBase::validateQuery` (runs on the current state). -/
def validateQuery (st : EngineSt) (l r : Nat) : Option Err :=
  if l > r then some .InvalidQuery
  else if st.data.length = 0 then some .InvalidData
  else if r ≥ st.data.length then some .Bounds
  else none

/-- The catch clauses of `RMQBase::preprocess`: `std::bad_alloc` becomes
`AllocationException`; any other `std::exception` — including every
`RMQException` subclass thrown by the engine itself — is re-thrown as
`AlgorithmException`. -/
def catchClassify (e : CppExc) : Err :=
  match e with
  | .badAlloc => .Allocation
  | .rmqExc _ => .AlgorithmFailure

/-- `RMQBase::preprocess`, generic over the engine-specific
`performPreprocess` body `pp` (`pp d = some e` models `performPreprocess`
throwing `e` after `data_ = d` was stored).  On success the new state is
preprocessed; on a `performPreprocess` failure `clear()` rolls the
engine back to the empty state; a `validateData` failure propagates
before any member is touched. -/
def preprocessR (pp : List Int → Option CppExc) (st : EngineSt)
    (d : List Int) : EngineSt × Option Err :=
  match validateData d with
  | some e => (st, some e)
  | none =>
      match pp d with
      | none => (⟨d, true⟩, none)
      | some exc => (emptySt, some (catchClassify exc))

/-- `RMQBase::query`, generic over the engine-specific `performQuery`
body `pf`. -/
def queryR (pf : List Int → Nat → Nat → Int) (st : EngineSt)
    (l r : Nat) : Except Err Int :=
  if st.preprocessed = false then .error .NotPreprocessed
  else match validateQuery st l r with
    | some e => .error e
    | none => .ok (pf st.data l r)

/-- `RMQBase::queryDetailed`, generic over `performQuery` and the
engine's `findMinimumIndex` override; returns (minimum_value,
minimum_index). -/
def queryDetailedR (pf : List Int → Nat → Nat → Int)
    (fidx : List Int → Nat → Nat → Nat) (st : EngineSt)
    (l r : Nat) : Except Err (Int × Nat) :=
  if st.preprocessed = false then .error .NotPreprocessed
  else match validateQuery st l r with
    | some e => .error e
    | none => .ok (pf st.data l r, fidx st.data l r)

/-! ### Naive engine operations (`RMQNaive`) -/

/-- `RMQNaive::performPreprocess` does nothing and cannot fail. -/
def naivePP (_d : List Int) : Option CppExc := none

/-- `RMQNaive::update`. -/
def naiveUpdate (st : EngineSt) (i : Nat) (v : Int) :
    EngineSt × Option Err :=
  if st.preprocessed = false then (st, some .NotPreprocessed)
  else if i ≥ st.data.length then (st, some .Bounds)
  else (⟨st.data.set i v, st.preprocessed⟩, none)

/-- `RMQNaive::batchUpdate`: validate every index, then apply every
pair in order. -/
def naiveBatchUpdate (st : EngineSt) (us : List (Nat × Int)) :
    EngineSt × Option Err :=
  if st.preprocessed = false then (st, some .NotPreprocessed)
  else if us.any (fun p => p.1 ≥ st.data.length) then (st, some .Bounds)
  else (⟨us.foldl (fun a p => a.set p.1 p.2) st.data, st.preprocessed⟩, none)

/-- Merging two windows `[l,b]`, `[m,r]` that cover `[l,r]`: the first
argmin of the union is the first argmin of the window holding the
smaller minimum (ties favouring the left window). -/
theorem argmin_merge (A : List Int) {l b m r : Nat} (h1 : l ≤ b) (h2 : b ≤ r)
    (h3 : l ≤ m) (h4 : m ≤ b + 1) (h5 : m ≤ r) :
    (rmin A l b ≤ rmin A m r → argminFirst A l r = argminFirst A l b) ∧
    (rmin A m r < rmin A l b → argminFirst A l r = argminFirst A m r) := by
  have hcover := rmin_cover A h1 h2 h3 h4 h5
  constructor
  · intro hc
    have hw : rmin A l r = rmin A l b := by
      rw [← hcover, min_eq_left hc]
    obtain ⟨g1, g2, g3, g4⟩ := argminFirst_spec A h1
    apply argminFirst_eq A (le_trans h1 h2) g1 (le_trans g2 h2)
    · rw [hw]; exact g3
    · intro j hj1 hj2
      rw [hw]; exact g4 j hj1 hj2
  · intro hc
    have hw : rmin A l r = rmin A m r := by
      rw [← hcover, min_eq_right (le_of_lt hc)]
    obtain ⟨g1, g2, g3, g4⟩ := argminFirst_spec A h5
    apply argminFirst_eq A (le_trans h1 h2) (le_trans h3 g1) g2
    · rw [hw]; exact g3
    · intro j hj1 hj2
      rw [hw]
      rcases Nat.lt_or_ge j m with hjm | hjm
      · have : rmin A l b ≤ getE A j := rmin_le A hj1 (by omega)
        omega
      · exact g4 j hjm hj2

/-! ### Sparse-Table engine (`RMQSparseTable`)

`precomputeLogTable` tabulates `log_table_[i] = log_table_[i/2] + 1`
(floor of log2); `performPreprocess` fills `st[i][j]` from the two
halves of length `2^(j-1)`, keeping the left half's entry on ties. -/

/-- `log_table_[n]` as filled by `precomputeLogTable`. -/
def logT (n : Nat) : Nat :=
  if h : n ≤ 1 then 0 else logT (n / 2) + 1
decreasing_by
  simp_wf
  omega

/-- `sparse_table_[i][j]` after preprocessing. -/
def stVal (A : List Int) : Nat → Nat → Int
  | i, 0 => getE A i
  | i, j + 1 =>
      if stVal A i j ≤ stVal A (i + 2 ^ j) j then stVal A i j
      else stVal A (i + 2 ^ j) j

/-- `index_table_[i][j]` after preprocessing. -/
def stIdx (A : List Int) : Nat → Nat → Nat
  | i, 0 => i
  | i, j + 1 =>
      if stVal A i j ≤ stVal A (i + 2 ^ j) j then stIdx A i j
      else stIdx A (i + 2 ^ j) j

/-- `RMQSparseTable::performQuery`; `right - power + 1` is `size_t`
arithmetic, whose (non-negative) value is `r + 1 - power`. -/
def sparsePerformQuery (A : List Int) (l r : Nat) : Int :=
  let k := logT (r - l + 1)
  let power := 2 ^ k
  min (stVal A l k) (stVal A (r + 1 - power) k)

/-- `RMQSparseTable::findMinimumIndex`. -/
def sparseFindMinIndex (A : List Int) (l r : Nat) : Nat :=
  let k := logT (r - l + 1)
  let power := 2 ^ k
  if stVal A l k ≤ stVal A (r + 1 - power) k then stIdx A l k
  else stIdx A (r + 1 - power) k

theorem logT_spec : ∀ n, 1 ≤ n → 2 ^ logT n ≤ n ∧ n < 2 ^ (logT n + 1) := by
  intro n
  induction n using Nat.strong_induction_on with
  | _ n ih =>
      intro hn
      by_cases h1 : n ≤ 1
      · have : n = 1 := by omega
        subst this
        rw [logT]
        simp
      · have h2 : 2 ≤ n := by omega
        have hd : 1 ≤ n / 2 := by omega
        obtain ⟨ihl, ihr⟩ := ih (n / 2) (by omega) hd
        rw [logT]
        simp only [dif_neg h1]
        constructor
        · have : 2 ^ (logT (n / 2) + 1) = 2 * 2 ^ logT (n / 2) := by ring
          rw [this]
          omega
        · have : 2 ^ (logT (n / 2) + 1 + 1) = 2 * 2 ^ (logT (n / 2) + 1) := by ring
          rw [this]
          omega

theorem stVal_spec (A : List Int) : ∀ j i, stVal A i j = rmin A i (i + (2 ^ j - 1)) := by
  intro j
  induction j with
  | zero => intro i; simp [stVal, rmin_self]
  | succ j ih =>
      intro i
      have hp : 1 ≤ 2 ^ j := Nat.one_le_two_pow
      have hsplit : rmin A i (i + (2 ^ (j + 1) - 1)) =
          min (rmin A i (i + (2 ^ j - 1))) (rmin A (i + 2 ^ j) (i + 2 ^ j + (2 ^ j - 1))) := by
        have hpow : 2 ^ (j + 1) = 2 ^ j + 2 ^ j := by
          rw [pow_succ]; ring
        have hm : i + (2 ^ j - 1) + 1 = i + 2 ^ j := by omega
        rw [rmin_split A (show i ≤ i + (2 ^ j - 1) by omega)
          (show i + (2 ^ j - 1) < i + (2 ^ (j + 1) - 1) by omega), hm]
        congr 2
        omega
      rw [stVal, ih i, ih (i + 2 ^ j), hsplit]
      rcases le_or_lt (rmin A i (i + (2 ^ j - 1)))
        (rmin A (i + 2 ^ j) (i + 2 ^ j + (2 ^ j - 1))) with hc | hc
      · rw [if_pos hc, min_eq_left hc]
      · rw [if_neg (not_le.mpr hc), min_eq_right (le_of_lt hc)]

theorem stIdx_spec (A : List Int) : ∀ j i, stIdx A i j = argminFirst A i (i + (2 ^ j - 1)) := by
  intro j
  induction j with
  | zero => intro i; simp [stIdx, argminFirst_self]
  | succ j ih =>
      intro i
      have hp : 1 ≤ 2 ^ j := Nat.one_le_two_pow
      have hpow : 2 ^ (j + 1) = 2 ^ j + 2 ^ j := by
        rw [pow_succ]; ring
      have hmerge := argmin_merge A
        (show i ≤ i + (2 ^ j - 1) by omega)
        (show i + (2 ^ j - 1) ≤ i + (2 ^ (j + 1) - 1) by omega)
        (show i ≤ i + 2 ^ j by omega)
        (show i + 2 ^ j ≤ i + (2 ^ j - 1) + 1 by omega)
        (show i + 2 ^ j ≤ i + (2 ^ (j + 1) - 1) by omega)
      have hr : i + 2 ^ j + (2 ^ j - 1) = i + (2 ^ (j + 1) - 1) := by omega
      rw [stIdx, stVal_spec, stVal_spec, ih i, ih (i + 2 ^ j), hr] at *
      rcases le_or_lt (rmin A i (i + (2 ^ j - 1)))
        (rmin A (i + 2 ^ j) (i + (2 ^ (j + 1) - 1))) with hc | hc
      · rw [if_pos hc, hmerge.1 hc]
      · rw [if_neg (not_le.mpr hc), hmerge.2 hc]

theorem sparsePerformQuery_spec (A : List Int) {l r : Nat} (h : l ≤ r) :
    sparsePerformQuery A l r = rmin A l r := by
  have hlen : 1 ≤ r - l + 1 := by omega
  obtain ⟨hp2, hp3⟩ := logT_spec (r - l + 1) hlen
  set k := logT (r - l + 1) with hk
  have hp1 : 1 ≤ 2 ^ k := Nat.one_le_two_pow
  have hpow : 2 ^ (k + 1) = 2 ^ k + 2 ^ k := by
    rw [pow_succ]; ring
  have e1 : l + (2 ^ k - 1) ≤ r := by omega
  have e2 : r + 1 - 2 ^ k + (2 ^ k - 1) = r := by omega
  have hcov := rmin_cover A
    (show l ≤ l + (2 ^ k - 1) by omega) e1
    (show l ≤ r + 1 - 2 ^ k by omega)
    (show r + 1 - 2 ^ k ≤ l + (2 ^ k - 1) + 1 by omega)
    (show r + 1 - 2 ^ k ≤ r by omega)
  simp only [sparsePerformQuery, ← hk, stVal_spec, e2]
  rw [← hcov]

theorem sparseFindMinIndex_spec (A : List Int) {l r : Nat} (h : l ≤ r) :
    sparseFindMinIndex A l r = argminFirst A l r := by
  have hlen : 1 ≤ r - l + 1 := by omega
  obtain ⟨hp2, hp3⟩ := logT_spec (r - l + 1) hlen
  set k := logT (r - l + 1) with hk
  have hp1 : 1 ≤ 2 ^ k := Nat.one_le_two_pow
  have hpow : 2 ^ (k + 1) = 2 ^ k + 2 ^ k := by
    rw [pow_succ]; ring
  have e1 : l + (2 ^ k - 1) ≤ r := by omega
  have e2 : r + 1 - 2 ^ k + (2 ^ k - 1) = r := by omega
  have hmerge := argmin_merge A
    (show l ≤ l + (2 ^ k - 1) by omega) e1
    (show l ≤ r + 1 - 2 ^ k by omega)
    (show r + 1 - 2 ^ k ≤ l + (2 ^ k - 1) + 1 by omega)
    (show r + 1 - 2 ^ k ≤ r by omega)
  simp only [sparseFindMinIndex, ← hk, stVal_spec, stIdx_spec, e2]
  rcases le_or_lt (rmin A l (l + (2 ^ k - 1))) (rmin A (r + 1 - 2 ^ k) r) with hc | hc
  · rw [if_pos hc, hmerge.1 hc]
  · rw [if_neg (not_le.mpr hc), hmerge.2 hc]

/-! ### Block-Decomposition engine (`RMQBlockDecomposition`)

State: stored array, the `block_size_`, and the per-block
`(block_min_, block_min_index_)` arrays (modelled as functions of the
block number; only blocks below `num_blocks_` are ever read).  Its
query loops start from the sentinel `std::numeric_limits<Value>::max()`,
so value-correctness statements carry the C++ `int` range bound. -/

/-- `RMQBlockDecomposition::calculateBlockSize`: an explicitly
configured size (anything other than `DEFAULT_BLOCK_SIZE = 0`) is
clamped to `n`; the default is `(size_t)std::sqrt(n) + 1`, the floor of
the square root plus one (exact for every `n ≤ MAX_ARRAY_SIZE`). -/
def calculateBlockSize (cfg n : Nat) : Nat :=
  if cfg ≠ 0 then min cfg n else Nat.sqrt n + 1

/-- `getBlockStart`. -/
def getBlockStart (bs b : Nat) : Nat := b * bs

/-- `getBlockEnd` (inclusive, clamped to the last index). -/
def getBlockEnd (A : List Int) (bs b : Nat) : Nat :=
  min ((b + 1) * bs - 1) (A.length - 1)

/-- The value `computeBlockMinimum` stores in `block_min_[b]`. -/
def blockMinOf (A : List Int) (bs b : Nat) : Int :=
  (scanArg A (getBlockStart bs b) (getBlockEnd A bs b)).1

/-- The index `computeBlockMinimum` stores in `block_min_index_[b]`. -/
def blockIdxOf (A : List Int) (bs b : Nat) : Nat :=
  (scanArg A (getBlockStart bs b) (getBlockEnd A bs b)).2

/-- Observable state of `RMQBlockDecomposition`. -/
structure BlockSt where
  data : List Int
  preprocessed : Bool
  bs : Nat
  bmin : Nat → Int
  bidx : Nat → Nat

/-- State built by a successful `performPreprocess` (block size from the
configuration, every block minimum computed by `computeBlockMinimum`). -/
def blockBuild (cfg : Nat) (d : List Int) : BlockSt :=
  let bs := calculateBlockSize cfg d.length
  ⟨d, true, bs, fun b => blockMinOf d bs b, fun b => blockIdxOf d bs b⟩

/-- `preprocess` on the block engine (the `RMQBase` wrapper around
`performPreprocess`, allocation succeeding). -/
def blockPreprocess (cfg : Nat) (st : BlockSt) (d : List Int) :
    BlockSt × Option Err :=
  match validateData d with
  | some e => (st, some e)
  | none => (blockBuild cfg d, none)

/-- `RMQBlockDecomposition::performQuery`. -/
def blockPerformQuery (st : BlockSt) (l r : Nat) : Int :=
  let lb := l / st.bs
  let rb := r / st.bs
  if lb = rb then scanMin st.data l r
  else
    let res1 := min intMax (scanMin st.data l (getBlockEnd st.data st.bs lb))
    let res2 := (List.range' (lb + 1) (rb - (lb + 1))).foldl
      (fun m b => min m (st.bmin b)) res1
    min res2 (scanMin st.data (getBlockStart st.bs rb) r)

/-- `RMQBlockDecomposition::findMinimumIndex`. -/
def blockFindMinIndex (st : BlockSt) (l r : Nat) : Nat :=
  let lb := l / st.bs
  let rb := r / st.bs
  if lb = rb then (scanArg st.data l r).2
  else
    let p1 := (scanArg st.data l (getBlockEnd st.data st.bs lb)).2
    let s1 : Int × Nat :=
      if getE st.data p1 < intMax then (getE st.data p1, p1) else (intMax, l)
    let s2 := (List.range' (lb + 1) (rb - (lb + 1))).foldl
      (fun s b => if st.bmin b < s.1 then (st.bmin b, st.bidx b) else s) s1
    let p2 := (scanArg st.data (getBlockStart st.bs rb) r).2
    if getE st.data p2 < s2.1 then p2 else s2.2

/-- `RMQBlockDecomposition::update`: write the value, then recompute the
owning block with `computeBlockMinimum`. -/
def blockUpdate (st : BlockSt) (i : Nat) (v : Int) : BlockSt × Option Err :=
  if st.preprocessed = false then (st, some .NotPreprocessed)
  else if i ≥ st.data.length then (st, some .Bounds)
  else
    let d := st.data.set i v
    let blk := i / st.bs
    (⟨d, st.preprocessed, st.bs,
      fun b => if b = blk then blockMinOf d st.bs b else st.bmin b,
      fun b => if b = blk then blockIdxOf d st.bs b else st.bidx b⟩, none)

/-- `RMQBlockDecomposition::batchUpdate`: validate every index, apply
every write, then recompute each touched block once. -/
def blockBatchUpdate (st : BlockSt) (us : List (Nat × Int)) :
    BlockSt × Option Err :=
  if st.preprocessed = false then (st, some .NotPreprocessed)
  else if us.any (fun p => p.1 ≥ st.data.length) then (st, some .Bounds)
  else
    let d := us.foldl (fun a p => a.set p.1 p.2) st.data
    (⟨d, st.preprocessed, st.bs,
      fun b => if us.any (fun p => p.1 / st.bs = b) then blockMinOf d st.bs b else st.bmin b,
      fun b => if us.any (fun p => p.1 / st.bs = b) then blockIdxOf d st.bs b else st.bidx b⟩,
     none)

/-- Well-formedness of a preprocessed block state: positive block size
and block tables agreeing with `computeBlockMinimum` on the current
array. -/
def blockWF (st : BlockSt) : Prop :=
  1 ≤ st.bs ∧ st.bmin = (fun b => blockMinOf st.data st.bs b) ∧
    st.bidx = (fun b => blockIdxOf st.data st.bs b)

/-- All stored values are on the C++ `int` range (upper bound). -/
def valBound (A : List Int) : Prop := ∀ x ∈ A, x ≤ intMax

theorem div_mul_upper (a bs : Nat) (h : 1 ≤ bs) : a < (a / bs + 1) * bs := by
  have h1 := Nat.div_add_mod a bs
  have h2 := Nat.mod_lt a (show 0 < bs by omega)
  calc a = bs * (a / bs) + a % bs := h1.symm
    _ < bs * (a / bs) + bs := by omega
    _ = (a / bs + 1) * bs := by ring

theorem getE_le (A : List Int) {i : Nat} (hv : valBound A)
    (h : i < A.length) : getE A i ≤ intMax := by
  rw [getE, List.getD_eq_getElem A 0 h]
  exact hv _ (List.getElem_mem h)

theorem rmin_le_intMax (A : List Int) {l r : Nat} (hv : valBound A)
    (h : l ≤ r) (hr : r < A.length) : rmin A l r ≤ intMax := by
  obtain ⟨i, hi1, hi2, hi3⟩ := rmin_attained A h
  rw [← hi3]
  exact getE_le A hv (by omega)


theorem blockMinOf_spec (A : List Int) {bs b : Nat} (hbs : 1 ≤ bs)
    (hb : (b + 1) * bs ≤ A.length) :
    blockMinOf A bs b = rmin A (b * bs) ((b + 1) * bs - 1) ∧
    blockIdxOf A bs b = argminFirst A (b * bs) ((b + 1) * bs - 1) := by
  have eB : (b + 1) * bs = b * bs + bs := by ring
  have h1 : b * bs ≤ (b + 1) * bs - 1 := by omega
  have h2 : getBlockEnd A bs b = (b + 1) * bs - 1 := by
    simp only [getBlockEnd]
    omega
  have := scanArg_spec A h1
  constructor
  · simp only [blockMinOf, getBlockStart, h2, this]
  · simp only [blockIdxOf, getBlockStart, h2, this]

theorem middleFold (A : List Int) {bs : Nat} (hbs : 1 ≤ bs) :
    ∀ t s l, 1 ≤ s → l ≤ s * bs - 1 → (s + t) * bs ≤ A.length →
    (List.range' s t).foldl (fun m b => min m (blockMinOf A bs b))
      (rmin A l (s * bs - 1)) = rmin A l ((s + t) * bs - 1) := by
  intro t
  induction t with
  | zero => intro s l _ _ _; simp
  | succ t ih =>
      intro s l h1 h2 h3
      have eA : (s + (t + 1)) * bs = s * bs + t * bs + bs := by ring
      have eB : (s + 1) * bs = s * bs + bs := by ring
      have eC : (s + 1 + t) * bs = s * bs + t * bs + bs := by ring
      have hsb : 1 ≤ s * bs := by
        have := Nat.mul_le_mul h1 hbs
        simpa using this
      have hb : (s + 1) * bs ≤ A.length := by omega
      rw [List.range'_succ]
      simp only [List.foldl_cons]
      have hbm := (blockMinOf_spec A hbs hb).1
      have hcomb : min (rmin A l (s * bs - 1)) (blockMinOf A bs s)
          = rmin A l ((s + 1) * bs - 1) := by
        rw [hbm]
        have hsplit := rmin_split A (l := l) (m := s * bs - 1)
          (r := (s + 1) * bs - 1) h2 (by omega)
        have he : s * bs - 1 + 1 = s * bs := by omega
        rw [he] at hsplit
        exact hsplit.symm
      rw [hcomb]
      have hres := ih (s + 1) l (by omega) (by omega) (by omega)
      have he2 : (s + 1 + t) * bs = (s + (t + 1)) * bs := by ring
      rw [he2] at hres
      exact hres

theorem middleFoldArg (A : List Int) {bs : Nat} (hbs : 1 ≤ bs) :
    ∀ t s l, 1 ≤ s → l ≤ s * bs - 1 → (s + t) * bs ≤ A.length →
    (List.range' s t).foldl
      (fun p b => if blockMinOf A bs b < p.1 then (blockMinOf A bs b, blockIdxOf A bs b) else p)
      (rmin A l (s * bs - 1), argminFirst A l (s * bs - 1))
      = (rmin A l ((s + t) * bs - 1), argminFirst A l ((s + t) * bs - 1)) := by
  intro t
  induction t with
  | zero => intro s l _ _ _; simp
  | succ t ih =>
      intro s l h1 h2 h3
      have eA : (s + (t + 1)) * bs = s * bs + t * bs + bs := by ring
      have eB : (s + 1) * bs = s * bs + bs := by ring
      have eC : (s + 1 + t) * bs = s * bs + t * bs + bs := by ring
      have hsb : 1 ≤ s * bs := by
        have := Nat.mul_le_mul h1 hbs
        simpa using this
      have hb : (s + 1) * bs ≤ A.length := by omega
      rw [List.range'_succ]
      simp only [List.foldl_cons]
      obtain ⟨hbm, hbi⟩ := blockMinOf_spec A hbs hb
      have he : s * bs - 1 + 1 = s * bs := by omega
      have hsplit := rmin_split A (l := l) (m := s * bs - 1)
        (r := (s + 1) * bs - 1) h2 (by omega)
      rw [he] at hsplit
      have hmg := argmin_merge A (l := l) (b := s * bs - 1)
        (m := s * bs) (r := (s + 1) * bs - 1) h2 (by omega) (by omega)
        (by omega) (by omega)
      have hstep :
          (if blockMinOf A bs s < rmin A l (s * bs - 1)
            then (blockMinOf A bs s, blockIdxOf A bs s)
            else (rmin A l (s * bs - 1), argminFirst A l (s * bs - 1)))
          = (rmin A l ((s + 1) * bs - 1), argminFirst A l ((s + 1) * bs - 1)) := by
        rw [hbm, hbi]
        rcases lt_or_le (rmin A (s * bs) ((s + 1) * bs - 1)) (rmin A l (s * bs - 1)) with hc | hc
        · rw [if_pos hc, hmg.2 hc, hsplit, min_eq_right (le_of_lt hc)]
        · rw [if_neg (not_lt.mpr hc), hsplit, min_eq_left hc, hmg.1 hc]
      rw [hstep]
      have hres := ih (s + 1) l (by omega) (by omega) (by omega)
      have he2 : (s + 1 + t) * bs = (s + (t + 1)) * bs := by ring
      rw [he2] at hres
      exact hres

theorem argmin_of_top (A : List Int) {l r : Nat} (hv : valBound A)
    (h : l ≤ r) (hr : r < A.length) (hm : rmin A l r = intMax) :
    argminFirst A l r = l := by
  apply argminFirst_eq A h (le_refl l) h
  · apply le_antisymm
    · rw [hm]; exact getE_le A hv (by omega)
    · exact rmin_le A (le_refl l) h
  · intro j h1 h2
    omega

theorem blockPerformQuery_spec (st : BlockSt) (hwf : blockWF st)
    (hv : valBound st.data) {l r : Nat} (h : l ≤ r) (hr : r < st.data.length) :
    blockPerformQuery st l r = rmin st.data l r := by
  obtain ⟨hbs, hbm, hbi⟩ := hwf
  by_cases heq : l / st.bs = r / st.bs
  · simp only [blockPerformQuery, heq, if_true, eq_self_iff_true]
    exact scanMin_spec st.data h
  · have hle : l / st.bs ≤ r / st.bs := Nat.div_le_div_right h
    have hlt : l / st.bs < r / st.bs := lt_of_le_of_ne hle heq
    have hrb1 : r / st.bs * st.bs ≤ r := Nat.div_mul_le_self r st.bs
    have hlup : l < (l / st.bs + 1) * st.bs := div_mul_upper l st.bs hbs
    have hmono : (l / st.bs + 1) * st.bs ≤ r / st.bs * st.bs :=
      Nat.mul_le_mul_right st.bs (by omega)
    have hrb_pos : 1 ≤ r / st.bs := Nat.lt_of_le_of_lt (Nat.zero_le _) hlt
    have hrbs1 : 1 ≤ r / st.bs * st.bs := by
      have := Nat.mul_le_mul hrb_pos hbs
      simpa using this
    have hlbE : getBlockEnd st.data st.bs (l / st.bs) = (l / st.bs + 1) * st.bs - 1 := by
      simp only [getBlockEnd]
      omega
    have hsum : l / st.bs + 1 + (r / st.bs - (l / st.bs + 1)) = r / st.bs := by omega
    have hmid := middleFold st.data hbs (r / st.bs - (l / st.bs + 1)) (l / st.bs + 1) l
      (Nat.succ_le_succ (Nat.zero_le _)) (by omega) (by rw [hsum]; omega)
    rw [hsum] at hmid
    simp only [blockPerformQuery, heq, if_false, hbm, hlbE, getBlockStart]
    rw [scanMin_spec st.data (show l ≤ (l / st.bs + 1) * st.bs - 1 by omega),
      min_eq_right (rmin_le_intMax st.data hv
        (show l ≤ (l / st.bs + 1) * st.bs - 1 by omega) (by omega)),
      hmid,
      scanMin_spec st.data (show r / st.bs * st.bs ≤ r by omega)]
    have hsplit := rmin_split st.data (l := l) (m := r / st.bs * st.bs - 1) (r := r)
      (by omega) (by omega)
    have he : r / st.bs * st.bs - 1 + 1 = r / st.bs * st.bs := by omega
    rw [he] at hsplit
    exact hsplit.symm

theorem blockFindMinIndex_spec (st : BlockSt) (hwf : blockWF st)
    (hv : valBound st.data) {l r : Nat} (h : l ≤ r) (hr : r < st.data.length) :
    blockFindMinIndex st l r = argminFirst st.data l r := by
  obtain ⟨hbs, hbm, hbi⟩ := hwf
  by_cases heq : l / st.bs = r / st.bs
  · simp only [blockFindMinIndex, heq, if_true, eq_self_iff_true]
    rw [scanArg_spec st.data h]
  · have hle : l / st.bs ≤ r / st.bs := Nat.div_le_div_right h
    have hlt : l / st.bs < r / st.bs := lt_of_le_of_ne hle heq
    have hrb1 : r / st.bs * st.bs ≤ r := Nat.div_mul_le_self r st.bs
    have hlup : l < (l / st.bs + 1) * st.bs := div_mul_upper l st.bs hbs
    have hmono : (l / st.bs + 1) * st.bs ≤ r / st.bs * st.bs :=
      Nat.mul_le_mul_right st.bs (by omega)
    have hrb_pos : 1 ≤ r / st.bs := Nat.lt_of_le_of_lt (Nat.zero_le _) hlt
    have hrbs1 : 1 ≤ r / st.bs * st.bs := by
      have := Nat.mul_le_mul hrb_pos hbs
      simpa using this
    have hlbE : getBlockEnd st.data st.bs (l / st.bs) = (l / st.bs + 1) * st.bs - 1 := by
      simp only [getBlockEnd]
      omega
    have hll : l ≤ (l / st.bs + 1) * st.bs - 1 := by omega
    have hlr2 : (l / st.bs + 1) * st.bs - 1 < st.data.length := by omega
    have hs1 :
        (if getE st.data (scanArg st.data l ((l / st.bs + 1) * st.bs - 1)).2 < intMax
          then (getE st.data (scanArg st.data l ((l / st.bs + 1) * st.bs - 1)).2,
                (scanArg st.data l ((l / st.bs + 1) * st.bs - 1)).2)
          else (intMax, l))
        = (rmin st.data l ((l / st.bs + 1) * st.bs - 1),
           argminFirst st.data l ((l / st.bs + 1) * st.bs - 1)) := by
      rw [scanArg_spec st.data hll]
      obtain ⟨g1, g2, g3, g4⟩ := argminFirst_spec st.data hll
      rcases lt_or_le (rmin st.data l ((l / st.bs + 1) * st.bs - 1)) intMax with hc | hc
      · rw [if_pos (by rw [g3]; exact hc), g3]
      · have htop : rmin st.data l ((l / st.bs + 1) * st.bs - 1) = intMax :=
          le_antisymm (rmin_le_intMax st.data hv hll hlr2) hc
        rw [if_neg (by rw [g3, htop]; exact lt_irrefl _), htop,
          argmin_of_top st.data hv hll hlr2 htop]
    have hsum : l / st.bs + 1 + (r / st.bs - (l / st.bs + 1)) = r / st.bs := by omega
    have hmid := middleFoldArg st.data hbs (r / st.bs - (l / st.bs + 1)) (l / st.bs + 1) l
      (Nat.succ_le_succ (Nat.zero_le _)) (by omega) (by rw [hsum]; omega)
    rw [hsum] at hmid
    simp only [blockFindMinIndex, heq, if_false, hbm, hbi, hlbE, getBlockStart]
    rw [hs1, hmid, scanArg_spec st.data (show r / st.bs * st.bs ≤ r by omega)]
    obtain ⟨k1, k2, k3, k4⟩ := argminFirst_spec st.data
      (show r / st.bs * st.bs ≤ r by omega)
    have hmg := argmin_merge st.data (l := l) (b := r / st.bs * st.bs - 1)
      (m := r / st.bs * st.bs) (r := r) (by omega) (by omega) (by omega)
      (by omega) (by omega)
    rcases lt_or_le (rmin st.data (r / st.bs * st.bs) r)
      (rmin st.data l (r / st.bs * st.bs - 1)) with hc | hc
    · rw [if_pos (by rw [k3]; exact hc), hmg.2 hc]
    · rw [if_neg (by rw [k3]; exact not_lt.mpr hc), hmg.1 hc]

theorem getE_set_ne (A : List Int) {i j : Nat} (v : Int) (h : i ≠ j) :
    getE (A.set i v) j = getE A j := by
  simp [getE, List.getD_eq_getElem?_getD, List.getElem?_set_ne h]

theorem getE_set_self (A : List Int) {i : Nat} (v : Int) (h : i < A.length) :
    getE (A.set i v) i = v := by
  simp [getE, List.getD_eq_getElem?_getD, List.getElem?_set_self, h]

/-- Scans only read the elements of the scanned range. -/
theorem scanArg_congr (A B : List Int) {l r : Nat} (h : l ≤ r)
    (hagree : ∀ j, l ≤ j → j ≤ r → getE A j = getE B j) :
    scanArg A l r = scanArg B l r := by
  induction r with
  | zero =>
      have : l = 0 := by omega
      subst this
      rw [scanArg_zero, scanArg_zero, hagree 0 (le_refl _) (le_refl _)]
  | succ r ih =>
      rcases Nat.lt_or_ge l (r + 1) with hlt | hge
      · have hlr : l ≤ r := by omega
        rw [scanArg_succ A hlr, scanArg_succ B hlr,
          ih hlr (fun j h1 h2 => hagree j h1 (by omega)),
          hagree (r + 1) (by omega) (le_refl _)]
      · have : l = r + 1 := by omega
        subst this
        rw [scanArg_zero, scanArg_zero, hagree (r + 1) (le_refl _) (le_refl _)]

/-- Indices inside block `b` are exactly those with `j / bs = b`. -/
theorem block_member (bs b j : Nat) (hbs : 1 ≤ bs)
    (h1 : b * bs ≤ j) (h2 : j < (b + 1) * bs) : j / bs = b :=
  Nat.div_eq_of_lt_le h1 h2

/-- Writing outside block `b` leaves the stored block minimum of `b`
unchanged. -/
theorem blockMinOf_set_ne (A : List Int) {bs b i : Nat} (v : Int)
    (hbs : 1 ≤ bs) (hi : i < A.length) (hb : i / bs ≠ b) :
    blockMinOf (A.set i v) bs b = blockMinOf A bs b ∧
    blockIdxOf (A.set i v) bs b = blockIdxOf A bs b := by
  have hlen : (A.set i v).length = A.length := List.length_set A i v
  have heq : scanArg (A.set i v) (getBlockStart bs b) (getBlockEnd (A.set i v) bs b)
      = scanArg A (getBlockStart bs b) (getBlockEnd A bs b) := by
    rw [show getBlockEnd (A.set i v) bs b = getBlockEnd A bs b by
      simp [getBlockEnd, hlen]]
    rcases Nat.lt_or_ge (getBlockStart bs b) (getBlockEnd A bs b + 1) with hc | hc
    · apply scanArg_congr _ _ (by omega)
      intro j hj1 hj2
      apply getE_set_ne
      intro hij
      apply hb
      subst hij
      have eB : (b + 1) * bs = b * bs + bs := by ring
      have hend : getBlockEnd A bs b ≤ (b + 1) * bs - 1 := by
        simp [getBlockEnd]
      exact block_member bs b i hbs (by simpa [getBlockStart] using hj1) (by omega)
    · -- degenerate block beyond the array: the scan reads only the start
      -- position, which is not `i` (the start of a different block)
      have hstart : getBlockEnd A bs b < getBlockStart bs b := by omega
      have hmem : getBlockStart bs b / bs = b := by
        have eB : (b + 1) * bs = b * bs + bs := by ring
        exact block_member bs b _ hbs (le_refl _) (by simp only [getBlockStart]; omega)
      simp only [scanArg, show getBlockEnd A bs b - getBlockStart bs b = 0 by omega,
        List.range'_zero, List.foldl_nil]
      rw [getE_set_ne]
      intro hib
      exact hb (by rw [hib]; exact hmem)
  constructor
  · simp only [blockMinOf, heq]
  · simp only [blockIdxOf, heq]

theorem blockMinOf_congr (A B : List Int) {bs b : Nat} (hbs : 1 ≤ bs)
    (hlen : B.length = A.length)
    (hagree : ∀ j, j / bs = b → getE A j = getE B j) :
    blockMinOf A bs b = blockMinOf B bs b ∧
    blockIdxOf A bs b = blockIdxOf B bs b := by
  have hend : getBlockEnd B bs b = getBlockEnd A bs b := by
    simp [getBlockEnd, hlen]
  have eB : (b + 1) * bs = b * bs + bs := by ring
  have hendle : getBlockEnd A bs b ≤ (b + 1) * bs - 1 := by
    simp [getBlockEnd]
  have hmem : ∀ j, b * bs ≤ j → j ≤ (b + 1) * bs - 1 → j / bs = b := by
    intro j h1 h2
    exact block_member bs b j hbs h1 (by omega)
  have heq : scanArg A (getBlockStart bs b) (getBlockEnd A bs b)
      = scanArg B (getBlockStart bs b) (getBlockEnd B bs b) := by
    rw [hend]
    rcases Nat.lt_or_ge (getBlockStart bs b) (getBlockEnd A bs b + 1) with hc | hc
    · apply scanArg_congr _ _ (by omega)
      intro j hj1 hj2
      exact hagree j (hmem j (by simpa [getBlockStart] using hj1) (by omega))
    · simp only [scanArg, show getBlockEnd A bs b - getBlockStart bs b = 0 by omega,
        List.range'_zero, List.foldl_nil]
      rw [hagree _ (hmem (getBlockStart bs b) (by simp [getBlockStart])
        (by simp only [getBlockStart]; omega))]
  exact ⟨by simp only [blockMinOf, heq], by simp only [blockIdxOf, heq]⟩

theorem blockBuild_wf (cfg : Nat) (d : List Int) (hd : 1 ≤ d.length) :
    blockWF (blockBuild cfg d) ∧ (blockBuild cfg d).data = d ∧
    (blockBuild cfg d).preprocessed = true ∧
    (blockBuild cfg d).bs = calculateBlockSize cfg d.length := by
  have hbs : 1 ≤ calculateBlockSize cfg d.length := by
    simp only [calculateBlockSize]
    by_cases hc : cfg ≠ 0
    · rw [if_pos hc]; omega
    · rw [if_neg hc]; omega
  exact ⟨⟨hbs, rfl, rfl⟩, rfl, rfl, rfl⟩

theorem blockUpdate_ok (st : BlockSt) (hwf : blockWF st)
    (hp : st.preprocessed = true) {i : Nat} (v : Int)
    (hi : i < st.data.length) :
    (blockUpdate st i v).2 = none ∧
    (blockUpdate st i v).1.data = st.data.set i v ∧
    (blockUpdate st i v).1.bs = st.bs ∧
    (blockUpdate st i v).1.preprocessed = true ∧
    blockWF (blockUpdate st i v).1 := by
  obtain ⟨hbs, hbm, hbi⟩ := hwf
  have hnp : ¬ (st.preprocessed = false) := by rw [hp]; simp
  have hnb : ¬ (i ≥ st.data.length) := by omega
  have hstep : blockUpdate st i v =
      (⟨st.data.set i v, st.preprocessed, st.bs,
        fun b => if b = i / st.bs then blockMinOf (st.data.set i v) st.bs b else st.bmin b,
        fun b => if b = i / st.bs then blockIdxOf (st.data.set i v) st.bs b else st.bidx b⟩,
       none) := by
    simp only [blockUpdate]
    rw [if_neg hnp, if_neg hnb]
  rw [hstep]
  refine ⟨rfl, rfl, rfl, hp, hbs, ?_, ?_⟩
  · funext b
    dsimp only
    by_cases hc : b = i / st.bs
    · rw [if_pos hc]
    · rw [if_neg hc]
      simp only [hbm]
      exact ((blockMinOf_set_ne st.data v hbs hi (fun h => hc h.symm)).1).symm
  · funext b
    dsimp only
    by_cases hc : b = i / st.bs
    · rw [if_pos hc]
    · rw [if_neg hc]
      simp only [hbi]
      exact ((blockMinOf_set_ne st.data v hbs hi (fun h => hc h.symm)).2).symm

theorem foldl_set_length (us : List (Nat × Int)) :
    ∀ A : List Int, (us.foldl (fun a p => a.set p.1 p.2) A).length = A.length := by
  induction us with
  | nil => intro A; rfl
  | cons p us ih =>
      intro A
      simp only [List.foldl_cons]
      rw [ih, List.length_set]

theorem getE_foldl_set_ne (us : List (Nat × Int)) :
    ∀ (A : List Int) (j : Nat), (∀ p ∈ us, p.1 ≠ j) →
    getE (us.foldl (fun a p => a.set p.1 p.2) A) j = getE A j := by
  induction us with
  | nil => intro A j _; rfl
  | cons p us ih =>
      intro A j h
      simp only [List.foldl_cons]
      rw [ih _ j (fun q hq => h q (by simp [hq])),
        getE_set_ne A p.2 (h p (by simp))]

theorem blockBatchUpdate_ok (st : BlockSt) (hwf : blockWF st)
    (hp : st.preprocessed = true) (us : List (Nat × Int))
    (hall : ∀ p ∈ us, p.1 < st.data.length) :
    (blockBatchUpdate st us).2 = none ∧
    (blockBatchUpdate st us).1.data = us.foldl (fun a p => a.set p.1 p.2) st.data ∧
    (blockBatchUpdate st us).1.bs = st.bs ∧
    (blockBatchUpdate st us).1.preprocessed = true ∧
    blockWF (blockBatchUpdate st us).1 := by
  obtain ⟨hbs, hbm, hbi⟩ := hwf
  have hnp : ¬ (st.preprocessed = false) := by rw [hp]; simp
  have hany : ¬ (us.any (fun p => p.1 ≥ st.data.length) = true) := by
    intro hc
    obtain ⟨p, hp1, hp2⟩ := List.any_eq_true.mp hc
    have := hall p hp1
    simp at hp2
    omega
  have hstep : blockBatchUpdate st us =
      (⟨us.foldl (fun a p => a.set p.1 p.2) st.data, st.preprocessed, st.bs,
        fun b => if us.any (fun p => p.1 / st.bs = b)
          then blockMinOf (us.foldl (fun a p => a.set p.1 p.2) st.data) st.bs b
          else st.bmin b,
        fun b => if us.any (fun p => p.1 / st.bs = b)
          then blockIdxOf (us.foldl (fun a p => a.set p.1 p.2) st.data) st.bs b
          else st.bidx b⟩,
       none) := by
    simp only [blockBatchUpdate]
    rw [if_neg hnp, if_neg hany]
  rw [hstep]
  have hfl : ∀ b, ¬ (us.any (fun p => p.1 / st.bs = b) = true) →
      blockMinOf (us.foldl (fun a p => a.set p.1 p.2) st.data) st.bs b
        = blockMinOf st.data st.bs b ∧
      blockIdxOf (us.foldl (fun a p => a.set p.1 p.2) st.data) st.bs b
        = blockIdxOf st.data st.bs b := by
    intro b hb
    have hne : ∀ p ∈ us, p.1 / st.bs ≠ b := by
      intro p hpin hc
      exact hb (List.any_eq_true.mpr ⟨p, hpin, by simp [hc]⟩)
    apply blockMinOf_congr _ _ hbs (foldl_set_length us st.data).symm
    intro j hj
    apply getE_foldl_set_ne
    intro p hpin hc
    exact hne p hpin (hc ▸ hj)
  refine ⟨rfl, rfl, rfl, hp, hbs, ?_, ?_⟩
  · funext b
    dsimp only
    by_cases hc : us.any (fun p => p.1 / st.bs = b) = true
    · rw [if_pos hc]
    · rw [if_neg hc]
      simp only [hbm]
      exact ((hfl b hc).1).symm
  · funext b
    dsimp only
    by_cases hc : us.any (fun p => p.1 / st.bs = b) = true
    · rw [if_pos hc]
    · rw [if_neg hc]
      simp only [hbi]
      exact ((hfl b hc).2).symm

/-! ### DP engine size guard (`RMQDynamicProgramming::validateSizeForDP`)

Sizes are for the 64-bit build the repository targets:
`sizeof(Value) = sizeof(int) = 4`, `sizeof(Index) = sizeof(size_t) = 8`. -/

def sizeofValue : Nat := 4

def sizeofIndex : Nat := 8

/-- The 512 MB ceiling (`MAX_MEMORY`) of `validateSizeForDP`. -/
def dpMaxMemory : Nat := 1024 * 1024 * 512

/-- `validateSizeForDP`, run at the start of the DP engine's
`performPreprocess`, before the tables are allocated.  Both exceptions
it throws are `RMQException` subclasses. -/
def validateSizeForDP (n : Nat) : Option CppExc :=
  if n > maxArraySize then some (.rmqExc .InvalidData)
  else if n * n * (sizeofValue + sizeofIndex) > dpMaxMemory then some (.rmqExc .Allocation)
  else none

/-- `RMQDynamicProgramming::performPreprocess` as seen by the
`RMQBase::preprocess` wrapper: the proactive size check may throw;
afterwards the table fill itself throws nothing (allocation success
path). -/
def dpPP (d : List Int) : Option CppExc := validateSizeForDP d.length

/-- `validateQuery` on a state with a non-empty array, as a two-way
branch. -/
theorem validateQuery_eq (st : EngineSt) (l r : Nat)
    (hlen : 0 < st.data.length) :
    validateQuery st l r =
      (if r < l then some .InvalidQuery
       else if st.data.length ≤ r then some .Bounds else none) := by
  simp only [validateQuery]
  by_cases h1 : l > r
  · rw [if_pos h1, if_pos (by omega)]
  · rw [if_neg h1, if_neg (show ¬ st.data.length = 0 by omega),
      if_neg (show ¬ r < l by omega)]

/-- C3 counterexample: a naive engine successfully preprocessed with
`[5]`, then handed the empty array, fails `validateData` before any
member is touched — it stays preprocessed with size 1, not rolled back
to the empty state. -/
theorem c3_counterexample :
    preprocessR naivePP emptySt [5] = (⟨[5], true⟩, none) ∧
    (preprocessR naivePP ⟨[5], true⟩ []).2 = some .InvalidData ∧
    (preprocessR naivePP ⟨[5], true⟩ []).1.preprocessed = true ∧
    (preprocessR naivePP ⟨[5], true⟩ []).1.data.length = 1 := by
  refine ⟨rfl, rfl, rfl, rfl⟩

/-- C3 (amended): when `preprocess` fails inside the engine-specific
build step (allocation failure or internal error), the engine is rolled
back to the empty un-preprocessed state; when it fails input validation
(empty or oversized data), the engine's observable state is unchanged
from before the call; on success the new state holds the input,
preprocessed. -/
theorem c3_amended (pp : List Int → Option CppExc) (st : EngineSt)
    (d : List Int) :
    (∀ e, validateData d = some e → preprocessR pp st d = (st, some e)) ∧
    (validateData d = none → ∀ exc, pp d = some exc →
      (preprocessR pp st d).1 = emptySt ∧
      (preprocessR pp st d).1.preprocessed = false ∧
      (preprocessR pp st d).1.data.length = 0 ∧
      (preprocessR pp st d).2 = some (catchClassify exc)) ∧
    (validateData d = none → pp d = none →
      preprocessR pp st d = (⟨d, true⟩, none)) := by
  refine ⟨?_, ?_, ?_⟩
  · intro e he
    simp [preprocessR, he]
  · intro hv exc hexc
    simp [preprocessR, hv, hexc, emptySt]
  · intro hv hpp
    simp [preprocessR, hv, hpp]

theorem c3_amended_witness :
    (preprocessR (fun _ => some .badAlloc) ⟨[7], true⟩ [1, 2]).1 = emptySt ∧
    (preprocessR (fun _ => some .badAlloc) ⟨[7], true⟩ [1, 2]).2 = some .Allocation := by
  have h := (c3_amended (fun _ => some .badAlloc) ⟨[7], true⟩ [1, 2]).2.1
    rfl CppExc.badAlloc rfl
  exact ⟨h.1, h.2.2.2⟩

/-- C4: on an array of 6689 elements the DP size guard fires
proactively (before any table allocation) and throws
`AllocationException` — but the `catch (const std::exception&)` clause
of `RMQBase::preprocess` re-wraps every `RMQException` subclass into
`AlgorithmException`, so the error kind the caller observes is
AlgorithmFailure, not Allocation as the spec states. -/
theorem c4_code_bug :
    validateSizeForDP 6689 = some (.rmqExc .Allocation) ∧
    6689 * 6689 * (sizeofValue + sizeofIndex) > dpMaxMemory ∧
    preprocessR dpPP emptySt (List.replicate 6689 0) = (emptySt, some .AlgorithmFailure) ∧
    (preprocessR dpPP emptySt (List.replicate 6689 0)).2 ≠ some .Allocation := by
  have h1 : validateSizeForDP 6689 = some (.rmqExc .Allocation) := by
    norm_num [validateSizeForDP, maxArraySize, sizeofValue, sizeofIndex, dpMaxMemory]
  have h2 : validateData (List.replicate 6689 (0 : Int)) = none := by
    norm_num [validateData, List.length_replicate, maxArraySize]
  have hpp : dpPP (List.replicate 6689 (0 : Int)) = some (.rmqExc .Allocation) := by
    show validateSizeForDP (List.replicate 6689 (0 : Int)).length = _
    rw [List.length_replicate]
    exact h1
  have h3 : preprocessR dpPP emptySt (List.replicate 6689 0)
      = (emptySt, some .AlgorithmFailure) := by
    simp only [preprocessR, h2, hpp, catchClassify]
  refine ⟨h1, by norm_num [sizeofValue, sizeofIndex, dpMaxMemory], h3, ?_⟩
  rw [h3]
  simp

/-- C5: `query` fails with NotPreprocessed before any successful
preprocess and after `clear()`; on a preprocessed engine it fails with
InvalidQuery exactly when `left > right`, with Bounds exactly when
`left ≤ right` and `right ≥ size()`, and succeeds exactly when
`left ≤ right < size()` — returning `performQuery`'s result, which for
the linear scan is the range minimum.  Holds for every engine body
`pf`, since the validation is the shared `RMQBase` template method. -/
theorem c5_query_validation (pf : List Int → Nat → Nat → Int)
    (st : EngineSt) (l r : Nat) (hwf : st.preprocessed = true → st.data ≠ []) :
    (st.preprocessed = false → queryR pf st l r = .error .NotPreprocessed) ∧
    (queryR pf (clearE st) l r = .error .NotPreprocessed) ∧
    (st.preprocessed = true →
      ((queryR pf st l r = .error .InvalidQuery ↔ r < l) ∧
       (queryR pf st l r = .error .Bounds ↔ (l ≤ r ∧ st.data.length ≤ r)) ∧
       ((∃ v, queryR pf st l r = .ok v) ↔ (l ≤ r ∧ r < st.data.length)) ∧
       (l ≤ r → r < st.data.length →
         queryR pf st l r = .ok (pf st.data l r) ∧
         queryR scanMin st l r = .ok (rmin st.data l r)))) := by
  refine ⟨?_, ?_, ?_⟩
  · intro hnp
    simp [queryR, hnp]
  · simp [queryR, clearE, emptySt]
  · intro hp
    have hne : st.data ≠ [] := hwf hp
    have hlen : 0 < st.data.length := List.length_pos.mpr hne
    have hq : ∀ pf2 : List Int → Nat → Nat → Int, queryR pf2 st l r =
        (if r < l then .error .InvalidQuery
         else if st.data.length ≤ r then .error .Bounds
         else .ok (pf2 st.data l r)) := by
      intro pf2
      simp only [queryR, hp, validateQuery_eq st l r hlen]
      rw [if_neg (by simp)]
      by_cases h1 : r < l
      · rw [if_pos h1, if_pos h1]
      · rw [if_neg h1, if_neg h1]
        by_cases h2 : st.data.length ≤ r
        · rw [if_pos h2, if_pos h2]
        · rw [if_neg h2, if_neg h2]
    refine ⟨?_, ?_, ?_, ?_⟩
    · rw [hq pf]
      by_cases h1 : r < l <;> by_cases h2 : st.data.length ≤ r <;>
        simp [h1, h2] <;> omega
    · rw [hq pf]
      by_cases h1 : r < l <;> by_cases h2 : st.data.length ≤ r <;>
        simp [h1, h2] <;> omega
    · rw [hq pf]
      by_cases h1 : r < l <;> by_cases h2 : st.data.length ≤ r <;>
        simp [h1, h2] <;> omega
    · intro hlr hrs
      rw [hq pf, hq scanMin, if_neg (by omega), if_neg (by omega),
        if_neg (by omega), if_neg (by omega), scanMin_spec st.data hlr]
      exact ⟨rfl, rfl⟩

theorem c5_query_validation_witness :
    queryR scanMin ⟨[3, 1, 2], true⟩ 1 2 = .ok (rmin [3, 1, 2] 1 2) ∧
    queryR scanMin ⟨[3, 1, 2], true⟩ 2 1 = .error .InvalidQuery ∧
    queryR scanMin ⟨[3, 1, 2], true⟩ 1 3 = .error .Bounds ∧
    queryR scanMin ⟨[3, 1, 2], false⟩ 1 2 = .error .NotPreprocessed := by
  have h := c5_query_validation scanMin ⟨[3, 1, 2], true⟩ 1 2 (fun _ => by simp)
  have h21 := c5_query_validation scanMin ⟨[3, 1, 2], true⟩ 2 1 (fun _ => by simp)
  have h13 := c5_query_validation scanMin ⟨[3, 1, 2], true⟩ 1 3 (fun _ => by simp)
  have hnp := c5_query_validation scanMin ⟨[3, 1, 2], false⟩ 1 2 (fun h => by cases h)
  refine ⟨((h.2.2 rfl).2.2.2 (by omega) (by norm_num)).2, ?_, ?_, hnp.1 rfl⟩
  · exact ((h21.2.2 rfl).1).mpr (by omega)
  · exact ((h13.2.2 rfl).2.1).mpr (by norm_num)

/-- C7: after a successful `update(i, v)` the stored value at `i` is
`v`, every other position is unchanged, and queries (fast and detailed)
answer exactly as for an engine holding the updated array — for the
naive engine directly, and for the block engine because the touched
block is rescanned and all others still agree with
`computeBlockMinimum` on the updated array. -/
theorem c7_update_consistency :
    (∀ (A : List Int) (i : Nat) (v : Int), i < A.length →
      naiveUpdate ⟨A, true⟩ i v = (⟨A.set i v, true⟩, none) ∧
      getE (A.set i v) i = v ∧
      (∀ j, j ≠ i → getE (A.set i v) j = getE A j) ∧
      (∀ l r, l ≤ r → r < A.length →
        queryR scanMin ⟨A.set i v, true⟩ l r = .ok (rmin (A.set i v) l r) ∧
        queryDetailedR scanMin (fun B a b => (scanArg B a b).2) ⟨A.set i v, true⟩ l r
          = .ok (rmin (A.set i v) l r, argminFirst (A.set i v) l r))) ∧
    (∀ (st : BlockSt) (i : Nat) (v : Int), blockWF st →
      st.preprocessed = true → i < st.data.length →
      (blockUpdate st i v).2 = none ∧
      (blockUpdate st i v).1.data = st.data.set i v ∧
      getE ((blockUpdate st i v).1.data) i = v ∧
      (∀ j, j ≠ i → getE ((blockUpdate st i v).1.data) j = getE st.data j) ∧
      (valBound (st.data.set i v) → ∀ l r, l ≤ r → r < st.data.length →
        blockPerformQuery (blockUpdate st i v).1 l r = rmin (st.data.set i v) l r ∧
        blockFindMinIndex (blockUpdate st i v).1 l r = argminFirst (st.data.set i v) l r)) := by
  constructor
  · intro A i v hi
    have hupd : naiveUpdate ⟨A, true⟩ i v = (⟨A.set i v, true⟩, none) := by
      simp only [naiveUpdate]
      rw [if_neg (by simp), if_neg (show ¬ i ≥ A.length by omega)]
    refine ⟨hupd, getE_set_self A v hi, fun j hj => getE_set_ne A v (fun h => hj h.symm), ?_⟩
    intro l r hlr hrs
    have hlen : ((⟨A.set i v, true⟩ : EngineSt).data.length) = A.length := by
      simp [List.length_set]
    have hlen0 : 0 < (A.set i v).length := by rw [List.length_set]; omega
    constructor
    · rw [queryR, if_neg (by simp), validateQuery_eq _ _ _ hlen0]
      rw [if_neg (show ¬ r < l by omega),
        if_neg (show ¬ (A.set i v).length ≤ r by rw [List.length_set]; omega)]
      rw [scanMin_spec _ hlr]
    · rw [queryDetailedR, if_neg (by simp), validateQuery_eq _ _ _ hlen0]
      rw [if_neg (show ¬ r < l by omega),
        if_neg (show ¬ (A.set i v).length ≤ r by rw [List.length_set]; omega)]
      rw [scanMin_spec _ hlr, scanArg_spec _ hlr]
  · intro st i v hwf hp hi
    obtain ⟨ho1, ho2, ho3, ho4, ho5⟩ := blockUpdate_ok st hwf hp v hi
    refine ⟨ho1, ho2, by rw [ho2]; exact getE_set_self st.data v hi,
      fun j hj => by rw [ho2]; exact getE_set_ne st.data v (fun h => hj h.symm), ?_⟩
    intro hv l r hlr hrs
    have hlen : (blockUpdate st i v).1.data.length = st.data.length := by
      rw [ho2, List.length_set]
    constructor
    · rw [blockPerformQuery_spec _ ho5 (by rw [ho2]; exact hv) hlr (by omega), ho2]
    · rw [blockFindMinIndex_spec _ ho5 (by rw [ho2]; exact hv) hlr (by omega), ho2]

theorem c7_update_consistency_witness :
    naiveUpdate ⟨[4, 9], true⟩ 1 (-2) = (⟨[4, -2], true⟩, none) ∧
    queryR scanMin ⟨([4, 9] : List Int).set 1 (-2), true⟩ 0 1
      = .ok (rmin (([4, 9] : List Int).set 1 (-2)) 0 1) := by
  have h := c7_update_consistency.1 [4, 9] 1 (-2) (by norm_num)
  exact ⟨h.1, (h.2.2.2 0 1 (by omega) (by norm_num)).1⟩

/-- C8: `batchUpdate` fails with Bounds when any index is out of range,
mutating nothing; when every index is in range it applies every pair in
order (and, for the block engine, leaves the block tables agreeing with
`computeBlockMinimum` on the final array). -/
theorem c8_batch_update :
    (∀ (A : List Int) (us : List (Nat × Int)),
      ((∃ p ∈ us, A.length ≤ p.1) →
        naiveBatchUpdate ⟨A, true⟩ us = (⟨A, true⟩, some .Bounds)) ∧
      ((∀ p ∈ us, p.1 < A.length) →
        naiveBatchUpdate ⟨A, true⟩ us
          = (⟨us.foldl (fun a p => a.set p.1 p.2) A, true⟩, none))) ∧
    (∀ (st : BlockSt) (us : List (Nat × Int)), blockWF st → st.preprocessed = true →
      ((∃ p ∈ us, st.data.length ≤ p.1) → blockBatchUpdate st us = (st, some .Bounds)) ∧
      ((∀ p ∈ us, p.1 < st.data.length) →
        (blockBatchUpdate st us).2 = none ∧
        (blockBatchUpdate st us).1.data = us.foldl (fun a p => a.set p.1 p.2) st.data ∧
        blockWF (blockBatchUpdate st us).1)) := by
  constructor
  · intro A us
    constructor
    · intro ⟨p, hpin, hple⟩
      have hany : us.any (fun q => q.1 ≥ A.length) = true :=
        List.any_eq_true.mpr ⟨p, hpin, by simp; omega⟩
      simp only [naiveBatchUpdate]
      rw [if_neg (by simp), if_pos (by dsimp only at hany ⊢; rw [hany])]
    · intro hall
      have hany : ¬ (us.any (fun q => q.1 ≥ A.length) = true) := by
        intro hc
        obtain ⟨p, hp1, hp2⟩ := List.any_eq_true.mp hc
        have := hall p hp1
        simp at hp2
        omega
      simp only [naiveBatchUpdate]
      rw [if_neg (by simp), if_neg (by dsimp only at hany ⊢; exact hany)]
  · intro st us hwf hp
    constructor
    · intro ⟨p, hpin, hple⟩
      have hany : us.any (fun q => q.1 ≥ st.data.length) = true :=
        List.any_eq_true.mpr ⟨p, hpin, by simp; omega⟩
      simp only [blockBatchUpdate]
      rw [if_neg (by rw [hp]; simp), if_pos hany]
    · intro hall
      obtain ⟨g1, g2, _, _, g5⟩ := blockBatchUpdate_ok st hwf hp us hall
      exact ⟨g1, g2, g5⟩

theorem c8_batch_update_witness :
    naiveBatchUpdate ⟨[1, 2], true⟩ [(0, 7), (5, 9)] = (⟨[1, 2], true⟩, some .Bounds) ∧
    naiveBatchUpdate ⟨[1, 2], true⟩ [(0, 7), (1, 9)] = (⟨[7, 9], true⟩, none) := by
  have h := c8_batch_update.1 [1, 2] [(0, 7), (5, 9)]
  have h2 := c8_batch_update.1 [1, 2] [(0, 7), (1, 9)]
  constructor
  · exact h.1 ⟨(5, 9), by norm_num, by norm_num⟩
  · have := h2.2 (by intro p hp; fin_cases hp <;> norm_num)
    rw [this]
    rfl

/-- The ceiling of the real square root, as a natural number. -/
def ceilSqrt (n : Nat) : Nat := if n = 0 then 0 else Nat.sqrt (n - 1) + 1

/-- `ceilSqrt n` is the least `m` with `n ≤ m²`. -/
theorem ceilSqrt_spec (n : Nat) (hn : 1 ≤ n) :
    n ≤ ceilSqrt n * ceilSqrt n ∧ ∀ m, n ≤ m * m → ceilSqrt n ≤ m := by
  have h0 : ceilSqrt n = Nat.sqrt (n - 1) + 1 := by
    simp [ceilSqrt]
    omega
  constructor
  · rw [h0]
    have := Nat.lt_succ_sqrt (n - 1)
    have he : (n - 1).sqrt.succ = (n - 1).sqrt + 1 := rfl
    rw [he] at this
    omega
  · intro m hm
    rw [h0]
    have hlt : Nat.sqrt (n - 1) < m := Nat.sqrt_lt.mpr (by omega)
    omega

/-- C9 counterexample: for `n = 2` with no configured block size the
code takes `⌊√2⌋ + 1 = 2`, not `⌈√2⌉ + 1 = 3` as the claim states. -/
theorem c9_counterexample :
    (blockPreprocess 0 ⟨[], false, 0, (fun _ => 0), (fun _ => 0)⟩ [5, 2]).1.bs = 2 ∧
    ceilSqrt 2 + 1 = 3 ∧
    (blockPreprocess 0 ⟨[], false, 0, (fun _ => 0), (fun _ => 0)⟩ [5, 2]).1.bs
      ≠ ceilSqrt 2 + 1 := by
  have hs : Nat.sqrt 2 = 1 := by
    have h1 : 1 ≤ Nat.sqrt 2 := Nat.le_sqrt.mpr (by norm_num)
    have h2 : Nat.sqrt 2 < 2 := Nat.sqrt_lt.mpr (by norm_num)
    omega
  have hv : validateData [5, 2] = none := by
    norm_num [validateData, maxArraySize]
  have hbs : (blockPreprocess 0 ⟨[], false, 0, (fun _ => 0), (fun _ => 0)⟩ [5, 2]).1.bs = 2 := by
    simp only [blockPreprocess, hv, blockBuild, calculateBlockSize]
    norm_num [hs]
  have hcs : ceilSqrt 2 + 1 = 3 := by
    simp [ceilSqrt, Nat.sqrt_one]
  exact ⟨hbs, hcs, by omega⟩

/-- C9 (amended): after a successful preprocess of a non-empty array of
length `n`, the block size is `⌊√n⌋ + 1` (the `k + 1` with
`k² ≤ n < (k+1)²`) when no block size is configured, and
`min(configured, n)` when one is. -/
theorem c9_amended (cfg : Nat) (st : BlockSt) (d : List Int)
    (hd : d ≠ []) (hlen : d.length ≤ maxArraySize) :
    (blockPreprocess cfg st d).2 = none ∧
    (cfg = 0 → ∃ k, (blockPreprocess cfg st d).1.bs = k + 1 ∧
      k * k ≤ d.length ∧ d.length < (k + 1) * (k + 1)) ∧
    (cfg ≠ 0 → (blockPreprocess cfg st d).1.bs = min cfg d.length) := by
  have hld : d.length ≠ 0 := by
    have := List.length_pos.mpr hd
    omega
  have hv : validateData d = none := by
    simp only [validateData]
    rw [if_neg hld, if_neg (by omega)]
  have hbp : blockPreprocess cfg st d = (blockBuild cfg d, none) := by
    simp only [blockPreprocess, hv]
  refine ⟨by rw [hbp], ?_, ?_⟩
  · intro hc
    refine ⟨Nat.sqrt d.length, ?_, Nat.sqrt_le _, ?_⟩
    · rw [hbp]
      simp [blockBuild, calculateBlockSize, hc]
    · have := Nat.lt_succ_sqrt d.length
      have he : (d.length).sqrt.succ = Nat.sqrt d.length + 1 := rfl
      rw [he] at this
      exact this
  · intro hc
    rw [hbp]
    simp [blockBuild, calculateBlockSize, hc]

theorem c9_amended_witness :
    (blockPreprocess 0 ⟨[], false, 0, (fun _ => 0), (fun _ => 0)⟩ [5, 2, 8, 1, 9]).1.bs = 3 ∧
    (blockPreprocess 4 ⟨[], false, 0, (fun _ => 0), (fun _ => 0)⟩ [5, 2, 8, 1, 9]).1.bs = 4 := by
  have h1 := c9_amended 0 ⟨[], false, 0, (fun _ => 0), (fun _ => 0)⟩ [5, 2, 8, 1, 9]
    (by simp) (by norm_num [maxArraySize])
  have h2 := c9_amended 4 ⟨[], false, 0, (fun _ => 0), (fun _ => 0)⟩ [5, 2, 8, 1, 9]
    (by simp) (by norm_num [maxArraySize])
  constructor
  · obtain ⟨k, hk1, hk2, hk3⟩ := h1.2.1 rfl
    have hlen : ([5, 2, 8, 1, 9] : List Int).length = 5 := rfl
    rw [hlen] at hk2 hk3
    have : k = 2 := by nlinarith
    rw [hk1, this]
  · have := h2.2.2 (by norm_num)
    rw [this]
    rfl

/-! ### Cartesian-tree/LCA engine (`RMQLCABased`)

`buildCartesianTree` maintains parent/child pointer arrays (sentinel
`-1`) and an explicit stack holding the rightmost path, deepest node
first.  To reason about the pointer structure we carry a ghost binary
tree: `insertCT` performs the same cut the pop loop performs (the
popped suffix of the spine is exactly the right spine below the first
node, counted from the root, whose value exceeds the new one), and the
correspondence between the pointer maps and the ghost tree is proved
below. -/

/-- Ghost binary tree of node indices. -/
inductive CTree where
  | leaf : CTree
  | node (lt : CTree) (v : Nat) (rt : CTree) : CTree
  deriving DecidableEq, Repr

/-- In-order traversal. -/
def inord : CTree → List Nat
  | .leaf => []
  | .node lt v rt => inord lt ++ v :: inord rt

/-- Right spine, deepest node first (the build stack, top first). -/
def rspine : CTree → List Nat
  | .leaf => []
  | .node _ v rt => rspine rt ++ [v]

/-- Root id (`-1` for the empty tree). -/
def rootId : CTree → Int
  | .leaf => -1
  | .node _ v _ => (v : Int)

/-- One step of the incremental Cartesian-tree construction: walking the
right spine from the root, the first node whose value exceeds the new
value is cut off (with its whole subtree) and becomes the new node's
left child; the new node becomes the right child of the node above the
cut. -/
def insertCT (A : List Int) : CTree → Nat → CTree
  | .leaf, i => .node .leaf i .leaf
  | .node lt v rt, i =>
      if getE A v > getE A i then .node (.node lt v rt) i .leaf
      else .node lt v (insertCT A rt i)

/-- Ghost tree after processing the first `k` array positions. -/
def treeFold (A : List Int) (k : Nat) : CTree :=
  (List.range k).foldl (insertCT A) .leaf

/-- `(last node popped, new stack top)` of the pop loop for value
`A[i]`, computed on the ghost tree: the last popped node is the
shallowest popped spine node (root of the cut subtree), the new top the
deepest surviving spine node; `-1` when there is none. -/
def cutInfo (A : List Int) : CTree → Nat → Int × Int
  | .leaf, _ => (-1, -1)
  | .node _ v rt, i =>
      if getE A v > getE A i then ((v : Int), -1)
      else
        let c := cutInfo A rt i
        (c.1, if c.2 = -1 then (v : Int) else c.2)

/-- Left-child pointer the build stores for node `x` (`-1` if none). -/
def childL : CTree → Nat → Int
  | .leaf, _ => -1
  | .node lt v rt, x =>
      if x = v then rootId lt
      else if x ∈ inord lt then childL lt x
      else childL rt x

/-- Right-child pointer for node `x`. -/
def childR : CTree → Nat → Int
  | .leaf, _ => -1
  | .node lt v rt, x =>
      if x = v then rootId rt
      else if x ∈ inord lt then childR lt x
      else childR rt x

/-- Parent pointer for `x`, where `p` is the parent of the root. -/
def parAux : CTree → Int → Nat → Int
  | .leaf, _, _ => -1
  | .node lt v rt, p, x =>
      if x = v then p
      else if x ∈ inord lt then parAux lt (v : Int) x
      else parAux rt (v : Int) x

/-- Parent pointer for `x` (`-1` for the root and for absent nodes). -/
def parT (t : CTree) (x : Nat) : Int := parAux t (-1) x

/-- Heap order with the tie-break the build produces: values strictly
increase into left subtrees (the cut that creates a left edge uses a
strict comparison) and weakly increase into right subtrees. -/
def heapS (A : List Int) : CTree → Prop
  | .leaf => True
  | .node lt v rt => heapS A lt ∧ heapS A rt ∧
      (∀ x ∈ inord lt, getE A v < getE A x) ∧
      (∀ x ∈ inord rt, getE A v ≤ getE A x)

theorem inord_insert (A : List Int) : ∀ (t : CTree) (i : Nat),
    inord (insertCT A t i) = inord t ++ [i] := by
  intro t
  induction t with
  | leaf => intro i; rfl
  | node lt v rt ihl ihr =>
      intro i
      by_cases hc : getE A v > getE A i
      · simp [insertCT, hc, inord]
      · simp [insertCT, hc, inord, ihr i]

theorem treeFold_zero (A : List Int) : treeFold A 0 = .leaf := rfl

theorem treeFold_succ (A : List Int) (k : Nat) :
    treeFold A (k + 1) = insertCT A (treeFold A k) k := by
  simp [treeFold, List.range_succ]

theorem treeFold_inord (A : List Int) (k : Nat) :
    inord (treeFold A k) = List.range k := by
  induction k with
  | zero => rfl
  | succ k ih => rw [treeFold_succ, inord_insert, ih, List.range_succ]

theorem heapS_insert (A : List Int) : ∀ (t : CTree) (i : Nat),
    heapS A t → heapS A (insertCT A t i) := by
  intro t
  induction t with
  | leaf => intro i _; exact ⟨trivial, trivial, by simp [inord], by simp [inord]⟩
  | node lt v rt ihl ihr =>
      intro i ⟨h1, h2, h3, h4⟩
      by_cases hc : getE A v > getE A i
      · simp only [insertCT, if_pos hc]
        refine ⟨⟨h1, h2, h3, h4⟩, trivial, ?_, by simp [inord]⟩
        intro x hx
        simp only [inord, List.mem_append, List.mem_cons] at hx
        rcases hx with hx | hx | hx
        · exact lt_trans hc (h3 x hx)
        · rw [hx]; exact hc
        · exact lt_of_lt_of_le hc (h4 x hx)
      · simp only [insertCT, if_neg hc]
        refine ⟨h1, ihr i h2, h3, ?_⟩
        intro x hx
        rw [inord_insert] at hx
        simp only [List.mem_append, List.mem_singleton] at hx
        rcases hx with hx | hx
        · exact h4 x hx
        · rw [hx]; omega
  
theorem heapS_fold (A : List Int) (k : Nat) : heapS A (treeFold A k) := by
  induction k with
  | zero => trivial
  | succ k ih => rw [treeFold_succ]; exact heapS_insert A _ k ih

theorem rspine_subset (t : CTree) : ∀ x ∈ rspine t, x ∈ inord t := by
  induction t with
  | leaf => intro x hx; cases hx
  | node lt v rt ihl ihr =>
      intro x hx
      simp only [rspine, List.mem_append, List.mem_singleton] at hx
      simp only [inord, List.mem_append, List.mem_cons]
      rcases hx with hx | hx
      · right; right; exact ihr x hx
      · right; left; exact hx

/-- Build state of `buildCartesianTree`: the three pointer arrays and
the stack of the rightmost path (top of stack first). -/
structure CTSt where
  par : Nat → Int
  lch : Nat → Int
  rch : Nat → Int
  stack : List Nat

/-- The pop loop of `buildCartesianTree`: pop while the top's value
exceeds `x`; return the remaining stack and the last node popped
(`-1` if none). -/
def popAbove (A : List Int) (x : Int) : List Nat → List Nat × Int
  | [] => ([], -1)
  | t :: rest =>
      if getE A t > x then
        let p := popAbove A x rest
        (p.1, if p.2 = -1 then (t : Int) else p.2)
      else (t :: rest, -1)

/-- One iteration of the build loop for index `i`: run the pop loop,
link `i` as right child of the new stack top (if any), link the last
popped node as left child of `i` (if any), push `i`. -/
def ctStep (A : List Int) (st : CTSt) (i : Nat) : CTSt :=
  let p := popAbove A (getE A i) st.stack
  let s := p.1
  let lp := p.2
  let rch1 := match s with
    | [] => st.rch
    | t :: _ => fun x => if x = t then (i : Int) else st.rch x
  let par1 := match s with
    | [] => st.par
    | t :: _ => fun x => if x = i then (t : Int) else st.par x
  let lch2 := if lp = -1 then st.lch
    else fun x => if x = i then lp else st.lch x
  let par2 := if lp = -1 then par1
    else fun (x : Nat) => if (x : Int) = lp then (i : Int) else par1 x
  ⟨par2, lch2, rch1, i :: s⟩

/-- Initial state: all pointers `-1`, empty stack. -/
def ctInit : CTSt := ⟨fun _ => -1, fun _ => -1, fun _ => -1, []⟩

/-- `buildCartesianTree` over the whole array. -/
def buildCT (A : List Int) : CTSt :=
  (List.range A.length).foldl (ctStep A) ctInit

/-- The root scan after the build: first index whose parent is `-1`. -/
def rootOf (st : CTSt) (n : Nat) : Int :=
  match (List.range n).find? (fun i => st.par i = -1) with
  | some i => (i : Int)
  | none => -1

/-- Stack top as a node id (`-1` when empty). -/
def stackTop : List Nat → Int
  | [] => -1
  | t :: _ => (t : Int)

/-- Last element of a stack as a node id (`-1` when empty). -/
def lastId (s : List Nat) : Int :=
  match s.getLast? with
  | none => -1
  | some t => (t : Int)

theorem popAbove_append_stop (A : List Int) (x : Int) (v : Nat) (s2 : List Nat)
    (hv : ¬ getE A v > x) :
    ∀ s1, popAbove A x (s1 ++ v :: s2)
      = ((popAbove A x s1).1 ++ v :: s2, (popAbove A x s1).2) := by
  intro s1
  induction s1 with
  | nil => simp [popAbove, hv]
  | cons t rest ih =>
      by_cases hc : getE A t > x
      · simp only [List.cons_append, popAbove, if_pos hc, List.append_eq, ih]
      · simp only [List.cons_append, popAbove, if_neg hc, List.append_eq]

theorem pop_all (A : List Int) (x : Int) :
    ∀ s, (∀ t ∈ s, getE A t > x) → popAbove A x s = ([], lastId s) := by
  intro s
  induction s with
  | nil => intro _; rfl
  | cons t rest ih =>
      intro h
      have hrest := ih (fun q hq => h q (by simp [hq]))
      simp only [popAbove, if_pos (h t (by simp)), hrest]
      cases rest with
      | nil => simp [lastId]
      | cons u rest2 =>
          have hne : lastId (u :: rest2) ≠ -1 := by
            simp only [lastId]
            cases hm : (u :: rest2).getLast? with
            | none => simp at hm
            | some w => simp
          rw [if_neg hne]
          have h2 : lastId (t :: u :: rest2) = lastId (u :: rest2) := by
            simp [lastId, List.getLast?_cons_cons]
          rw [h2]

/-- The pop loop on the spine performs exactly the cut `insertCT`
performs: the new spine is the new node on top of the surviving stack,
the last popped node is the root of the cut subtree, and the new stack
top is the cut point. -/
theorem cut_spec (A : List Int) (i : Nat) : ∀ t, heapS A t →
    rspine (insertCT A t i) = i :: (popAbove A (getE A i) (rspine t)).1 ∧
    (popAbove A (getE A i) (rspine t)).2 = (cutInfo A t i).1 ∧
    stackTop (popAbove A (getE A i) (rspine t)).1 = (cutInfo A t i).2 := by
  intro t
  induction t with
  | leaf => intro _; exact ⟨rfl, rfl, rfl⟩
  | node lt v rt ihl ihr =>
      intro ⟨h1, h2, h3, h4⟩
      by_cases hc : getE A v > getE A i
      · have hall : ∀ x ∈ rspine (CTree.node lt v rt), getE A x > getE A i := by
          intro x hx
          simp only [rspine, List.mem_append, List.mem_singleton] at hx
          rcases hx with hx | hx
          · exact lt_of_lt_of_le hc (h4 x (rspine_subset rt x hx))
          · rw [hx]; exact hc
        rw [pop_all A (getE A i) _ hall]
        have hlast : lastId (rspine (CTree.node lt v rt)) = (v : Int) := by
          simp [rspine, lastId, List.getLast?_concat]
        refine ⟨?_, ?_, ?_⟩
        · simp [insertCT, hc, rspine]
        · simp [hlast, cutInfo, hc]
        · simp [stackTop, cutInfo, hc]
      · obtain ⟨j1, j2, j3⟩ := ihr h2
        have happ := popAbove_append_stop A (getE A i) v [] hc (rspine rt)
        refine ⟨?_, ?_, ?_⟩
        · simp only [insertCT, if_neg hc, rspine, happ, j1]
          simp
        · simp only [rspine, happ, cutInfo, if_neg hc]
          exact j2
        · simp only [rspine, happ, cutInfo, if_neg hc]
          cases hp : (popAbove A (getE A i) (rspine rt)).1 with
          | nil =>
              rw [hp] at j3
              simp only [stackTop] at j3
              simp [stackTop, ← j3]
          | cons h tl =>
              rw [hp] at j3
              simp only [stackTop] at j3
              rw [← j3]
              simp [stackTop]

theorem natCast_ne_negOne (m : Nat) : (m : Int) ≠ -1 := by
  have := Int.natCast_nonneg m
  omega

theorem childL_notMem : ∀ (t : CTree) (x : Nat), x ∉ inord t → childL t x = -1 := by
  intro t
  induction t with
  | leaf => intro x _; rfl
  | node lt v rt ihl ihr =>
      intro x hx
      simp only [inord, List.mem_append, List.mem_cons] at hx
      push_neg at hx
      simp only [childL, if_neg hx.2.1, if_neg hx.1]
      exact ihr x hx.2.2

theorem childR_notMem : ∀ (t : CTree) (x : Nat), x ∉ inord t → childR t x = -1 := by
  intro t
  induction t with
  | leaf => intro x _; rfl
  | node lt v rt ihl ihr =>
      intro x hx
      simp only [inord, List.mem_append, List.mem_cons] at hx
      push_neg at hx
      simp only [childR, if_neg hx.2.1, if_neg hx.1]
      exact ihr x hx.2.2

theorem parAux_notMem : ∀ (t : CTree) (p : Int) (x : Nat), x ∉ inord t → parAux t p x = -1 := by
  intro t
  induction t with
  | leaf => intro p x _; rfl
  | node lt v rt ihl ihr =>
      intro p x hx
      simp only [inord, List.mem_append, List.mem_cons] at hx
      push_neg at hx
      simp only [parAux, if_neg hx.2.1, if_neg hx.1]
      exact ihr _ x hx.2.2

/-- `parAux` ignores the parent parameter except at the root. -/
theorem parAux_ne_root (t : CTree) (p q : Int) (x : Nat)
    (hx : (x : Int) ≠ rootId t) : parAux t p x = parAux t q x := by
  cases t with
  | leaf => rfl
  | node lt v rt =>
      have hxv : ¬ x = v := by
        intro h
        exact hx (by rw [h]; rfl)
      simp only [parAux, if_neg hxv]

theorem cutInfo_mem (A : List Int) (i : Nat) : ∀ t,
    ((cutInfo A t i).1 = -1 ∨ ∃ m ∈ inord t, (cutInfo A t i).1 = (m : Int)) ∧
    ((cutInfo A t i).2 = -1 ∨ ∃ m ∈ inord t, (cutInfo A t i).2 = (m : Int)) := by
  intro t
  induction t with
  | leaf => exact ⟨Or.inl rfl, Or.inl rfl⟩
  | node lt v rt ihl ihr =>
      by_cases hc : getE A v > getE A i
      · constructor
        · right
          exact ⟨v, by simp [inord], by simp [cutInfo, hc]⟩
        · left
          simp [cutInfo, hc]
      · obtain ⟨j1, j2⟩ := ihr
        constructor
        · rcases j1 with j1 | ⟨m, hm1, hm2⟩
          · left
            simp [cutInfo, hc, j1]
          · right
            exact ⟨m, by simp [inord, hm1], by simp [cutInfo, hc, hm2]⟩
        · by_cases h2 : (cutInfo A rt i).2 = -1
          · right
            refine ⟨v, by simp [inord], ?_⟩
            simp [cutInfo, hc, h2]
          · rcases j2 with j2 | ⟨m, hm1, hm2⟩
            · exact absurd j2 h2
            · right
              refine ⟨m, by simp [inord, hm1], ?_⟩
              simp [cutInfo, hc, h2, hm2]

/-- Unpacking `Nodup` of a node's in-order list. -/
theorem nodup_node {lt : CTree} {v : Nat} {rt : CTree}
    (h : (inord (CTree.node lt v rt)).Nodup) :
    (inord lt).Nodup ∧ (inord rt).Nodup ∧ v ∉ inord lt ∧ v ∉ inord rt ∧
    ∀ x ∈ inord lt, x ∉ inord rt := by
  simp only [inord, List.nodup_append, List.nodup_cons, List.disjoint_cons_right] at h
  obtain ⟨h1, ⟨h2, h3⟩, h4, h5⟩ := h
  exact ⟨h1, h3, h4, h2, fun x hx hx2 => h5 hx hx2⟩

theorem rootId_insert (A : List Int) (t : CTree) (i : Nat) :
    rootId (insertCT A t i)
      = if (cutInfo A t i).2 = -1 then (i : Int) else rootId t := by
  cases t with
  | leaf => rfl
  | node lt v rt =>
      by_cases hc : getE A v > getE A i
      · simp [insertCT, hc, cutInfo, rootId]
      · simp only [insertCT, if_neg hc, cutInfo, rootId]
        by_cases h2 : (cutInfo A rt i).2 = -1
        · rw [if_pos h2, if_neg (natCast_ne_negOne v)]
        · rw [if_neg h2, if_neg h2]

theorem childL_insert (A : List Int) : ∀ (t : CTree) (i : Nat),
    heapS A t → (inord t).Nodup → i ∉ inord t →
    ∀ x, childL (insertCT A t i) x
      = if x = i then (cutInfo A t i).1 else childL t x := by
  intro t
  induction t with
  | leaf =>
      intro i _ _ _ x
      by_cases hx : x = i
      · simp [insertCT, childL, hx, cutInfo, rootId]
      · simp [insertCT, childL, hx, cutInfo, inord]
  | node lt v rt ihl ihr =>
      intro i hh hnd hi x
      obtain ⟨h1, h2, h3, h4⟩ := hh
      obtain ⟨n1, n2, n3, n4, n5⟩ := nodup_node hnd
      have hiv : i ≠ v := fun h => hi (by rw [h]; simp [inord])
      have hilt : i ∉ inord lt := fun h => hi (by simp [inord, h])
      have hirt : i ∉ inord rt := fun h => hi (by simp [inord, h])
      by_cases hc : getE A v > getE A i
      · simp only [insertCT, if_pos hc, cutInfo]
        by_cases hx : x = i
        · simp [childL, hx, rootId]
        · simp only [childL, if_neg hx]
          by_cases hm : x ∈ inord (CTree.node lt v rt)
          · rw [if_pos hm]
          · have hm2 := hm
            simp only [inord, List.mem_append, List.mem_cons] at hm2
            push_neg at hm2
            rw [if_neg hm, if_neg hm2.2.1, if_neg hm2.1, childL_notMem rt x hm2.2.2]
      · simp only [insertCT, if_neg hc, cutInfo]
        by_cases hxv : x = v
        · simp only [childL, if_pos hxv, if_neg (show ¬ x = i by rw [hxv]; exact Ne.symm hiv)]
        · by_cases hxl : x ∈ inord lt
          · have hxi : ¬ x = i := fun h => hilt (h ▸ hxl)
            simp only [childL, if_neg hxv, if_pos hxl, if_neg hxi]
          · simp only [childL, if_neg hxv, if_neg hxl]
            exact ihr i h2 n2 hirt x

theorem childR_insert (A : List Int) : ∀ (t : CTree) (i : Nat),
    heapS A t → (inord t).Nodup → i ∉ inord t →
    ∀ x, childR (insertCT A t i) x
      = if (x : Int) = (cutInfo A t i).2 then (i : Int) else childR t x := by
  intro t
  induction t with
  | leaf =>
      intro i _ _ _ x
      simp [insertCT, childR, cutInfo, inord, natCast_ne_negOne x, rootId]
  | node lt v rt ihl ihr =>
      intro i hh hnd hi x
      obtain ⟨h1, h2, h3, h4⟩ := hh
      obtain ⟨n1, n2, n3, n4, n5⟩ := nodup_node hnd
      have hiv : i ≠ v := fun h => hi (by rw [h]; simp [inord])
      have hilt : i ∉ inord lt := fun h => hi (by simp [inord, h])
      have hirt : i ∉ inord rt := fun h => hi (by simp [inord, h])
      by_cases hc : getE A v > getE A i
      · -- whole spine popped: no right-child pointer changes
        simp only [insertCT, if_pos hc, cutInfo]
        rw [if_neg (natCast_ne_negOne x)]
        by_cases hx : x = i
        · subst hx
          simp only [childR, if_pos rfl, rootId]
          exact (childR_notMem _ x hi).symm
        · simp only [childR, if_neg hx]
          by_cases hm : x ∈ inord (CTree.node lt v rt)
          · rw [if_pos hm]
          · have hm2 := hm
            simp only [inord, List.mem_append, List.mem_cons] at hm2
            push_neg at hm2
            rw [if_neg hm, if_neg hm2.2.1, if_neg hm2.1, childR_notMem rt x hm2.2.2]
      · simp only [insertCT, if_neg hc, cutInfo]
        by_cases hxv : x = v
        · subst hxv
          rw [childR, if_pos rfl, rootId_insert]
          by_cases h2c : (cutInfo A rt i).2 = -1
          · rw [if_pos h2c, h2c]
            simp
          · rcases (cutInfo_mem A i rt).2 with hcm | ⟨m, hm1, hm2⟩
            · exact absurd hcm h2c
            · rw [if_neg h2c, if_neg h2c, hm2,
                if_neg (by rw [Nat.cast_inj]; intro h; exact n4 (h ▸ hm1)),
                childR, if_pos rfl]
        · by_cases hxl : x ∈ inord lt
          · have hxi : ¬ x = i := fun h => hilt (h ▸ hxl)
            have hxrt : x ∉ inord rt := n5 x hxl
            have hne : ∀ c : Int, c = -1 ∨ (∃ m ∈ inord rt, c = (m : Int)) →
                ¬ ((x : Int) = (if c = -1 then (v : Int) else c)) := by
              intro c hcm hcontra
              by_cases hc2 : c = -1
              · rw [if_pos hc2] at hcontra
                exact hxv (Nat.cast_inj.mp hcontra)
              · rw [if_neg hc2] at hcontra
                rcases hcm with hcm | ⟨m, hm1, hm2⟩
                · exact hc2 hcm
                · rw [hm2] at hcontra
                  exact hxrt ((Nat.cast_inj.mp hcontra) ▸ hm1)
            rw [if_neg (hne _ (cutInfo_mem A i rt).2)]
            simp only [childR, if_neg hxv, if_pos hxl]
          · simp only [childR, if_neg hxv, if_neg hxl]
            rw [ihr i h2 n2 hirt x]
            by_cases h2c : (cutInfo A rt i).2 = -1
            · rw [if_neg (by rw [h2c]; exact natCast_ne_negOne x), if_pos h2c,
                if_neg (by rw [Nat.cast_inj]; exact hxv)]
            · rw [if_neg h2c]

theorem parAux_insert (A : List Int) : ∀ (t : CTree) (i : Nat),
    heapS A t → (inord t).Nodup → i ∉ inord t →
    ∀ (p : Int) (x : Nat), parAux (insertCT A t i) p x
      = if (x : Int) = (cutInfo A t i).1 then (i : Int)
        else if x = i then (if (cutInfo A t i).2 = -1 then p else (cutInfo A t i).2)
        else parAux t p x := by
  intro t
  induction t with
  | leaf =>
      intro i _ _ _ p x
      by_cases hx : x = i
      · simp [insertCT, parAux, hx, cutInfo, natCast_ne_negOne]
      · simp [insertCT, parAux, hx, cutInfo, natCast_ne_negOne, inord]
  | node lt v rt ihl ihr =>
      intro i hh hnd hi p x
      obtain ⟨h1, h2, h3, h4⟩ := hh
      obtain ⟨n1, n2, n3, n4, n5⟩ := nodup_node hnd
      have hiv : i ≠ v := fun h => hi (by rw [h]; simp [inord])
      have hilt : i ∉ inord lt := fun h => hi (by simp [inord, h])
      have hirt : i ∉ inord rt := fun h => hi (by simp [inord, h])
      by_cases hc : getE A v > getE A i
      · simp only [insertCT, if_pos hc, cutInfo]
        by_cases hx : x = i
        · have hcast : ¬ ((i : Int) = (v : Int)) := by rw [Nat.cast_inj]; exact hiv
          simp [parAux, hx, hcast]
        · by_cases hxv : x = v
          · simp [parAux, hxv, Ne.symm hiv, inord]
          · have hcast_xv : ¬ ((x : Int) = (v : Int)) := by rw [Nat.cast_inj]; exact hxv
            by_cases hm : x ∈ inord (CTree.node lt v rt)
            · simp only [parAux, if_neg hx, if_pos hm, if_neg hxv, if_neg hcast_xv]
            · have hm2 := hm
              simp only [inord, List.mem_append, List.mem_cons] at hm2
              push_neg at hm2
              simp only [parAux, if_neg hx, if_neg hm, if_neg hcast_xv, if_neg hm2.2.1,
                if_neg hm2.1, parAux_notMem rt _ x hm2.2.2]
      · simp only [insertCT, if_neg hc, cutInfo]
        by_cases hxv : x = v
        · subst hxv
          rw [parAux, if_pos rfl]
          have hc1 : ¬ ((x : Int) = (cutInfo A rt i).1) := by
            rcases (cutInfo_mem A i rt).1 with hcm | ⟨m, hm1, hm2⟩
            · rw [hcm]; exact natCast_ne_negOne x
            · rw [hm2, Nat.cast_inj]
              intro h
              exact n4 (h ▸ hm1)
          rw [if_neg hc1, if_neg (Ne.symm hiv), parAux, if_pos rfl]
        · by_cases hxl : x ∈ inord lt
          · have hxi : ¬ x = i := fun h => hilt (h ▸ hxl)
            have hc1 : ¬ ((x : Int) = (cutInfo A rt i).1) := by
              rcases (cutInfo_mem A i rt).1 with hcm | ⟨m, hm1, hm2⟩
              · rw [hcm]; exact natCast_ne_negOne x
              · rw [hm2, Nat.cast_inj]
                intro h
                exact n5 x hxl (h ▸ hm1)
            rw [parAux, if_neg hxv, if_pos hxl, if_neg hc1, if_neg hxi,
              parAux, if_neg hxv, if_pos hxl]
          · rw [parAux, if_neg hxv, if_neg hxl, ihr i h2 n2 hirt (v : Int) x]
            by_cases hc1 : (x : Int) = (cutInfo A rt i).1
            · rw [if_pos hc1, if_pos hc1]
            · rw [if_neg hc1, if_neg hc1]
              by_cases hx : x = i
              · rw [if_pos hx, if_pos hx]
                by_cases h2c : (cutInfo A rt i).2 = -1
                · rw [if_pos h2c, if_neg (natCast_ne_negOne v)]
                · rw [if_neg h2c, if_neg h2c]
              · rw [if_neg hx, if_neg hx, parAux, if_neg hxv, if_neg hxl]

/-- The pointer state corresponds to the ghost tree. -/
def stMatch (st : CTSt) (t : CTree) : Prop :=
  st.stack = rspine t ∧ st.par = parT t ∧ st.lch = childL t ∧ st.rch = childR t

theorem stackTop_eq_neg1_iff (s : List Nat) : stackTop s = -1 ↔ s = [] := by
  cases s with
  | nil => simp [stackTop]
  | cons t rest => simp [stackTop, natCast_ne_negOne t]

theorem ctStep_match (A : List Int) (st : CTSt) (t : CTree) (i : Nat)
    (hm : stMatch st t) (hh : heapS A t) (hnd : (inord t).Nodup)
    (hi : i ∉ inord t) : stMatch (ctStep A st i) (insertCT A t i) := by
  obtain ⟨hs, hp, hl, hr⟩ := hm
  obtain ⟨j1, j2, j3⟩ := cut_spec A i t hh
  have hpti : parT t i = -1 := parAux_notMem t (-1) i hi
  have hcli : childL t i = -1 := childL_notMem t i hi
  refine ⟨?_, ?_, ?_, ?_⟩
  · show i :: (popAbove A (getE A i) st.stack).1 = rspine (insertCT A t i)
    rw [hs, j1]
  · show (if (popAbove A (getE A i) st.stack).2 = -1 then _ else _) = parT (insertCT A t i)
    funext x
    rw [show parT (insertCT A t i) x = parAux (insertCT A t i) (-1) x from rfl,
      parAux_insert A t i hh hnd hi (-1) x]
    rw [hs, j2]
    by_cases hc1 : (cutInfo A t i).1 = -1
    · rw [if_pos hc1, hc1, if_neg (natCast_ne_negOne x)]
      cases hps : (popAbove A (getE A i) (rspine t)).1 with
      | nil =>
          have hc2 : (cutInfo A t i).2 = -1 := by
            rw [← j3, hps]; rfl
          rw [hc2]
          by_cases hx : x = i
          · simp [hx, hp, hpti]
          · simp [if_neg hx, hp, parT]
      | cons t0 rest =>
          have hc2 : (cutInfo A t i).2 = (t0 : Int) := by
            rw [← j3, hps]; rfl
          rw [hc2]
          by_cases hx : x = i
          · simp [hx, natCast_ne_negOne t0]
          · simp [if_neg hx, hp, parT]
    · rw [if_neg hc1]
      by_cases hcx : (x : Int) = (cutInfo A t i).1
      · rw [if_pos hcx, if_pos hcx]
      · rw [if_neg hcx, if_neg hcx]
        cases hps : (popAbove A (getE A i) (rspine t)).1 with
        | nil =>
            have hc2 : (cutInfo A t i).2 = -1 := by
              rw [← j3, hps]; rfl
            rw [hc2]
            by_cases hx : x = i
            · simp [hx, hp, hpti]
            · simp [if_neg hx, hp, parT]
        | cons t0 rest =>
            have hc2 : (cutInfo A t i).2 = (t0 : Int) := by
              rw [← j3, hps]; rfl
            rw [hc2]
            by_cases hx : x = i
            · simp [hx, natCast_ne_negOne t0]
            · simp [if_neg hx, hp, parT]
  · show (if (popAbove A (getE A i) st.stack).2 = -1 then _ else _) = childL (insertCT A t i)
    funext x
    rw [childL_insert A t i hh hnd hi x, hs, j2]
    by_cases hc1 : (cutInfo A t i).1 = -1
    · rw [if_pos hc1]
      by_cases hx : x = i
      · rw [if_pos hx, hc1, hl, hx, hcli]
      · rw [if_neg hx, hl]
    · rw [if_neg hc1]
      by_cases hx : x = i
      · rw [if_pos hx, if_pos hx]
      · rw [if_neg hx, if_neg hx, hl]
  · show (match (popAbove A (getE A i) st.stack).1 with
      | [] => st.rch
      | t0 :: _ => fun x => if x = t0 then (i : Int) else st.rch x)
        = childR (insertCT A t i)
    funext x
    rw [childR_insert A t i hh hnd hi x, hs]
    cases hps : (popAbove A (getE A i) (rspine t)).1 with
    | nil =>
        have hc2 : (cutInfo A t i).2 = -1 := by
          rw [← j3, hps]; rfl
        dsimp only
        rw [hc2, if_neg (natCast_ne_negOne x), hr]
    | cons t0 rest =>
        have hc2 : (cutInfo A t i).2 = (t0 : Int) := by
          rw [← j3, hps]; rfl
        dsimp only
        rw [hc2]
        by_cases hx : x = t0
        · rw [if_pos hx, if_pos (by rw [hx])]
        · rw [if_neg hx, if_neg (by rw [Nat.cast_inj]; exact hx), hr]

theorem buildCT_fold_match (A : List Int) :
    ∀ k, stMatch ((List.range k).foldl (ctStep A) ctInit) (treeFold A k) := by
  intro k
  induction k with
  | zero =>
      refine ⟨rfl, ?_, ?_, ?_⟩ <;> funext x <;> rfl
  | succ k ih =>
      rw [List.range_succ, List.foldl_append, treeFold_succ]
      simp only [List.foldl_cons, List.foldl_nil]
      exact ctStep_match A _ _ k ih (heapS_fold A k)
        (by rw [treeFold_inord]; exact List.nodup_range k)
        (by rw [treeFold_inord]; simp)

/-- The pointer structure the build produces is the ghost tree of the
whole array. -/
theorem buildCT_match (A : List Int) : stMatch (buildCT A) (treeFold A A.length) :=
  buildCT_fold_match A A.length

/-- Tree-level lowest common ancestor of positions `l` and `r`. -/
def lcaT : CTree → Nat → Nat → Nat
  | .leaf, _, _ => 0
  | .node lt v rt, l, r =>
      if l ∈ inord lt ∧ r ∈ inord lt then lcaT lt l r
      else if l ∈ inord rt ∧ r ∈ inord rt then lcaT rt l r
      else v

/-- Splitting an interval in-order list at the root. -/
theorem interval_node {lt : CTree} {v : Nat} {rt : CTree} {a len : Nat}
    (h : inord (CTree.node lt v rt) = List.range' a len) :
    inord lt = List.range' a (v - a) ∧ a ≤ v ∧ v < a + len ∧
    inord rt = List.range' (v + 1) (a + len - v - 1) := by
  have hlen : (inord lt).length + 1 + (inord rt).length = len := by
    have := congrArg List.length h
    simp only [inord, List.length_append, List.length_cons, List.length_range'] at this
    omega
  set k := (inord lt).length with hk
  have hsplit : List.range' a len = List.range' a k ++ List.range' (a + k) (len - k) := by
    have hap := List.range'_append a k (len - k) 1
    simp only [one_mul] at hap
    have he : len - k + k = len := by omega
    rw [he] at hap
    exact hap.symm
  have h2 : inord lt ++ v :: inord rt = List.range' a k ++ List.range' (a + k) (len - k) := by
    rw [← hsplit, ← h]; rfl
  obtain ⟨e1, e2⟩ := List.append_inj h2 (by simp [hk, List.length_range'])
  have hlk : len - k = (len - k - 1) + 1 := by omega
  rw [hlk, List.range'_succ] at e2
  have e3 : v = a + k := (List.cons.injEq _ _ _ _).mp e2 |>.1
  have e4 : inord rt = List.range' (a + k + 1) (len - k - 1) :=
    (List.cons.injEq _ _ _ _).mp e2 |>.2
  refine ⟨?_, by omega, by omega, ?_⟩
  · rw [e1]; congr 1; omega
  · rw [e4]; congr 1 <;> omega

/-- In a Cartesian tree whose in-order traversal is the interval
`[a, a+len)`, the LCA of positions `l ≤ r` is the first argmin of
`A[l..r]`. -/
theorem lcaT_spec (A : List Int) : ∀ (t : CTree) (a len : Nat), heapS A t →
    inord t = List.range' a len → ∀ l r, a ≤ l → l ≤ r → r < a + len →
    lcaT t l r = argminFirst A l r := by
  intro t
  induction t with
  | leaf =>
      intro a len _ hio l r h1 h2 h3
      have : len = 0 := List.range'_eq_nil.mp hio.symm
      omega
  | node lt v rt ihl ihr =>
      intro a len hh hio l r h1 h2 h3
      obtain ⟨h1s, h2s, h3s, h4s⟩ := hh
      obtain ⟨hil, hav, hvlen, hir⟩ := interval_node hio
      have hmlt : ∀ x, x ∈ inord lt ↔ (a ≤ x ∧ x < v) := by
        intro x
        rw [hil, List.mem_range'_1]
        omega
      have hmrt : ∀ x, x ∈ inord rt ↔ (v < x ∧ x ≤ a + len - 1) := by
        intro x
        rw [hir, List.mem_range'_1]
        omega
      by_cases hcase1 : r < v
      · have hin : l ∈ inord lt ∧ r ∈ inord lt :=
          ⟨(hmlt l).mpr ⟨h1, by omega⟩, (hmlt r).mpr ⟨by omega, hcase1⟩⟩
        rw [lcaT, if_pos hin]
        exact ihl a (v - a) h1s hil l r h1 h2 (by omega)
      · by_cases hcase2 : v < l
        · have hnot1 : ¬ (l ∈ inord lt ∧ r ∈ inord lt) := by
            intro ⟨hc, _⟩
            have := (hmlt l).mp hc
            omega
          have hin : l ∈ inord rt ∧ r ∈ inord rt :=
            ⟨(hmrt l).mpr ⟨hcase2, by omega⟩, (hmrt r).mpr ⟨by omega, by omega⟩⟩
          rw [lcaT, if_neg hnot1, if_pos hin]
          exact ihr (v + 1) (a + len - v - 1) h2s hir l r (by omega) h2 (by omega)
        · have hlv : l ≤ v := by omega
          have hvr : v ≤ r := by omega
          have hnot1 : ¬ (l ∈ inord lt ∧ r ∈ inord lt) := by
            intro ⟨_, hc⟩
            have := (hmlt r).mp hc
            omega
          have hnot2 : ¬ (l ∈ inord rt ∧ r ∈ inord rt) := by
            intro ⟨hc, _⟩
            have := (hmrt l).mp hc
            omega
          rw [lcaT, if_neg hnot1, if_neg hnot2]
          have hvall : ∀ i, l ≤ i → i ≤ r → getE A v ≤ getE A i := by
            intro i hi1 hi2
            rcases Nat.lt_trichotomy i v with hc | hc | hc
            · exact le_of_lt (h3s i ((hmlt i).mpr ⟨by omega, hc⟩))
            · rw [hc]
            · exact h4s i ((hmrt i).mpr ⟨hc, by omega⟩)
          have hveq : getE A v = rmin A l r :=
            le_antisymm (le_rmin A h2 hvall) (rmin_le A hlv hvr)
          symm
          apply argminFirst_eq A h2 hlv hvr hveq
          intro j hj1 hj2
          have hjlt : getE A v < getE A j := h3s j ((hmlt j).mpr ⟨by omega, hj2⟩)
          omega

/-- Iterated parent pointer (`-1` absorbing). -/
def parIt (par : Nat → Int) : Nat → Nat → Int
  | 0, x => (x : Int)
  | k + 1, x => if par x = -1 then -1 else parIt par k (par x).toNat

theorem parIt_add (par : Nat → Int) :
    ∀ (a b : Nat) (x : Nat), parIt par (a + b) x
      = (if parIt par a x = -1 then -1 else parIt par b (parIt par a x).toNat) := by
  intro a
  induction a with
  | zero =>
      intro b x
      simp [parIt, natCast_ne_negOne x]
  | succ a ih =>
      intro b x
      have he : a + 1 + b = (a + b) + 1 := by omega
      rw [he]
      by_cases hp : par x = -1
      · simp [parIt, hp]
      · simp only [parIt, if_neg hp]
        exact ih b (par x).toNat

/-- Depth of position `x` in the tree (`0` when absent). -/
def depthT : CTree → Nat → Nat
  | .leaf, _ => 0
  | .node lt v rt, x =>
      if x = v then 0
      else if x ∈ inord lt then depthT lt x + 1
      else depthT rt x + 1

/-- The root is the unique depth-`0` node. -/
theorem depth_zero_iff (t : CTree) (hnd : (inord t).Nodup) (x : Nat)
    (hx : x ∈ inord t) : depthT t x = 0 ↔ (x : Int) = rootId t := by
  cases t with
  | leaf => cases hx
  | node lt v rt =>
      obtain ⟨n1, n2, n3, n4, n5⟩ := nodup_node hnd
      by_cases hxv : x = v
      · simp [depthT, hxv, rootId]
      · have : ¬ ((x : Int) = (v : Int)) := by rw [Nat.cast_inj]; exact hxv
        simp only [depthT, if_neg hxv, rootId, this, iff_false]
        by_cases hxl : x ∈ inord lt <;> simp [hxl]

/-- Parent of the root is `-1`. -/
theorem parT_root (lt : CTree) (v : Nat) (rt : CTree) :
    parT (CTree.node lt v rt) v = -1 := by
  simp [parT, parAux]

/-- A non-root member has a parent one level up. -/
theorem parT_step : ∀ (t : CTree), (inord t).Nodup → ∀ x ∈ inord t,
    0 < depthT t x → ∃ p ∈ inord t, parT t x = (p : Int) ∧
      depthT t p = depthT t x - 1 := by
  intro t
  induction t with
  | leaf => intro _ x hx; cases hx
  | node lt v rt ihl ihr =>
      intro hnd x hx hdx
      obtain ⟨n1, n2, n3, n4, n5⟩ := nodup_node hnd
      have hxv : ¬ x = v := by
        intro h
        rw [h] at hdx
        simp [depthT] at hdx
      simp only [inord, List.mem_append, List.mem_cons] at hx
      rcases hx with hxl | hxv2 | hxr
      · -- x in the left subtree
        have hpar : parT (CTree.node lt v rt) x = parAux lt (v : Int) x := by
          simp only [parT, parAux, if_neg hxv, if_pos hxl]
        have hdepth : depthT (CTree.node lt v rt) x = depthT lt x + 1 := by
          simp only [depthT, if_neg hxv, if_pos hxl]
        by_cases hd0 : depthT lt x = 0
        · have hroot : (x : Int) = rootId lt := (depth_zero_iff lt n1 x hxl).mp hd0
          refine ⟨v, by simp [inord], ?_, ?_⟩
          · rw [hpar]
            cases lt with
            | leaf => cases hxl
            | node l2 w r2 =>
                have : x = w := by
                  simp only [rootId] at hroot
                  exact Nat.cast_inj.mp hroot
                simp [parAux, this]
          · rw [hdepth, hd0]
            simp [depthT]
        · obtain ⟨p, hp1, hp2, hp3⟩ := ihl n1 x hxl (by omega)
          have hxroot : ¬ ((x : Int) = rootId lt) := by
            intro h
            exact hd0 ((depth_zero_iff lt n1 x hxl).mpr h)
          refine ⟨p, by simp [inord, hp1], ?_, ?_⟩
          · rw [hpar, parAux_ne_root lt (v : Int) (-1) x hxroot]
            exact hp2
          · have hpv : ¬ p = v := fun h => n3 (h ▸ hp1)
            have hgoal : depthT (CTree.node lt v rt) p = depthT lt p + 1 := by
              simp only [depthT, if_neg hpv, if_pos hp1]
            rw [hgoal, hdepth]
            omega
      · exact absurd hxv2 hxv
      · have hxl : x ∉ inord lt := fun h => n5 x h hxr
        have hpar : parT (CTree.node lt v rt) x = parAux rt (v : Int) x := by
          simp only [parT, parAux, if_neg hxv, if_neg hxl]
        have hdepth : depthT (CTree.node lt v rt) x = depthT rt x + 1 := by
          simp only [depthT, if_neg hxv, if_neg hxl]
        by_cases hd0 : depthT rt x = 0
        · have hroot : (x : Int) = rootId rt := (depth_zero_iff rt n2 x hxr).mp hd0
          refine ⟨v, by simp [inord], ?_, ?_⟩
          · rw [hpar]
            cases rt with
            | leaf => cases hxr
            | node l2 w r2 =>
                have : x = w := by
                  simp only [rootId] at hroot
                  exact Nat.cast_inj.mp hroot
                simp [parAux, this]
          · rw [hdepth, hd0]
            simp [depthT]
        · obtain ⟨p, hp1, hp2, hp3⟩ := ihr n2 x hxr (by omega)
          have hxroot : ¬ ((x : Int) = rootId rt) := by
            intro h
            exact hd0 ((depth_zero_iff rt n2 x hxr).mpr h)
          refine ⟨p, by simp [inord, hp1], ?_, ?_⟩
          · rw [hpar, parAux_ne_root rt (v : Int) (-1) x hxroot]
            exact hp2
          · have hpv : ¬ p = v := fun h => n4 (h ▸ hp1)
            have hplt : p ∉ inord lt := fun h => n5 p h hp1
            have hgoal : depthT (CTree.node lt v rt) p = depthT rt p + 1 := by
              simp only [depthT, if_neg hpv, if_neg hplt]
            rw [hgoal, hdepth]
            omega

theorem chain_spec (t : CTree) (hnd : (inord t).Nodup) :
    ∀ (k : Nat) (x : Nat), x ∈ inord t → k ≤ depthT t x →
    ∃ w, w ∈ inord t ∧ parIt (parT t) k x = (w : Int) ∧
      depthT t w = depthT t x - k := by
  intro k
  induction k with
  | zero =>
      intro x hx _
      exact ⟨x, hx, rfl, by omega⟩
  | succ k ih =>
      intro x hx hk
      obtain ⟨p, hp1, hp2, hp3⟩ := parT_step t hnd x hx (by omega)
      have hstep : parIt (parT t) (k + 1) x = parIt (parT t) k p := by
        have h1 : (1 : Nat) + k = k + 1 := by omega
        rw [← h1, parIt_add]
        have : parIt (parT t) 1 x = (p : Int) := by
          simp [parIt, hp2, natCast_ne_negOne p]
        rw [this, if_neg (natCast_ne_negOne p), Int.toNat_natCast]
      obtain ⟨w, hw1, hw2, hw3⟩ := ih p hp1 (by omega)
      exact ⟨w, hw1, by rw [hstep, hw2], by omega⟩

theorem chain_root (t : CTree) (hnd : (inord t).Nodup) (x : Nat)
    (hx : x ∈ inord t) : parIt (parT t) (depthT t x) x = rootId t := by
  obtain ⟨w, hw1, hw2, hw3⟩ := chain_spec t hnd (depthT t x) x hx (le_refl _)
  rw [hw2, ← (depth_zero_iff t hnd w hw1).mp (by omega)]

theorem rootId_par (t : CTree) (x : Nat) (hx : (x : Int) = rootId t) :
    parT t x = -1 := by
  cases t with
  | leaf => rfl
  | node lt v rt =>
      have : x = v := by
        simp only [rootId] at hx
        exact Nat.cast_inj.mp hx
      rw [this]
      exact parT_root lt v rt

theorem chain_beyond (t : CTree) (hnd : (inord t).Nodup) (x : Nat)
    (hx : x ∈ inord t) : ∀ k, depthT t x < k → parIt (parT t) k x = -1 := by
  intro k hk
  have hsplit : k = depthT t x + (k - depthT t x) := by omega
  rw [hsplit, parIt_add]
  rw [chain_root t hnd x hx]
  obtain ⟨w, hw1, hw2, hw3⟩ := chain_spec t hnd (depthT t x) x hx (le_refl _)
  have hroot : (w : Int) = rootId t := by rw [← hw2, chain_root t hnd x hx]
  rw [← hroot, if_neg (natCast_ne_negOne w), Int.toNat_natCast]
  have hkd : k - depthT t x = (k - depthT t x - 1) + 1 := by omega
  rw [hkd]
  simp [parIt, rootId_par t w hroot]

theorem chain_congr (t : CTree) (u v : Nat) (k j : Nat)
    (h : parIt (parT t) k u = parIt (parT t) k v) :
    parIt (parT t) (k + j) u = parIt (parT t) (k + j) v := by
  rw [parIt_add, parIt_add, h]

theorem parAux_root_val (t : CTree) (q : Int) (x : Nat)
    (hx : x ∈ inord t) (hr : (x : Int) = rootId t) : parAux t q x = q := by
  cases t with
  | leaf => cases hx
  | node lt v rt =>
      have : x = v := by
        simp only [rootId] at hr
        exact Nat.cast_inj.mp hr
      simp [parAux, this]

theorem parT_sub_left {lt : CTree} {v : Nat} {rt : CTree}
    (hnd : (inord (CTree.node lt v rt)).Nodup) (x : Nat) (hxl : x ∈ inord lt) :
    parT (CTree.node lt v rt) x
      = if (x : Int) = rootId lt then (v : Int) else parT lt x := by
  obtain ⟨n1, n2, n3, n4, n5⟩ := nodup_node hnd
  have hxv : ¬ x = v := fun h => n3 (h ▸ hxl)
  have h0 : parT (CTree.node lt v rt) x = parAux lt (v : Int) x := by
    simp only [parT, parAux, if_neg hxv, if_pos hxl]
  rw [h0]
  by_cases hr : (x : Int) = rootId lt
  · rw [if_pos hr, parAux_root_val lt _ x hxl hr]
  · rw [if_neg hr]
    exact parAux_ne_root lt _ _ x hr

theorem parT_sub_right {lt : CTree} {v : Nat} {rt : CTree}
    (hnd : (inord (CTree.node lt v rt)).Nodup) (x : Nat) (hxr : x ∈ inord rt) :
    parT (CTree.node lt v rt) x
      = if (x : Int) = rootId rt then (v : Int) else parT rt x := by
  obtain ⟨n1, n2, n3, n4, n5⟩ := nodup_node hnd
  have hxv : ¬ x = v := fun h => n4 (h ▸ hxr)
  have hxl : x ∉ inord lt := fun h => n5 x h hxr
  have h0 : parT (CTree.node lt v rt) x = parAux rt (v : Int) x := by
    simp only [parT, parAux, if_neg hxv, if_neg hxl]
  rw [h0]
  by_cases hr : (x : Int) = rootId rt
  · rw [if_pos hr, parAux_root_val rt _ x hxr hr]
  · rw [if_neg hr]
    exact parAux_ne_root rt _ _ x hr

theorem depth_sub_left {lt : CTree} {v : Nat} {rt : CTree}
    (hnd : (inord (CTree.node lt v rt)).Nodup) (x : Nat) (hxl : x ∈ inord lt) :
    depthT (CTree.node lt v rt) x = depthT lt x + 1 := by
  obtain ⟨n1, n2, n3, n4, n5⟩ := nodup_node hnd
  have hxv : ¬ x = v := fun h => n3 (h ▸ hxl)
  simp only [depthT, if_neg hxv, if_pos hxl]

theorem depth_sub_right {lt : CTree} {v : Nat} {rt : CTree}
    (hnd : (inord (CTree.node lt v rt)).Nodup) (x : Nat) (hxr : x ∈ inord rt) :
    depthT (CTree.node lt v rt) x = depthT rt x + 1 := by
  obtain ⟨n1, n2, n3, n4, n5⟩ := nodup_node hnd
  have hxv : ¬ x = v := fun h => n4 (h ▸ hxr)
  have hxl : x ∉ inord lt := fun h => n5 x h hxr
  simp only [depthT, if_neg hxv, if_neg hxl]

theorem rel_left {lt : CTree} {v : Nat} {rt : CTree}
    (hnd : (inord (CTree.node lt v rt)).Nodup) :
    ∀ (k x : Nat), x ∈ inord lt → k ≤ depthT lt x →
    parIt (parT (CTree.node lt v rt)) k x = parIt (parT lt) k x := by
  obtain ⟨n1, n2, n3, n4, n5⟩ := nodup_node hnd
  intro k
  induction k with
  | zero => intro x _ _; rfl
  | succ k ih =>
      intro x hxl hk
      have hd0 : ¬ ((x : Int) = rootId lt) := by
        intro h
        have := (depth_zero_iff lt n1 x hxl).mpr h
        omega
      obtain ⟨p, hp1, hp2, hp3⟩ := parT_step lt n1 x hxl (by omega)
      have hpar : parT (CTree.node lt v rt) x = (p : Int) := by
        rw [parT_sub_left hnd x hxl, if_neg hd0, hp2]
      simp only [parIt, hpar, hp2, if_neg (natCast_ne_negOne p), Int.toNat_natCast]
      exact ih p hp1 (by omega)

theorem rel_right {lt : CTree} {v : Nat} {rt : CTree}
    (hnd : (inord (CTree.node lt v rt)).Nodup) :
    ∀ (k x : Nat), x ∈ inord rt → k ≤ depthT rt x →
    parIt (parT (CTree.node lt v rt)) k x = parIt (parT rt) k x := by
  obtain ⟨n1, n2, n3, n4, n5⟩ := nodup_node hnd
  intro k
  induction k with
  | zero => intro x _ _; rfl
  | succ k ih =>
      intro x hxr hk
      have hd0 : ¬ ((x : Int) = rootId rt) := by
        intro h
        have := (depth_zero_iff rt n2 x hxr).mpr h
        omega
      obtain ⟨p, hp1, hp2, hp3⟩ := parT_step rt n2 x hxr (by omega)
      have hpar : parT (CTree.node lt v rt) x = (p : Int) := by
        rw [parT_sub_right hnd x hxr, if_neg hd0, hp2]
      simp only [parIt, hpar, hp2, if_neg (natCast_ne_negOne p), Int.toNat_natCast]
      exact ih p hp1 (by omega)

theorem chainset_left {lt : CTree} {v : Nat} {rt : CTree}
    (hnd : (inord (CTree.node lt v rt)).Nodup) (k x w : Nat)
    (hxl : x ∈ inord lt)
    (hch : parIt (parT (CTree.node lt v rt)) k x = (w : Int)) :
    (w ∈ inord lt ∧ k ≤ depthT lt x ∧ parIt (parT lt) k x = (w : Int)) ∨
    (w = v ∧ k = depthT lt x + 1) := by
  obtain ⟨n1, n2, n3, n4, n5⟩ := nodup_node hnd
  have hmem : x ∈ inord (CTree.node lt v rt) := by simp [inord, hxl]
  rcases Nat.lt_trichotomy k (depthT lt x + 1) with hk | hk | hk
  · left
    have hk2 : k ≤ depthT lt x := by omega
    have := rel_left hnd k x hxl hk2
    obtain ⟨w2, hw1, hw2, hw3⟩ := chain_spec lt n1 k x hxl hk2
    rw [this, hw2] at hch
    have : w2 = w := Nat.cast_inj.mp hch
    exact ⟨this ▸ hw1, hk2, this ▸ hw2⟩
  · right
    refine ⟨?_, hk⟩
    have hdx : depthT (CTree.node lt v rt) x = depthT lt x + 1 :=
      depth_sub_left hnd x hxl
    have : parIt (parT (CTree.node lt v rt)) k x = rootId (CTree.node lt v rt) := by
      rw [hk, ← hdx]
      exact chain_root _ hnd x hmem
    rw [this] at hch
    simp only [rootId] at hch
    exact (Nat.cast_inj.mp hch.symm)
  · exfalso
    have hdx : depthT (CTree.node lt v rt) x = depthT lt x + 1 :=
      depth_sub_left hnd x hxl
    have := chain_beyond _ hnd x hmem k (by omega)
    rw [this] at hch
    exact natCast_ne_negOne w hch.symm

theorem chainset_right {lt : CTree} {v : Nat} {rt : CTree}
    (hnd : (inord (CTree.node lt v rt)).Nodup) (k x w : Nat)
    (hxr : x ∈ inord rt)
    (hch : parIt (parT (CTree.node lt v rt)) k x = (w : Int)) :
    (w ∈ inord rt ∧ k ≤ depthT rt x ∧ parIt (parT rt) k x = (w : Int)) ∨
    (w = v ∧ k = depthT rt x + 1) := by
  obtain ⟨n1, n2, n3, n4, n5⟩ := nodup_node hnd
  have hmem : x ∈ inord (CTree.node lt v rt) := by simp [inord, hxr]
  rcases Nat.lt_trichotomy k (depthT rt x + 1) with hk | hk | hk
  · left
    have hk2 : k ≤ depthT rt x := by omega
    have := rel_right hnd k x hxr hk2
    obtain ⟨w2, hw1, hw2, hw3⟩ := chain_spec rt n2 k x hxr hk2
    rw [this, hw2] at hch
    have : w2 = w := Nat.cast_inj.mp hch
    exact ⟨this ▸ hw1, hk2, this ▸ hw2⟩
  · right
    refine ⟨?_, hk⟩
    have hdx : depthT (CTree.node lt v rt) x = depthT rt x + 1 :=
      depth_sub_right hnd x hxr
    have : parIt (parT (CTree.node lt v rt)) k x = rootId (CTree.node lt v rt) := by
      rw [hk, ← hdx]
      exact chain_root _ hnd x hmem
    rw [this] at hch
    simp only [rootId] at hch
    exact (Nat.cast_inj.mp hch.symm)
  · exfalso
    have hdx : depthT (CTree.node lt v rt) x = depthT rt x + 1 :=
      depth_sub_right hnd x hxr
    have := chain_beyond _ hnd x hmem k (by omega)
    rw [this] at hch
    exact natCast_ne_negOne w hch.symm

theorem lca_anc : ∀ (t : CTree) (a len : Nat), (inord t).Nodup →
    inord t = List.range' a len → ∀ l r, a ≤ l → l ≤ r → r < a + len →
    lcaT t l r ∈ inord t ∧
    depthT t (lcaT t l r) ≤ depthT t l ∧
    depthT t (lcaT t l r) ≤ depthT t r ∧
    parIt (parT t) (depthT t l - depthT t (lcaT t l r)) l = ((lcaT t l r : Nat) : Int) ∧
    parIt (parT t) (depthT t r - depthT t (lcaT t l r)) r = ((lcaT t l r : Nat) : Int) := by
  intro t
  induction t with
  | leaf =>
      intro a len _ hio l r h1 h2 h3
      have : len = 0 := List.range'_eq_nil.mp hio.symm
      omega
  | node lt v rt ihl ihr =>
      intro a len hnd hio l r h1 h2 h3
      obtain ⟨n1, n2, n3, n4, n5⟩ := nodup_node hnd
      obtain ⟨hil, hav, hvlen, hir⟩ := interval_node hio
      have hmlt : ∀ x, x ∈ inord lt ↔ (a ≤ x ∧ x < v) := by
        intro x; rw [hil, List.mem_range'_1]; omega
      have hmrt : ∀ x, x ∈ inord rt ↔ (v < x ∧ x ≤ a + len - 1) := by
        intro x; rw [hir, List.mem_range'_1]; omega
      by_cases hcase1 : r < v
      · have hinl : l ∈ inord lt := (hmlt l).mpr ⟨h1, by omega⟩
        have hinr : r ∈ inord lt := (hmlt r).mpr ⟨by omega, hcase1⟩
        have hin : l ∈ inord lt ∧ r ∈ inord lt := ⟨hinl, hinr⟩
        have hlca : lcaT (CTree.node lt v rt) l r = lcaT lt l r := by
          rw [lcaT, if_pos hin]
        obtain ⟨m1, m2, m3, m4, m5⟩ :=
          ihl a (v - a) n1 hil l r h1 h2 (by omega)
        rw [hlca]
        refine ⟨by simp [inord, m1], ?_, ?_, ?_, ?_⟩
        · rw [depth_sub_left hnd _ m1, depth_sub_left hnd _ hinl]; omega
        · rw [depth_sub_left hnd _ m1, depth_sub_left hnd _ hinr]; omega
        · rw [depth_sub_left hnd _ m1, depth_sub_left hnd _ hinl]
          have he : depthT lt l + 1 - (depthT lt (lcaT lt l r) + 1)
              = depthT lt l - depthT lt (lcaT lt l r) := by omega
          rw [he, rel_left hnd _ l hinl (by omega)]
          exact m4
        · rw [depth_sub_left hnd _ m1, depth_sub_left hnd _ hinr]
          have he : depthT lt r + 1 - (depthT lt (lcaT lt l r) + 1)
              = depthT lt r - depthT lt (lcaT lt l r) := by omega
          rw [he, rel_left hnd _ r hinr (by omega)]
          exact m5
      · by_cases hcase2 : v < l
        · have hinl : l ∈ inord rt := (hmrt l).mpr ⟨hcase2, by omega⟩
          have hinr : r ∈ inord rt := (hmrt r).mpr ⟨by omega, by omega⟩
          have hnot1 : ¬ (l ∈ inord lt ∧ r ∈ inord lt) := by
            intro h; have := (hmlt l).mp h.1; omega
          have hin : l ∈ inord rt ∧ r ∈ inord rt := ⟨hinl, hinr⟩
          have hlca : lcaT (CTree.node lt v rt) l r = lcaT rt l r := by
            rw [lcaT, if_neg hnot1, if_pos hin]
          obtain ⟨m1, m2, m3, m4, m5⟩ :=
            ihr (v + 1) (a + len - v - 1) n2 hir l r (by omega) h2 (by omega)
          rw [hlca]
          refine ⟨by simp [inord, m1], ?_, ?_, ?_, ?_⟩
          · rw [depth_sub_right hnd _ m1, depth_sub_right hnd _ hinl]; omega
          · rw [depth_sub_right hnd _ m1, depth_sub_right hnd _ hinr]; omega
          · rw [depth_sub_right hnd _ m1, depth_sub_right hnd _ hinl]
            have he : depthT rt l + 1 - (depthT rt (lcaT rt l r) + 1)
                = depthT rt l - depthT rt (lcaT rt l r) := by omega
            rw [he, rel_right hnd _ l hinl (by omega)]
            exact m4
          · rw [depth_sub_right hnd _ m1, depth_sub_right hnd _ hinr]
            have he : depthT rt r + 1 - (depthT rt (lcaT rt l r) + 1)
                = depthT rt r - depthT rt (lcaT rt l r) := by omega
            rw [he, rel_right hnd _ r hinr (by omega)]
            exact m5
        · have hnot1 : ¬ (l ∈ inord lt ∧ r ∈ inord lt) := by
            intro h; have := (hmlt r).mp h.2; omega
          have hnot2 : ¬ (l ∈ inord rt ∧ r ∈ inord rt) := by
            intro h; have := (hmrt l).mp h.1; omega
          have hlca : lcaT (CTree.node lt v rt) l r = v := by
            rw [lcaT, if_neg hnot1, if_neg hnot2]
          have hml : l ∈ inord (CTree.node lt v rt) := by
            rw [hio, List.mem_range'_1]; omega
          have hmr : r ∈ inord (CTree.node lt v rt) := by
            rw [hio, List.mem_range'_1]; omega
          have hdv : depthT (CTree.node lt v rt) v = 0 := by simp [depthT]
          rw [hlca]
          refine ⟨by simp [inord], by omega, by omega, ?_, ?_⟩
          · rw [hdv, Nat.sub_zero]
            have := chain_root (CTree.node lt v rt) hnd l hml
            rw [this]; rfl
          · rw [hdv, Nat.sub_zero]
            have := chain_root (CTree.node lt v rt) hnd r hmr
            rw [this]; rfl

theorem lca_deepest : ∀ (t : CTree) (a len : Nat), (inord t).Nodup →
    inord t = List.range' a len → ∀ l r, a ≤ l → l ≤ r → r < a + len →
    ∀ (w k1 k2 : Nat), parIt (parT t) k1 l = (w : Int) →
      parIt (parT t) k2 r = (w : Int) →
      depthT t w ≤ depthT t (lcaT t l r) := by
  intro t
  induction t with
  | leaf =>
      intro a len _ hio l r h1 h2 h3
      have : len = 0 := List.range'_eq_nil.mp hio.symm
      omega
  | node lt v rt ihl ihr =>
      intro a len hnd hio l r h1 h2 h3 w k1 k2 hch1 hch2
      obtain ⟨n1, n2, n3, n4, n5⟩ := nodup_node hnd
      obtain ⟨hil, hav, hvlen, hir⟩ := interval_node hio
      have hmlt : ∀ x, x ∈ inord lt ↔ (a ≤ x ∧ x < v) := by
        intro x; rw [hil, List.mem_range'_1]; omega
      have hmrt : ∀ x, x ∈ inord rt ↔ (v < x ∧ x ≤ a + len - 1) := by
        intro x; rw [hir, List.mem_range'_1]; omega
      have hdw_v : w = v → depthT (CTree.node lt v rt) w = 0 := by
        intro h; rw [h]; simp [depthT]
      by_cases hcase1 : r < v
      · have hinl : l ∈ inord lt := (hmlt l).mpr ⟨h1, by omega⟩
        have hinr : r ∈ inord lt := (hmlt r).mpr ⟨by omega, hcase1⟩
        have hin : l ∈ inord lt ∧ r ∈ inord lt := ⟨hinl, hinr⟩
        have hlca : lcaT (CTree.node lt v rt) l r = lcaT lt l r := by
          rw [lcaT, if_pos hin]
        rcases chainset_left hnd k1 l w hinl hch1 with ⟨hw1, hk1, hlt1⟩ | ⟨hwv, _⟩
        · rcases chainset_left hnd k2 r w hinr hch2 with ⟨hw2, hk2, hlt2⟩ | ⟨hwv, _⟩
          · have hsub := ihl a (v - a) n1 hil l r h1 h2 (by omega) w k1 k2 hlt1 hlt2
            obtain ⟨m1, _, _, _, _⟩ :=
              lca_anc lt a (v - a) n1 hil l r h1 h2 (by omega)
            rw [hlca, depth_sub_left hnd _ hw1, depth_sub_left hnd _ m1]
            omega
          · rw [hlca, hdw_v hwv]; omega
        · rw [hlca, hdw_v hwv]; omega
      · by_cases hcase2 : v < l
        · have hinl : l ∈ inord rt := (hmrt l).mpr ⟨hcase2, by omega⟩
          have hinr : r ∈ inord rt := (hmrt r).mpr ⟨by omega, by omega⟩
          have hnot1 : ¬ (l ∈ inord lt ∧ r ∈ inord lt) := by
            intro h; have := (hmlt l).mp h.1; omega
          have hin : l ∈ inord rt ∧ r ∈ inord rt := ⟨hinl, hinr⟩
          have hlca : lcaT (CTree.node lt v rt) l r = lcaT rt l r := by
            rw [lcaT, if_neg hnot1, if_pos hin]
          rcases chainset_right hnd k1 l w hinl hch1 with ⟨hw1, hk1, hrt1⟩ | ⟨hwv, _⟩
          · rcases chainset_right hnd k2 r w hinr hch2 with ⟨hw2, hk2, hrt2⟩ | ⟨hwv, _⟩
            · have hsub := ihr (v + 1) (a + len - v - 1) n2 hir l r (by omega) h2
                (by omega) w k1 k2 hrt1 hrt2
              obtain ⟨m1, _, _, _, _⟩ :=
                lca_anc rt (v + 1) (a + len - v - 1) n2 hir l r (by omega) h2 (by omega)
              rw [hlca, depth_sub_right hnd _ hw1, depth_sub_right hnd _ m1]
              omega
            · rw [hlca, hdw_v hwv]; omega
          · rw [hlca, hdw_v hwv]; omega
        · have hnot1 : ¬ (l ∈ inord lt ∧ r ∈ inord lt) := by
            intro h; have := (hmlt r).mp h.2; omega
          have hnot2 : ¬ (l ∈ inord rt ∧ r ∈ inord rt) := by
            intro h; have := (hmrt l).mp h.1; omega
          have hlca : lcaT (CTree.node lt v rt) l r = v := by
            rw [lcaT, if_neg hnot1, if_neg hnot2]
          have hwv : w = v := by
            by_cases hlv : l = v
            · have hdl : depthT (CTree.node lt v rt) l = 0 := by
                rw [hlv]; simp [depthT]
              cases k1 with
              | zero =>
                  simp only [parIt] at hch1
                  rw [← hlv]
                  exact (Nat.cast_inj.mp hch1).symm
              | succ k =>
                  exfalso
                  have hml : l ∈ inord (CTree.node lt v rt) := by
                    rw [hio, List.mem_range'_1]; omega
                  have := chain_beyond (CTree.node lt v rt) hnd l hml (k + 1) (by omega)
                  rw [this] at hch1
                  exact natCast_ne_negOne w hch1.symm
            · have hinl : l ∈ inord lt := (hmlt l).mpr ⟨h1, by omega⟩
              rcases chainset_left hnd k1 l w hinl hch1 with ⟨hw1, _, _⟩ | ⟨hwv, _⟩
              · by_cases hrv : r = v
                · have hdr : depthT (CTree.node lt v rt) r = 0 := by
                    rw [hrv]; simp [depthT]
                  cases k2 with
                  | zero =>
                      simp only [parIt] at hch2
                      rw [← hrv]
                      exact (Nat.cast_inj.mp hch2).symm
                  | succ k =>
                      exfalso
                      have hmr : r ∈ inord (CTree.node lt v rt) := by
                        rw [hio, List.mem_range'_1]; omega
                      have := chain_beyond (CTree.node lt v rt) hnd r hmr (k + 1) (by omega)
                      rw [this] at hch2
                      exact natCast_ne_negOne w hch2.symm
                · have hinr : r ∈ inord rt := (hmrt r).mpr ⟨by omega, by omega⟩
                  rcases chainset_right hnd k2 r w hinr hch2 with ⟨hw2, _, _⟩ | ⟨hwv, _⟩
                  · exact absurd hw2 (n5 w hw1)
                  · exact hwv
              · exact hwv
          rw [hlca, hdw_v hwv]
          exact Nat.zero_le _

/-- Pointer maps that only hold `-1` or node ids. -/
def goodPar (par : Nat → Int) : Prop := ∀ x, par x = -1 ∨ 0 ≤ par x

theorem parAux_good : ∀ (t : CTree) (q : Int) (x : Nat),
    (q = -1 ∨ 0 ≤ q) → parAux t q x = -1 ∨ 0 ≤ parAux t q x := by
  intro t
  induction t with
  | leaf => intro q x _; left; rfl
  | node lt v rt ihl ihr =>
      intro q x hq
      by_cases hxv : x = v
      · simpa [parAux, hxv] using hq
      · by_cases hxl : x ∈ inord lt
        · simpa [parAux, hxv, hxl] using ihl (v : Int) x (Or.inr (Int.natCast_nonneg v))
        · simpa [parAux, hxv, hxl] using ihr (v : Int) x (Or.inr (Int.natCast_nonneg v))

theorem parT_good (t : CTree) : goodPar (parT t) :=
  fun x => parAux_good t (-1) x (Or.inl rfl)

theorem parIt_good (par : Nat → Int) (h : goodPar par) :
    ∀ (k x : Nat), parIt par k x = -1 ∨ 0 ≤ parIt par k x := by
  intro k
  induction k with
  | zero => intro x; right; simp only [parIt]; exact Int.natCast_nonneg x
  | succ k ih =>
      intro x
      by_cases hp : par x = -1
      · left; simp [parIt, hp]
      · simp only [parIt, if_neg hp]
        exact ih (par x).toNat

theorem parIt_neg (par : Nat → Int) (a b x : Nat)
    (h : parIt par a x = -1) (hab : a ≤ b) : parIt par b x = -1 := by
  have he : b = a + (b - a) := by omega
  rw [he, parIt_add, if_pos h]

/-- One parent step (`parIt` at `1` is the parent map, on good maps). -/
theorem parIt_one (par : Nat → Int) (h : goodPar par) (x : Nat) :
    parIt par 1 x = par x := by
  rcases h x with h1 | h1
  · simp [parIt, h1]
  · have hne : ¬ par x = -1 := by intro he; rw [he] at h1; omega
    simp only [parIt, if_neg hne]
    exact Int.toNat_of_nonneg h1

/-- Binary-lifting table of `buildLCAStructure`: column `0` is the
parent map, column `j+1` composes column `j` with itself, `-1`
absorbing. -/
def ancF (par : Nat → Int) : Nat → Nat → Int
  | 0, i => par i
  | j + 1, i => if ancF par j i = -1 then -1 else ancF par j (ancF par j i).toNat

theorem ancF_spec (par : Nat → Int) (h : goodPar par) :
    ∀ (j i : Nat), ancF par j i = parIt par (2 ^ j) i := by
  intro j
  induction j with
  | zero =>
      intro i
      rw [pow_zero]
      exact (parIt_one par h i).symm
  | succ j ih =>
      intro i
      have he : 2 ^ (j + 1) = 2 ^ j + 2 ^ j := by ring
      rw [he, parIt_add]
      simp only [ancF, ih]

/-- `max_log_` computation: increment while `2^m < n`, then one more. -/
def maxLogAux (n : Nat) : Nat → Nat → Nat
  | 0, m => m
  | fuel + 1, m => if 2 ^ m < n then maxLogAux n fuel (m + 1) else m

def maxLog (n : Nat) : Nat := maxLogAux n n 0 + 1

theorem maxLogAux_ge (n : Nat) : ∀ (fuel m : Nat),
    n ≤ 2 ^ (m + fuel) → n ≤ 2 ^ maxLogAux n fuel m := by
  intro fuel
  induction fuel with
  | zero =>
      intro m hm
      simpa [maxLogAux] using hm
  | succ fuel ih =>
      intro m hm
      by_cases hc : 2 ^ m < n
      · simp only [maxLogAux, if_pos hc]
        refine ih (m + 1) ?_
        have he : m + 1 + fuel = m + (fuel + 1) := by omega
        rw [he]
        exact hm
      · simp only [maxLogAux, if_neg hc]
        omega

theorem maxLog_ge (n : Nat) : n ≤ 2 ^ (maxLog n - 1) := by
  have h0 : n ≤ 2 ^ (0 + n) := by
    rw [Nat.zero_add]
    exact Nat.le_of_lt (Nat.lt_two_pow n)
  have := maxLogAux_ge n n 0 h0
  simpa [maxLog] using this

theorem maxLog_pos (n : Nat) : 1 ≤ maxLog n := by
  simp [maxLog]

/-- Depths stay below the number of nodes. -/
theorem depthT_lt_length : ∀ (t : CTree) (x : Nat), x ∈ inord t →
    depthT t x < (inord t).length := by
  intro t
  induction t with
  | leaf => intro x hx; cases hx
  | node lt v rt ihl ihr =>
      intro x hx
      have hlen : (inord (CTree.node lt v rt)).length
          = (inord lt).length + 1 + (inord rt).length := by
        simp only [inord, List.length_append, List.length_cons]
        omega
      by_cases hxv : x = v
      · simp only [depthT, if_pos hxv]
        omega
      · by_cases hxl : x ∈ inord lt
        · have := ihl x hxl
          simp only [depthT, if_neg hxv, if_pos hxl]
          omega
        · have hxr : x ∈ inord rt := by
            simp only [inord, List.mem_append, List.mem_cons] at hx
            tauto
          have := ihr x hxr
          simp only [depthT, if_neg hxv, if_neg hxl]
          omega

theorem mod_two_pow_succ_eq (k m : Nat) :
    k % 2 ^ (m + 1) = 2 ^ m * (k / 2 ^ m % 2) + k % 2 ^ m := by
  have hp : 0 < 2 ^ m := Nat.pos_pow_of_pos m (by omega)
  have h1 : k = 2 ^ m * (k / 2 ^ m) + k % 2 ^ m := (Nat.div_add_mod k (2 ^ m)).symm
  have h2 : k / 2 ^ m = 2 * (k / 2 ^ m / 2) + k / 2 ^ m % 2 :=
    (Nat.div_add_mod (k / 2 ^ m) 2).symm
  have h3 : k % 2 ^ m < 2 ^ m := Nat.mod_lt k hp
  have h4 : k / 2 ^ m % 2 < 2 := Nat.mod_lt _ (by omega)
  have h5 : k = 2 ^ (m + 1) * (k / 2 ^ m / 2)
      + (2 ^ m * (k / 2 ^ m % 2) + k % 2 ^ m) := by
    conv_lhs => rw [h1]
    rw [pow_succ]
    nlinarith [h2]
  conv_lhs => rw [h5]
  rw [Nat.mul_add_mod]
  refine Nat.mod_eq_of_lt ?_
  have h6 : 2 ^ (m + 1) = 2 ^ m * 2 := pow_succ 2 m
  have h7 : 2 ^ m * (k / 2 ^ m % 2) ≤ 2 ^ m * 1 := Nat.mul_le_mul_left _ (by omega)
  omega

/-- `getKthAncestor`: walk the binary-lifting table over the set bits
of `k`, `-1` absorbing. -/
def getKthAncestor (anc : Nat → Nat → Int) (ml : Nat) (node : Int) (k : Nat) : Int :=
  if node = -1 then -1
  else (List.range ml).foldl
    (fun nd i => if nd = -1 then nd else if k.testBit i then anc i nd.toNat else nd)
    node

theorem kth_fold (par : Nat → Int) (h : goodPar par) (k x : Nat) : ∀ (m : Nat),
    (List.range m).foldl
      (fun nd i => if nd = -1 then nd else if k.testBit i then ancF par i nd.toNat else nd)
      (x : Int)
    = parIt par (k % 2 ^ m) x := by
  intro m
  induction m with
  | zero => simp [parIt, Nat.mod_one]
  | succ m ih =>
      rw [List.range_succ, List.foldl_append, ih, List.foldl_cons, List.foldl_nil]
      have hdec := mod_two_pow_succ_eq k m
      have htb : k.testBit m = decide (k / 2 ^ m % 2 = 1) := Nat.testBit_to_div_mod
      rcases parIt_good par h (k % 2 ^ m) x with hneg | hpos
      · rw [if_pos hneg, hneg]
        have hle : k % 2 ^ m ≤ k % 2 ^ (m + 1) := by
          rw [hdec]; exact Nat.le_add_left _ _
        exact (parIt_neg par (k % 2 ^ m) (k % 2 ^ (m + 1)) x hneg hle).symm
      · have hne : ¬ parIt par (k % 2 ^ m) x = -1 := by intro he; rw [he] at hpos; omega
        rw [if_neg hne]
        by_cases hbit : k / 2 ^ m % 2 = 1
        · have htb2 : k.testBit m = true := by rw [htb, hbit]; rfl
          rw [htb2, if_pos rfl]
          have he : k % 2 ^ (m + 1) = k % 2 ^ m + 2 ^ m := by
            rw [hdec, hbit]; omega
          rw [he, parIt_add, if_neg hne, ancF_spec par h]
        · have htb2 : k.testBit m = false := by
            rw [htb]
            simp [hbit]
          rw [htb2]
          have he : k / 2 ^ m % 2 = 0 := by
            have := Nat.mod_lt (k / 2 ^ m) (show 0 < 2 by omega)
            omega
          have he2 : k % 2 ^ (m + 1) = k % 2 ^ m := by
            rw [hdec, he]; omega
          rw [he2]
          simp

theorem getKthAncestor_spec (par : Nat → Int) (h : goodPar par) (ml k x : Nat)
    (hk : k < 2 ^ ml) :
    getKthAncestor (ancF par) ml (x : Int) k = parIt par k x := by
  rw [getKthAncestor, if_neg (natCast_ne_negOne x), kth_fold par h k x ml,
    Nat.mod_eq_of_lt hk]

theorem descend_loop (P : Nat → Int) (h : goodPar P) (u0 v m : Nat)
    (hgu : ∀ k, k < m → 0 ≤ parIt P k u0)
    (hgv : ∀ k, k < m → 0 ≤ parIt P k v)
    (hdiff : ∀ k, k < m → parIt P k u0 ≠ parIt P k v)
    (heq2 : ∀ k, m ≤ k → parIt P k u0 = parIt P k v) :
    ∀ (j k : Nat), k + 1 ≤ m → m - 1 - k < 2 ^ j →
    (List.range j).foldr
      (fun i (p : Int × Int) =>
        if ancF P i p.1.toNat ≠ ancF P i p.2.toNat
        then (ancF P i p.1.toNat, ancF P i p.2.toNat) else p)
      (parIt P k u0, parIt P k v)
    = (parIt P (m - 1) u0, parIt P (m - 1) v) := by
  intro j
  induction j with
  | zero =>
      intro k hk hb
      have : k = m - 1 := by
        have := Nat.pow_zero 2
        omega
      rw [this]
      rfl
  | succ j ih =>
      intro k hk hb
      rw [List.range_succ, List.foldr_append, List.foldr_cons, List.foldr_nil]
      have hku : 0 ≤ parIt P k u0 := hgu k (by omega)
      have hkv : 0 ≤ parIt P k v := hgv k (by omega)
      have hneu : ¬ parIt P k u0 = -1 := by intro he; rw [he] at hku; omega
      have hnev : ¬ parIt P k v = -1 := by intro he; rw [he] at hkv; omega
      have ha1 : ancF P j (parIt P k u0).toNat = parIt P (k + 2 ^ j) u0 := by
        rw [ancF_spec P h, parIt_add, if_neg hneu]
      have ha2 : ancF P j (parIt P k v).toNat = parIt P (k + 2 ^ j) v := by
        rw [ancF_spec P h, parIt_add, if_neg hnev]
      have hpow : 2 ^ (j + 1) = 2 ^ j + 2 ^ j := by ring
      rw [ha1, ha2]
      by_cases hcase : k + 2 ^ j < m
      · have hne : parIt P (k + 2 ^ j) u0 ≠ parIt P (k + 2 ^ j) v :=
          hdiff (k + 2 ^ j) hcase
        rw [if_pos hne]
        exact ih (k + 2 ^ j) (by omega) (by omega)
      · have heqk : parIt P (k + 2 ^ j) u0 = parIt P (k + 2 ^ j) v :=
          heq2 (k + 2 ^ j) (by omega)
        rw [if_neg (by simpa using heqk)]
        exact ih k hk (by omega)

/-- `findLCA`: swap so the first node is deeper, lift it level with the
second, return it if they met, otherwise descend both with the
binary-lifting table and return the parent. -/
def findLCA (dep : Nat → Nat) (anc : Nat → Nat → Int) (ml : Nat) (u v : Int) : Int :=
  if u = -1 ∨ v = -1 then -1
  else
    let uv := if dep u.toNat < dep v.toNat then (v, u) else (u, v)
    let dd := dep uv.1.toNat - dep uv.2.toNat
    let u2 := getKthAncestor anc ml uv.1 dd
    if u2 = uv.2 then u2
    else
      let p := (List.range ml).foldr
        (fun i (p : Int × Int) =>
          if anc i p.1.toNat ≠ anc i p.2.toNat
          then (anc i p.1.toNat, anc i p.2.toNat) else p)
        (u2, uv.2)
      anc 0 p.1.toNat

theorem findLCA_core (t : CTree) (hnd : (inord t).Nodup)
    (ml : Nat) (hml : ∀ z ∈ inord t, depthT t z < 2 ^ ml)
    (x y L : Nat) (hx : x ∈ inord t) (hy : y ∈ inord t) (hL : L ∈ inord t)
    (hdxy : depthT t y ≤ depthT t x)
    (hd2 : depthT t L ≤ depthT t y)
    (hcx : parIt (parT t) (depthT t x - depthT t L) x = ((L : Nat) : Int))
    (hcy : parIt (parT t) (depthT t y - depthT t L) y = ((L : Nat) : Int))
    (hdeep : ∀ (w k1 k2 : Nat), parIt (parT t) k1 x = (w : Int) →
      parIt (parT t) k2 y = (w : Int) → depthT t w ≤ depthT t L) :
    (let dd := depthT t x - depthT t y
     let u2 := getKthAncestor (ancF (parT t)) ml (x : Int) dd
     if u2 = (y : Int) then u2
     else
       let p := (List.range ml).foldr
         (fun i (p : Int × Int) =>
           if ancF (parT t) i p.1.toNat ≠ ancF (parT t) i p.2.toNat
           then (ancF (parT t) i p.1.toNat, ancF (parT t) i p.2.toNat) else p)
         (u2, (y : Int))
       ancF (parT t) 0 p.1.toNat) = ((L : Nat) : Int) := by
  have hgood := parT_good t
  have hdd : depthT t x - depthT t y < 2 ^ ml :=
    Nat.lt_of_le_of_lt (Nat.sub_le _ _) (hml x hx)
  have hu2 : getKthAncestor (ancF (parT t)) ml (x : Int) (depthT t x - depthT t y)
      = parIt (parT t) (depthT t x - depthT t y) x :=
    getKthAncestor_spec (parT t) hgood ml _ x hdd
  obtain ⟨u0, hu0mem, hu0eq, hu0dep⟩ :=
    chain_spec t hnd (depthT t x - depthT t y) x hx (Nat.sub_le _ _)
  have hu0dep2 : depthT t u0 = depthT t y := by omega
  have harith : depthT t x - depthT t L
      = (depthT t x - depthT t y) + (depthT t y - depthT t L) := by omega
  have hchainU : parIt (parT t) (depthT t y - depthT t L) u0 = ((L : Nat) : Int) := by
    rw [harith, parIt_add, hu0eq, if_neg (natCast_ne_negOne u0),
      Int.toNat_natCast] at hcx
    exact hcx
  set m := depthT t y - depthT t L with hm
  dsimp only
  by_cases hmet : getKthAncestor (ancF (parT t)) ml (x : Int) (depthT t x - depthT t y)
      = (y : Int)
  · rw [if_pos hmet, hmet]
    have hyanc : parIt (parT t) (depthT t x - depthT t y) x = ((y : Nat) : Int) := by
      rw [← hu2, hmet]
    have hdy : depthT t y ≤ depthT t L :=
      hdeep y (depthT t x - depthT t y) 0 hyanc rfl
    have hm0 : m = 0 := by omega
    rw [hm0] at hcy
    simp only [parIt] at hcy
    rw [hcy]
  · rw [if_neg hmet]
    have hm1 : 1 ≤ m := by
      rcases Nat.eq_zero_or_pos m with h0 | h0
      · exfalso
        apply hmet
        rw [hu2]
        rw [h0] at hchainU
        simp only [parIt] at hchainU
        have : u0 = L := Nat.cast_inj.mp hchainU
        have hLy : L = y := by
          rw [hm] at h0
          have : depthT t y - depthT t L = 0 := h0
          have := hcy
          rw [hm] at hcy
          rw [h0] at hcy
          simp only [parIt] at hcy
          exact (Nat.cast_inj.mp hcy).symm
        rw [hu0eq, this, hLy]
      · exact h0
    have hmdep : m ≤ depthT t u0 := by omega
    have hgu : ∀ k, k < m → 0 ≤ parIt (parT t) k u0 := by
      intro k hkm
      obtain ⟨w, _, hw2, _⟩ := chain_spec t hnd k u0 hu0mem (by omega)
      rw [hw2]
      exact Int.natCast_nonneg w
    have hgv : ∀ k, k < m → 0 ≤ parIt (parT t) k y := by
      intro k hkm
      obtain ⟨w, _, hw2, _⟩ := chain_spec t hnd k y hy (by omega)
      rw [hw2]
      exact Int.natCast_nonneg w
    have hdiff : ∀ k, k < m → parIt (parT t) k u0 ≠ parIt (parT t) k y := by
      intro k hkm heqk
      obtain ⟨w, hwm, hw2, hw3⟩ := chain_spec t hnd k u0 hu0mem (by omega)
      have hxw : parIt (parT t) ((depthT t x - depthT t y) + k) x = (w : Int) := by
        rw [parIt_add, hu0eq, if_neg (natCast_ne_negOne u0), Int.toNat_natCast, hw2]
      have hyw : parIt (parT t) k y = (w : Int) := by rw [← heqk, hw2]
      have := hdeep w _ _ hxw hyw
      omega
    have heq2 : ∀ k, m ≤ k → parIt (parT t) k u0 = parIt (parT t) k y := by
      intro k hkm
      have hsplit : k = m + (k - m) := by omega
      rw [hsplit, parIt_add, parIt_add, hchainU, hcy]
    have hstart : (getKthAncestor (ancF (parT t)) ml (x : Int)
        (depthT t x - depthT t y), (y : Int))
        = (parIt (parT t) 0 u0, parIt (parT t) 0 y) := by
      rw [hu2, hu0eq]
      rfl
    rw [hstart, descend_loop (parT t) hgood u0 y m hgu hgv hdiff heq2 ml 0
      (by omega) (Nat.lt_of_le_of_lt (by omega) (hml y hy))]
    have hlast : 0 ≤ parIt (parT t) (m - 1) u0 := hgu (m - 1) (by omega)
    have hnel : ¬ parIt (parT t) (m - 1) u0 = -1 := by
      intro he; rw [he] at hlast; omega
    have : ancF (parT t) 0 (parIt (parT t) (m - 1) u0).toNat
        = parIt (parT t) m u0 := by
      have hsplit : m = (m - 1) + 1 := by omega
      rw [ancF_spec (parT t) hgood, pow_zero]
      conv_rhs => rw [hsplit]
      rw [parIt_add, if_neg hnel]
    rw [this, hchainU]

theorem findLCA_spec (t : CTree) (a len : Nat)
    (hnd : (inord t).Nodup) (hio : inord t = List.range' a len)
    (ml : Nat) (hml : ∀ z ∈ inord t, depthT t z < 2 ^ ml)
    (l r : Nat) (h1 : a ≤ l) (h2 : l ≤ r) (h3 : r < a + len) :
    findLCA (depthT t) (ancF (parT t)) ml (l : Int) (r : Int)
      = ((lcaT t l r : Nat) : Int) := by
  have hl : l ∈ inord t := by rw [hio, List.mem_range'_1]; omega
  have hr : r ∈ inord t := by rw [hio, List.mem_range'_1]; omega
  obtain ⟨m1, m2, m3, m4, m5⟩ := lca_anc t a len hnd hio l r h1 h2 h3
  have hne : ¬ ((l : Int) = -1 ∨ (r : Int) = -1) := by
    push_neg
    exact ⟨natCast_ne_negOne l, natCast_ne_negOne r⟩
  rw [findLCA, if_neg hne]
  by_cases hswap : depthT t l < depthT t r
  · have hcore := findLCA_core t hnd ml hml r l (lcaT t l r) hr hl m1
      (by omega) m2 m5 m4
      (fun w k1 k2 hc1 hc2 =>
        lca_deepest t a len hnd hio l r h1 h2 h3 w k2 k1 hc2 hc1)
    simp only [Int.toNat_natCast]
    rw [if_pos hswap]
    dsimp only
    simp only [Int.toNat_natCast]
    exact hcore
  · have hcore := findLCA_core t hnd ml hml l r (lcaT t l r) hl hr m1
      (by omega) m3 m4 m5
      (fun w k1 k2 hc1 hc2 =>
        lca_deepest t a len hnd hio l r h1 h2 h3 w k1 k2 hc1 hc2)
    simp only [Int.toNat_natCast]
    rw [if_neg hswap]
    dsimp only
    simp only [Int.toNat_natCast]
    exact hcore

def heightCT : CTree → Nat
  | .leaf => 0
  | .node lt _ rt => max (heightCT lt) (heightCT rt) + 1

theorem heightCT_le_length : ∀ (t : CTree), heightCT t ≤ (inord t).length := by
  intro t
  induction t with
  | leaf => simp [heightCT, inord]
  | node lt v rt ihl ihr =>
      simp only [heightCT, inord, List.length_append, List.length_cons]
      omega

theorem rootId_eq_neg1_iff (t : CTree) : rootId t = -1 ↔ t = CTree.leaf := by
  cases t with
  | leaf => simp [rootId]
  | node lt v rt =>
      simp only [rootId]
      constructor
      · intro h; exact absurd h (natCast_ne_negOne v)
      · intro h; cases h

theorem childL_sub_left {lt : CTree} {v : Nat} {rt : CTree}
    (hnd : (inord (CTree.node lt v rt)).Nodup) (x : Nat) (hxl : x ∈ inord lt) :
    childL (CTree.node lt v rt) x = childL lt x := by
  obtain ⟨n1, n2, n3, n4, n5⟩ := nodup_node hnd
  have hxv : ¬ x = v := fun h => n3 (h ▸ hxl)
  simp only [childL, if_neg hxv, if_pos hxl]

theorem childL_sub_right {lt : CTree} {v : Nat} {rt : CTree}
    (hnd : (inord (CTree.node lt v rt)).Nodup) (x : Nat) (hxr : x ∈ inord rt) :
    childL (CTree.node lt v rt) x = childL rt x := by
  obtain ⟨n1, n2, n3, n4, n5⟩ := nodup_node hnd
  have hxv : ¬ x = v := fun h => n4 (h ▸ hxr)
  have hxl : x ∉ inord lt := fun h => n5 x h hxr
  simp only [childL, if_neg hxv, if_neg hxl]

theorem childR_sub_left {lt : CTree} {v : Nat} {rt : CTree}
    (hnd : (inord (CTree.node lt v rt)).Nodup) (x : Nat) (hxl : x ∈ inord lt) :
    childR (CTree.node lt v rt) x = childR lt x := by
  obtain ⟨n1, n2, n3, n4, n5⟩ := nodup_node hnd
  have hxv : ¬ x = v := fun h => n3 (h ▸ hxl)
  simp only [childR, if_neg hxv, if_pos hxl]

theorem childR_sub_right {lt : CTree} {v : Nat} {rt : CTree}
    (hnd : (inord (CTree.node lt v rt)).Nodup) (x : Nat) (hxr : x ∈ inord rt) :
    childR (CTree.node lt v rt) x = childR rt x := by
  obtain ⟨n1, n2, n3, n4, n5⟩ := nodup_node hnd
  have hxv : ¬ x = v := fun h => n4 (h ▸ hxr)
  have hxl : x ∉ inord lt := fun h => n5 x h hxr
  simp only [childR, if_neg hxv, if_neg hxl]

/-- `computeDepths`: store the depth, then recurse into the two child
pointers; `fuel` bounds the recursion depth. -/
def computeDepths (lch rch : Nat → Int) : Nat → Int → Nat → (Nat → Nat) → (Nat → Nat)
  | 0, _, _, dm => dm
  | fuel + 1, node, d, dm =>
      if node = -1 then dm
      else
        let dm1 := fun x => if x = node.toNat then d else dm x
        let dm2 := if lch node.toNat ≠ -1
          then computeDepths lch rch fuel (lch node.toNat) (d + 1) dm1 else dm1
        if rch node.toNat ≠ -1
          then computeDepths lch rch fuel (rch node.toNat) (d + 1) dm2 else dm2

theorem computeDepths_correct : ∀ (t : CTree), (inord t).Nodup →
    ∀ (lch rch : Nat → Int),
    (∀ x ∈ inord t, lch x = childL t x ∧ rch x = childR t x) →
    ∀ (fuel : Nat), heightCT t ≤ fuel → ∀ (d : Nat) (dm : Nat → Nat),
    computeDepths lch rch fuel (rootId t) d dm
      = fun x => if x ∈ inord t then d + depthT t x else dm x := by
  intro t
  induction t with
  | leaf =>
      intro _ lch rch _ fuel _ d dm
      funext x
      cases fuel with
      | zero => simp [computeDepths, inord]
      | succ fuel => simp [computeDepths, rootId, inord]
  | node lt v rt ihl ihr =>
      intro hnd lch rch hmaps fuel hfuel d dm
      obtain ⟨n1, n2, n3, n4, n5⟩ := nodup_node hnd
      cases fuel with
      | zero => simp [heightCT] at hfuel
      | succ fuel =>
      have hfl : heightCT lt ≤ fuel := by simp [heightCT] at hfuel; omega
      have hfr : heightCT rt ≤ fuel := by simp [heightCT] at hfuel; omega
      have hmv : v ∈ inord (CTree.node lt v rt) := by simp [inord]
      have hlv : lch v = rootId lt := by
        have := (hmaps v hmv).1
        rw [this]
        simp [childL]
      have hrv : rch v = rootId rt := by
        have := (hmaps v hmv).2
        rw [this]
        simp [childR]
      have hmapl : ∀ x ∈ inord lt, lch x = childL lt x ∧ rch x = childR lt x := by
        intro x hx
        have hm : x ∈ inord (CTree.node lt v rt) := by simp [inord, hx]
        obtain ⟨ha, hb⟩ := hmaps x hm
        exact ⟨by rw [ha, childL_sub_left hnd x hx],
               by rw [hb, childR_sub_left hnd x hx]⟩
      have hmapr : ∀ x ∈ inord rt, lch x = childL rt x ∧ rch x = childR rt x := by
        intro x hx
        have hm : x ∈ inord (CTree.node lt v rt) := by simp [inord, hx]
        obtain ⟨ha, hb⟩ := hmaps x hm
        exact ⟨by rw [ha, childL_sub_right hnd x hx],
               by rw [hb, childR_sub_right hnd x hx]⟩
      have hroot : rootId (CTree.node lt v rt) = (v : Int) := rfl
      rw [hroot]
      simp only [computeDepths, if_neg (natCast_ne_negOne v), Int.toNat_natCast,
        hlv, hrv]
      set dm1 : Nat → Nat := fun x => if x = v then d else dm x with hdm1
      have hdm2 : (if rootId lt ≠ -1
            then computeDepths lch rch fuel (rootId lt) (d + 1) dm1 else dm1)
          = fun x => if x ∈ inord lt then d + 1 + depthT lt x else dm1 x := by
        by_cases hc : rootId lt = -1
        · have hleaf : lt = CTree.leaf := (rootId_eq_neg1_iff lt).mp hc
          rw [if_neg (by simpa using hc)]
          funext x
          rw [hleaf]
          simp [inord]
        · rw [if_pos (by simpa using hc)]
          exact ihl n1 lch rch hmapl fuel hfl (d + 1) dm1
      rw [hdm2]
      set dm2 : Nat → Nat :=
        fun x => if x ∈ inord lt then d + 1 + depthT lt x else dm1 x with hdm2d
      have hdm3 : (if rootId rt ≠ -1
            then computeDepths lch rch fuel (rootId rt) (d + 1) dm2 else dm2)
          = fun x => if x ∈ inord rt then d + 1 + depthT rt x else dm2 x := by
        by_cases hc : rootId rt = -1
        · have hleaf : rt = CTree.leaf := (rootId_eq_neg1_iff rt).mp hc
          rw [if_neg (by simpa using hc)]
          funext x
          rw [hleaf]
          simp [inord]
        · rw [if_pos (by simpa using hc)]
          exact ihr n2 lch rch hmapr fuel hfr (d + 1) dm2
      rw [hdm3]
      funext x
      simp only [hdm2d, hdm1]
      by_cases hxr : x ∈ inord rt
      · have hxv : ¬ x = v := fun h => n4 (h ▸ hxr)
        have hxl : x ∉ inord lt := fun h => n5 x h hxr
        have hmem : x ∈ inord (CTree.node lt v rt) := by simp [inord, hxr]
        rw [if_pos hxr, if_pos hmem]
        simp only [depthT, if_neg hxv, if_neg hxl]
        omega
      · rw [if_neg hxr]
        by_cases hxl : x ∈ inord lt
        · have hxv : ¬ x = v := fun h => n3 (h ▸ hxl)
          have hmem : x ∈ inord (CTree.node lt v rt) := by simp [inord, hxl]
          rw [if_pos hxl, if_pos hmem]
          simp only [depthT, if_neg hxv, if_pos hxl]
          omega
        · rw [if_neg hxl]
          by_cases hxv : x = v
          · have hmem : x ∈ inord (CTree.node lt v rt) := by simp [inord, hxv]
            rw [if_pos hxv, if_pos hmem]
            simp only [depthT, if_pos hxv]
            omega
          · have hmem : x ∉ inord (CTree.node lt v rt) := by
              simp only [inord, List.mem_append, List.mem_cons]
              tauto
            rw [if_neg hxv, if_neg hmem]

theorem find_unique {α : Type} (p : α → Bool) : ∀ (l : List α) (a : α),
    a ∈ l → p a = true → (∀ b ∈ l, p b = true → b = a) →
    l.find? p = some a := by
  intro l
  induction l with
  | nil => intro a ha; cases ha
  | cons x xs ih =>
      intro a ha hp huniq
      by_cases hx : p x = true
      · have : x = a := huniq x (List.mem_cons_self x xs) hx
        rw [List.find?_cons_of_pos _ hx, this]
      · have hax : a ≠ x := by
          intro he; rw [he] at hp; exact hx hp
        have ha2 : a ∈ xs := by
          rcases List.mem_cons.mp ha with h | h
          · exact absurd h hax
          · exact h
        rw [List.find?_cons_of_neg _ hx]
        exact ih a ha2 hp (fun b hb hpb => huniq b (List.mem_cons_of_mem x hb) hpb)

theorem rootOf_eq (st : CTSt) (t : CTree) (n : Nat) (hnd : (inord t).Nodup)
    (hio : inord t = List.range n) (hpar : st.par = parT t) :
    rootOf st n = rootId t := by
  cases t with
  | leaf =>
      have hn : n = 0 := by
        have := congrArg List.length hio
        simp [inord] at this
        omega
      subst hn
      simp [rootOf, rootId]
  | node lt v rt =>
      have hv : v ∈ inord (CTree.node lt v rt) := by simp [inord]
      have hvr : v ∈ List.range n := hio ▸ hv
      have hfind : (List.range n).find? (fun i => decide (st.par i = -1)) = some v := by
        apply find_unique
        · exact hvr
        · rw [hpar]
          simp [parT_root]
        · intro b hb hpb
          have hbm : b ∈ inord (CTree.node lt v rt) := by rw [hio]; exact hb
          have hpb2 : parT (CTree.node lt v rt) b = -1 := by
            rw [← hpar]
            exact of_decide_eq_true hpb
          rcases Nat.eq_zero_or_pos (depthT (CTree.node lt v rt) b) with hd | hd
          · have := (depth_zero_iff (CTree.node lt v rt) hnd b hbm).mp hd
            simp only [rootId] at this
            exact Nat.cast_inj.mp this
          · exfalso
            obtain ⟨p, _, hp2, _⟩ := parT_step (CTree.node lt v rt) hnd b hbm hd
            rw [hpb2] at hp2
            exact natCast_ne_negOne p hp2.symm
      simp only [rootOf, hfind, rootId]

/-- Depth field after `buildCartesianTree`: nodes default to depth `0`,
then `computeDepths(root, 0)` runs when a root was found. -/
def lcaDepth (A : List Int) : Nat → Nat :=
  let st := buildCT A
  let root := rootOf st A.length
  if root = -1 then (fun _ => 0)
  else computeDepths st.lch st.rch A.length root 0 (fun _ => 0)

/-- `findLCA` applied to the structures the LCA engine builds for `A`
(`array_to_tree_` is the identity). -/
def lcaFind (A : List Int) (l r : Nat) : Int :=
  findLCA (lcaDepth A) (ancF (buildCT A).par) (maxLog A.length) (l : Int) (r : Int)

/-- `RMQLCABased::performQuery`: throws `AlgorithmException` when the
LCA search fails, otherwise the value stored at the LCA node. -/
def lcaPerformQuery (A : List Int) (l r : Nat) : Except Err Int :=
  let lca := lcaFind A l r
  if lca = -1 then .error .AlgorithmFailure
  else .ok (getE A lca.toNat)

/-- `RMQLCABased::findMinimumIndex`: original array index of the LCA
node (`array_index` of node `i` is `i`). -/
def lcaFindMinIndex (A : List Int) (l r : Nat) : Except Err Nat :=
  let lca := lcaFind A l r
  if lca = -1 then .error .AlgorithmFailure
  else .ok lca.toNat

theorem findLCA_congr (dep dep2 : Nat → Nat) (anc : Nat → Nat → Int) (ml : Nat)
    (u v : Int) (h1 : dep u.toNat = dep2 u.toNat) (h2 : dep v.toNat = dep2 v.toNat) :
    findLCA dep anc ml u v = findLCA dep2 anc ml u v := by
  rw [findLCA, findLCA]
  by_cases hne : u = -1 ∨ v = -1
  · rw [if_pos hne, if_pos hne]
  · rw [if_neg hne, if_neg hne]
    have hiff : dep u.toNat < dep v.toNat ↔ dep2 u.toNat < dep2 v.toNat := by
      rw [h1, h2]
    by_cases hsw : dep u.toNat < dep v.toNat
    · rw [if_pos hsw, if_pos (hiff.mp hsw)]
      dsimp only
      rw [h1, h2]
    · rw [if_neg hsw, if_neg (fun hc => hsw (hiff.mpr hc))]
      dsimp only
      rw [h1, h2]

theorem lcaDepth_members (A : List Int) (hA : 1 ≤ A.length) :
    ∀ z ∈ inord (treeFold A A.length), lcaDepth A z = depthT (treeFold A A.length) z := by
  have hio : inord (treeFold A A.length) = List.range A.length := treeFold_inord A A.length
  have hnd : (inord (treeFold A A.length)).Nodup := by
    rw [hio]; exact List.nodup_range A.length
  obtain ⟨hstk, hpar, hlch, hrch⟩ := buildCT_match A
  have hroot : rootOf (buildCT A) A.length = rootId (treeFold A A.length) :=
    rootOf_eq (buildCT A) (treeFold A A.length) A.length hnd hio hpar
  have hTne : treeFold A A.length ≠ CTree.leaf := by
    intro h
    have := congrArg List.length hio
    rw [h] at this
    simp [inord] at this
    omega
  have hrne : ¬ (rootId (treeFold A A.length) = -1) :=
    fun hc => hTne ((rootId_eq_neg1_iff _).mp hc)
  have hfn : computeDepths (buildCT A).lch (buildCT A).rch A.length
      (rootId (treeFold A A.length)) 0 (fun _ => 0)
      = fun x => if x ∈ inord (treeFold A A.length)
          then 0 + depthT (treeFold A A.length) x else 0 := by
    apply computeDepths_correct (treeFold A A.length) hnd _ _
      (fun x _ => ⟨congrFun hlch x, congrFun hrch x⟩) A.length _ 0 (fun _ => 0)
    have h1 := heightCT_le_length (treeFold A A.length)
    have h2 : (inord (treeFold A A.length)).length = A.length := by
      rw [hio, List.length_range]
    omega
  intro z hz
  simp only [lcaDepth, hroot, if_neg hrne, hfn, if_pos hz]
  omega

theorem lcaFind_spec (A : List Int) (l r : Nat) (h2 : l ≤ r) (h3 : r < A.length) :
    lcaFind A l r = ((argminFirst A l r : Nat) : Int) := by
  have hio : inord (treeFold A A.length) = List.range A.length := treeFold_inord A A.length
  have hio2 : inord (treeFold A A.length) = List.range' 0 A.length := by
    rw [hio, List.range_eq_range']
  have hnd : (inord (treeFold A A.length)).Nodup := by
    rw [hio]; exact List.nodup_range A.length
  obtain ⟨hstk, hpar, hlch, hrch⟩ := buildCT_match A
  have hml : ∀ z ∈ inord (treeFold A A.length),
      depthT (treeFold A A.length) z < 2 ^ maxLog A.length := by
    intro z hz
    have hd := depthT_lt_length (treeFold A A.length) z hz
    have hlen : (inord (treeFold A A.length)).length = A.length := by
      rw [hio, List.length_range]
    have hge := maxLog_ge A.length
    have hp1 := maxLog_pos A.length
    have hle : 2 ^ (maxLog A.length - 1) ≤ 2 ^ maxLog A.length :=
      Nat.pow_le_pow_right (by omega) (by omega)
    omega
  have hlm : l ∈ inord (treeFold A A.length) := by
    rw [hio, List.mem_range]; omega
  have hrm : r ∈ inord (treeFold A A.length) := by
    rw [hio, List.mem_range]; omega
  have hdl : lcaDepth A l = depthT (treeFold A A.length) l :=
    lcaDepth_members A (by omega) l hlm
  have hdr : lcaDepth A r = depthT (treeFold A A.length) r :=
    lcaDepth_members A (by omega) r hrm
  have hcongr : lcaFind A l r
      = findLCA (depthT (treeFold A A.length)) (ancF (parT (treeFold A A.length)))
          (maxLog A.length) (l : Int) (r : Int) := by
    rw [lcaFind, hpar]
    exact findLCA_congr _ _ _ _ _ _
      (by simpa only [Int.toNat_natCast] using hdl)
      (by simpa only [Int.toNat_natCast] using hdr)
  rw [hcongr, findLCA_spec (treeFold A A.length) 0 A.length hnd hio2
    (maxLog A.length) hml l r (by omega) h2 (by omega)]
  rw [lcaT_spec A (treeFold A A.length) 0 A.length (heapS_fold A A.length) hio2
    l r (by omega) h2 (by omega)]

theorem lcaPerformQuery_spec (A : List Int) {l r : Nat} (h : l ≤ r)
    (hr : r < A.length) : lcaPerformQuery A l r = .ok (rmin A l r) := by
  obtain ⟨_, _, hval, _⟩ := argminFirst_spec A h
  simp only [lcaPerformQuery, lcaFind_spec A l r h hr,
    if_neg (natCast_ne_negOne (argminFirst A l r)), Int.toNat_natCast, hval]

theorem lcaFindMinIndex_spec (A : List Int) {l r : Nat} (h : l ≤ r)
    (hr : r < A.length) : lcaFindMinIndex A l r = .ok (argminFirst A l r) := by
  simp only [lcaFindMinIndex, lcaFind_spec A l r h hr,
    if_neg (natCast_ne_negOne (argminFirst A l r)), Int.toNat_natCast]

theorem heap_child (A : List Int) : ∀ (t : CTree), heapS A t → (inord t).Nodup →
    ∀ (i c : Nat), i ∈ inord t →
    (childL t i = (c : Int) ∨ childR t i = (c : Int)) → getE A i ≤ getE A c := by
  intro t
  induction t with
  | leaf => intro _ _ i c hi; cases hi
  | node lt v rt ihl ihr =>
      intro hh hnd i c hi hc
      obtain ⟨h1s, h2s, h3s, h4s⟩ := hh
      obtain ⟨n1, n2, n3, n4, n5⟩ := nodup_node hnd
      by_cases hiv : i = v
      · rcases hc with hc | hc
        · have hcl : rootId lt = (c : Int) := by
            rw [← hc]
            simp [childL, hiv]
          cases lt with
          | leaf => exact absurd hcl.symm (natCast_ne_negOne c)
          | node l2 w r2 =>
              have hcw : w = c := Nat.cast_inj.mp hcl
              have hwm : w ∈ inord (CTree.node l2 w r2) := by simp [inord]
              have := h3s w hwm
              rw [hiv, hcw] at *
              omega
        · have hcr : rootId rt = (c : Int) := by
            rw [← hc]
            simp [childR, hiv]
          cases rt with
          | leaf => exact absurd hcr.symm (natCast_ne_negOne c)
          | node l2 w r2 =>
              have hcw : w = c := Nat.cast_inj.mp hcr
              have hwm : w ∈ inord (CTree.node l2 w r2) := by simp [inord]
              have := h4s w hwm
              rw [hiv, hcw] at *
              omega
      · simp only [inord, List.mem_append, List.mem_cons] at hi
        rcases hi with hil | hiv2 | hir
        · refine ihl h1s n1 i c hil ?_
          rcases hc with hc | hc
          · exact Or.inl (by rw [← childL_sub_left hnd i hil, hc])
          · exact Or.inr (by rw [← childR_sub_left hnd i hil, hc])
        · exact absurd hiv2 hiv
        · refine ihr h2s n2 i c hir ?_
          rcases hc with hc | hc
          · exact Or.inl (by rw [← childL_sub_right hnd i hir, hc])
          · exact Or.inr (by rw [← childR_sub_right hnd i hir, hc])

theorem range_map_getE (A : List Int) :
    (List.range A.length).map (fun i => getE A i) = A := by
  apply List.ext_getElem
  · simp
  · intro i h1 h2
    simp only [List.getElem_map, List.getElem_range, getE]
    rw [List.getD_eq_getElem A 0 h2]

/-- C1: for every array (with values on the C++ `int` range) and every
valid range `l ≤ r < length A`, each non-naive engine's `performQuery`
after a successful preprocess — the DP table lookup, the sparse-table
two-window minimum, the block-decomposition scan (for any configured
block size), and the Cartesian-tree LCA lookup — returns exactly the
naive linear-scan minimum of `A[l..r]`. -/
theorem c1_engine_equivalence (A : List Int) (cfg l r : Nat)
    (h1 : l ≤ r) (h2 : r < A.length) (hv : valBound A) :
    dpVal A l r = scanMin A l r ∧
    sparsePerformQuery A l r = scanMin A l r ∧
    blockPerformQuery (blockBuild cfg A) l r = scanMin A l r ∧
    lcaPerformQuery A l r = Except.ok (scanMin A l r) := by
  have hscan : scanMin A l r = rmin A l r := scanMin_spec A h1
  obtain ⟨hwf, hdata, _, _⟩ := blockBuild_wf cfg A (by omega)
  refine ⟨?_, ?_, ?_, ?_⟩
  · rw [hscan, (dp_spec A h1).1]
  · rw [hscan, sparsePerformQuery_spec A h1]
  · rw [hscan]
    have := blockPerformQuery_spec (blockBuild cfg A) hwf
      (by rw [hdata]; exact hv) h1 (by rw [hdata]; exact h2)
    rw [this, hdata]
  · rw [hscan]
    exact lcaPerformQuery_spec A h1 h2

theorem c1_engine_equivalence_witness :
    ((0 : Nat) ≤ 2 ∧ 2 < List.length [(5 : Int), 1, 4] ∧ valBound [(5 : Int), 1, 4]) ∧
    (dpVal [(5 : Int), 1, 4] 0 2 = scanMin [(5 : Int), 1, 4] 0 2 ∧
     sparsePerformQuery [(5 : Int), 1, 4] 0 2 = scanMin [(5 : Int), 1, 4] 0 2 ∧
     blockPerformQuery (blockBuild 0 [(5 : Int), 1, 4]) 0 2
       = scanMin [(5 : Int), 1, 4] 0 2 ∧
     lcaPerformQuery [(5 : Int), 1, 4] 0 2
       = Except.ok (scanMin [(5 : Int), 1, 4] 0 2)) :=
  ⟨⟨by decide, by decide, by intro x hx; fin_cases hx <;> decide⟩,
   c1_engine_equivalence [(5 : Int), 1, 4] 0 0 2 (by decide) (by decide)
     (by intro x hx; fin_cases hx <;> decide)⟩

/-- C2: for every engine and valid range, `findMinimumIndex` returns
`argminFirst A l r`, which is the first (lowest) index in `[l, r]`
attaining the range minimum: the naive scan's kept index, the DP index
table, the sparse-table tie-to-the-left choice, the block scan, and the
LCA node's array index all agree on it, also when the minimum value
occurs several times. -/
theorem c2_first_argmin (A : List Int) (cfg l r : Nat)
    (h1 : l ≤ r) (h2 : r < A.length) (hv : valBound A) :
    ((scanArg A l r).2 = argminFirst A l r ∧
     dpIdx A l r = argminFirst A l r ∧
     sparseFindMinIndex A l r = argminFirst A l r ∧
     blockFindMinIndex (blockBuild cfg A) l r = argminFirst A l r ∧
     lcaFindMinIndex A l r = Except.ok (argminFirst A l r)) ∧
    (l ≤ argminFirst A l r ∧ argminFirst A l r ≤ r ∧
     getE A (argminFirst A l r) = rmin A l r ∧
     ∀ j, l ≤ j → j < argminFirst A l r → getE A j ≠ rmin A l r) := by
  obtain ⟨hwf, hdata, _, _⟩ := blockBuild_wf cfg A (by omega)
  refine ⟨⟨?_, ?_, ?_, ?_, ?_⟩, argminFirst_spec A h1⟩
  · rw [scanArg_spec A h1]
  · exact (dp_spec A h1).2
  · exact sparseFindMinIndex_spec A h1
  · have := blockFindMinIndex_spec (blockBuild cfg A) hwf
      (by rw [hdata]; exact hv) h1 (by rw [hdata]; exact h2)
    rw [this, hdata]
  · exact lcaFindMinIndex_spec A h1 h2

theorem c2_first_argmin_witness :
    ((0 : Nat) ≤ 3 ∧ 3 < List.length [(4 : Int), 1, 1, 2] ∧
      valBound [(4 : Int), 1, 1, 2]) ∧
    (((scanArg [(4 : Int), 1, 1, 2] 0 3).2 = argminFirst [(4 : Int), 1, 1, 2] 0 3 ∧
      dpIdx [(4 : Int), 1, 1, 2] 0 3 = argminFirst [(4 : Int), 1, 1, 2] 0 3 ∧
      sparseFindMinIndex [(4 : Int), 1, 1, 2] 0 3
        = argminFirst [(4 : Int), 1, 1, 2] 0 3 ∧
      blockFindMinIndex (blockBuild 0 [(4 : Int), 1, 1, 2]) 0 3
        = argminFirst [(4 : Int), 1, 1, 2] 0 3 ∧
      lcaFindMinIndex [(4 : Int), 1, 1, 2] 0 3
        = Except.ok (argminFirst [(4 : Int), 1, 1, 2] 0 3)) ∧
     (0 ≤ argminFirst [(4 : Int), 1, 1, 2] 0 3 ∧
      argminFirst [(4 : Int), 1, 1, 2] 0 3 ≤ 3 ∧
      getE [(4 : Int), 1, 1, 2] (argminFirst [(4 : Int), 1, 1, 2] 0 3)
        = rmin [(4 : Int), 1, 1, 2] 0 3 ∧
      ∀ j, 0 ≤ j → j < argminFirst [(4 : Int), 1, 1, 2] 0 3 →
        getE [(4 : Int), 1, 1, 2] j ≠ rmin [(4 : Int), 1, 1, 2] 0 3)) :=
  ⟨⟨by decide, by decide, by intro x hx; fin_cases hx <;> decide⟩,
   c2_first_argmin [(4 : Int), 1, 1, 2] 0 0 3 (by decide) (by decide)
     (by intro x hx; fin_cases hx <;> decide)⟩

theorem unique_root (t : CTree) (n : Nat) (hnd : (inord t).Nodup)
    (hio : inord t = List.range n) (hn : 1 ≤ n) :
    ∃! i : Nat, i < n ∧ parT t i = -1 := by
  cases t with
  | leaf =>
      exfalso
      have := congrArg List.length hio
      simp [inord] at this
      omega
  | node lt v rt =>
      have hv : v ∈ inord (CTree.node lt v rt) := by simp [inord]
      have hvn : v < n := by
        have := hio ▸ hv
        exact List.mem_range.mp this
      refine ⟨v, ⟨hvn, parT_root lt v rt⟩, ?_⟩
      intro b ⟨hb1, hb2⟩
      have hbm : b ∈ inord (CTree.node lt v rt) := by
        rw [hio]; exact List.mem_range.mpr hb1
      rcases Nat.eq_zero_or_pos (depthT (CTree.node lt v rt) b) with hd | hd
      · have := (depth_zero_iff (CTree.node lt v rt) hnd b hbm).mp hd
        simp only [rootId] at this
        exact Nat.cast_inj.mp this
      · exfalso
        obtain ⟨p, _, hp2, _⟩ := parT_step (CTree.node lt v rt) hnd b hbm hd
        rw [hb2] at hp2
        exact natCast_ne_negOne p hp2.symm

/-- C6: for every non-empty array, the pointer structure
`buildCartesianTree` stores matches the Cartesian tree whose in-order
traversal is exactly the index sequence `0, …, n-1` (so in-order
reproduces the input array), every stored child pointer points to a
node of value at least its parent's (min-heap order), and exactly one
node has parent `-1`. -/
theorem c6_cartesian_tree (A : List Int) (hA : A ≠ []) :
    stMatch (buildCT A) (treeFold A A.length) ∧
    inord (treeFold A A.length) = List.range A.length ∧
    (List.range A.length).map (fun i => getE A i) = A ∧
    (∀ i c : Nat, i ∈ inord (treeFold A A.length) →
      ((buildCT A).lch i = (c : Int) ∨ (buildCT A).rch i = (c : Int)) →
      getE A i ≤ getE A c) ∧
    (∃! i : Nat, i < A.length ∧ (buildCT A).par i = -1) := by
  have hm := buildCT_match A
  obtain ⟨hstk, hpar, hlch, hrch⟩ := hm
  have hio : inord (treeFold A A.length) = List.range A.length :=
    treeFold_inord A A.length
  have hnd : (inord (treeFold A A.length)).Nodup := by
    rw [hio]; exact List.nodup_range A.length
  have hn : 1 ≤ A.length := List.length_pos.mpr hA
  refine ⟨⟨hstk, hpar, hlch, hrch⟩, hio, range_map_getE A, ?_, ?_⟩
  · intro i c hi hc
    refine heap_child A (treeFold A A.length) (heapS_fold A A.length) hnd i c hi ?_
    rcases hc with hc | hc
    · exact Or.inl (by rw [← congrFun hlch i, hc])
    · exact Or.inr (by rw [← congrFun hrch i, hc])
  · have := unique_root (treeFold A A.length) A.length hnd hio hn
    simpa only [← congrFun hpar] using this

theorem c6_cartesian_tree_witness :
    ([(3 : Int), 1, 2] ≠ []) ∧
    (stMatch (buildCT [(3 : Int), 1, 2]) (treeFold [(3 : Int), 1, 2] 3) ∧
     inord (treeFold [(3 : Int), 1, 2] 3) = List.range 3 ∧
     (List.range 3).map (fun i => getE [(3 : Int), 1, 2] i) = [(3 : Int), 1, 2] ∧
     (∀ i c : Nat, i ∈ inord (treeFold [(3 : Int), 1, 2] 3) →
       ((buildCT [(3 : Int), 1, 2]).lch i = (c : Int) ∨
        (buildCT [(3 : Int), 1, 2]).rch i = (c : Int)) →
       getE [(3 : Int), 1, 2] i ≤ getE [(3 : Int), 1, 2] c) ∧
     (∃! i : Nat, i < 3 ∧ (buildCT [(3 : Int), 1, 2]).par i = -1)) :=
  ⟨by decide, c6_cartesian_tree [(3 : Int), 1, 2] (by decide)⟩

/-- C10: `queryDetailed` returns exactly the engine's
`(performQuery, findMinimumIndex)` pair on a valid range, and for each
of the five engines that pair is internally consistent: the detailed
minimum value equals the fast-path `query` value (the range minimum),
the index lies in `[l, r]`, and the stored element there equals the
value. -/
theorem c10_query_detailed_consistency (A : List Int) (cfg l r : Nat)
    (h1 : l ≤ r) (h2 : r < A.length) (hv : valBound A) :
    (∀ (pf : List Int → Nat → Nat → Int) (fidx : List Int → Nat → Nat → Nat),
      queryDetailedR pf fidx ⟨A, true⟩ l r = .ok (pf A l r, fidx A l r) ∧
      queryR pf ⟨A, true⟩ l r = .ok (pf A l r)) ∧
    (∀ (pv : Int) (pi : Nat),
      ((pv = scanMin A l r ∧ pi = (scanArg A l r).2) ∨
       (pv = dpVal A l r ∧ pi = dpIdx A l r) ∨
       (pv = sparsePerformQuery A l r ∧ pi = sparseFindMinIndex A l r) ∨
       (pv = blockPerformQuery (blockBuild cfg A) l r ∧
        pi = blockFindMinIndex (blockBuild cfg A) l r) ∨
       (Except.ok pv = lcaPerformQuery A l r ∧
        Except.ok pi = lcaFindMinIndex A l r)) →
      pv = rmin A l r ∧ l ≤ pi ∧ pi ≤ r ∧ getE A pi = pv) := by
  obtain ⟨ha1, ha2, ha3, ha4⟩ := argminFirst_spec A h1
  obtain ⟨hwf, hdata, _, _⟩ := blockBuild_wf cfg A (by omega)
  constructor
  · intro pf fidx
    have hvq : validateQuery ⟨A, true⟩ l r = none := by
      simp only [validateQuery]
      dsimp only
      rw [if_neg (by omega), if_neg (by omega), if_neg (by omega)]
    constructor
    · simp only [queryDetailedR]
      rw [if_neg (by simp), hvq]
    · simp only [queryR]
      rw [if_neg (by simp), hvq]
  · intro pv pi hcase
    have hmain : pv = rmin A l r ∧ pi = argminFirst A l r := by
      rcases hcase with ⟨hp, hq⟩ | ⟨hp, hq⟩ | ⟨hp, hq⟩ | ⟨hp, hq⟩ | ⟨hp, hq⟩
      · rw [hp, hq, scanMin_spec A h1, scanArg_spec A h1]
        exact ⟨rfl, rfl⟩
      · rw [hp, hq]
        exact ⟨(dp_spec A h1).1, (dp_spec A h1).2⟩
      · rw [hp, hq, sparsePerformQuery_spec A h1, sparseFindMinIndex_spec A h1]
        exact ⟨rfl, rfl⟩
      · rw [hp, hq,
          blockPerformQuery_spec (blockBuild cfg A) hwf
            (by rw [hdata]; exact hv) h1 (by rw [hdata]; exact h2),
          blockFindMinIndex_spec (blockBuild cfg A) hwf
            (by rw [hdata]; exact hv) h1 (by rw [hdata]; exact h2), hdata]
        exact ⟨rfl, rfl⟩
      · rw [lcaPerformQuery_spec A h1 h2] at hp
        rw [lcaFindMinIndex_spec A h1 h2] at hq
        exact ⟨(Except.ok.injEq _ _ ▸ hp :), (Except.ok.injEq _ _ ▸ hq :)⟩
    obtain ⟨hp, hq⟩ := hmain
    refine ⟨hp, ?_, ?_, ?_⟩
    · rw [hq]; exact ha1
    · rw [hq]; exact ha2
    · rw [hq, hp]; exact ha3

theorem c10_query_detailed_consistency_witness :
    (0 : Nat) ≤ 2 ∧ 2 < List.length [(2 : Int), 0, 2] ∧
    valBound [(2 : Int), 0, 2] ∧
    queryDetailedR scanMin (fun d i j => (scanArg d i j).2)
        ⟨[(2 : Int), 0, 2], true⟩ 0 2
      = .ok (scanMin [(2 : Int), 0, 2] 0 2, (scanArg [(2 : Int), 0, 2] 0 2).2) :=
  ⟨by decide, by decide, by intro x hx; fin_cases hx <;> decide,
   ((c10_query_detailed_consistency [(2 : Int), 0, 2] 0 0 2 (by decide) (by decide)
      (by intro x hx; fin_cases hx <;> decide)).1 scanMin
      (fun d i j => (scanArg d i j).2)).1⟩
